import Mathlib

/-!
# Verification of the User-Agent classifier (`ua.go`)

A shallow embedding of the Go package `user_agent` and machine-checked proofs of the
properties its specification states about `Parse` and its helpers.

## Modelling conventions

* A Go `string` is modelled as `List Char`: the sequence of Unicode code points of a
  well-formed UTF-8 string.  For such strings the byte-level searches of package
  `strings` (`Contains`, `Index`, `HasPrefix`, `Cut`, `Split`, `ReplaceAll`) coincide with
  the code-point-level searches below, because every search text used by the program is
  itself well-formed UTF-8 and UTF-8 is self-synchronising.  Offsets returned by `Index`
  are only ever used to slice the string they were computed from, so they are kept as
  code-point offsets.  `len` is the byte length.
* A Go string need not be well-formed UTF-8.  `unquote` is the one place where that
  matters, since it decodes the bytes into runes and encodes them again; it is therefore
  modelled a second time on bytes (`unquoteBytes`), and the two models are proved to agree
  on well-formed strings.
* An unset Go string field is the empty string `""`, here the empty list.
* The `for … range patterns` loop with its `break` is the recursive function
  `matchPatterns`; the statements after the loop are `postProcess`.
* Slice expressions `f[i:]` and `segments[:2]` are `List.drop` and `List.take`.
-/

namespace user_agent

/-- A Go string: the sequence of its code points. -/
abbrev Str := List Char

/-! ## The parts of package `strings` (and `unicode`) that the program uses -/

namespace strings

/-- Go `strings.HasPrefix(s, prefix)`. -/
def HasPrefix (s pre : Str) : Bool := pre.isPrefixOf s

/-- Go `strings.Contains(s, substr)`: `substr` occurs somewhere in `s`. -/
def Contains : Str → Str → Bool
  | [], sub => sub.isPrefixOf []
  | c :: cs, sub => sub.isPrefixOf (c :: cs) || Contains cs sub

/-- Go `strings.Index(s, substr)`: offset of the first occurrence, `-1` when absent. -/
def Index : Str → Str → Int
  | [], sub => if sub.isPrefixOf [] then 0 else -1
  | c :: cs, sub =>
    if sub.isPrefixOf (c :: cs) then 0
    else
      let i := Index cs sub
      if i = -1 then -1 else i + 1

/-- Go `strings.Cut(s, sep)` for a one-character separator: the text before the first
`sep`, the text after it, and whether `sep` was found. -/
def Cut : Str → Char → Str × Str × Bool
  | [], _ => ([], [], false)
  | c :: cs, sep =>
    if c = sep then ([], cs, true)
    else
      let r := Cut cs sep
      if r.2.2 then (c :: r.1, r.2.1, true) else (c :: cs, [], false)

/-- Go `strings.Split(s, sep)` for a one-character separator (the program only splits on
`"."` and `"_"`): all segments between occurrences of `sep`; never the empty slice. -/
def Split : Str → Char → List Str
  | [], _ => [[]]
  | c :: cs, sep =>
    if c = sep then [] :: Split cs sep
    else
      match Split cs sep with
      | [] => [[c]]
      | seg :: rest => (c :: seg) :: rest

/-- Go `strings.Join(elems, sep)`. -/
def Join (elems : List Str) (sep : Str) : Str := sep.intercalate elems

/-- Worker of `ReplaceAll`: the counter is the number of characters of a matched
occurrence of `old` that remain to be skipped. -/
def replaceAllAux (old new : Str) : Nat → Str → Str
  | _, [] => []
  | n + 1, _ :: cs => replaceAllAux old new n cs
  | 0, c :: cs =>
    if old.isPrefixOf (c :: cs) then new ++ replaceAllAux old new (old.length - 1) cs
    else c :: replaceAllAux old new 0 cs

/-- Go `strings.ReplaceAll(s, old, new)` for non-empty `old`: the non-overlapping
occurrences of `old`, taken from the left, are replaced by `new`. -/
def ReplaceAll (s old new : Str) : Str := replaceAllAux old new 0 s

/-- Go `unicode.IsSpace`: the Latin-1 spaces and the code points with the Unicode
White_Space property. -/
def isSpace (c : Char) : Bool :=
  c.toNat = 0x09 || c.toNat = 0x0A || c.toNat = 0x0B || c.toNat = 0x0C || c.toNat = 0x0D ||
  c.toNat = 0x20 || c.toNat = 0x85 || c.toNat = 0xA0 || c.toNat = 0x1680 ||
  (0x2000 ≤ c.toNat && c.toNat ≤ 0x200A) || c.toNat = 0x2028 || c.toNat = 0x2029 ||
  c.toNat = 0x202F || c.toNat = 0x205F || c.toNat = 0x3000

/-- A field that has started ends before `cs`: at the end of the text or at a space. -/
def fieldEnds : Str → Bool
  | [] => true
  | d :: _ => isSpace d

/-- Go `strings.Fields(s)`: the maximal runs of non-space characters, in order. -/
def Fields : Str → List Str
  | [] => []
  | c :: cs =>
    if isSpace c then Fields cs
    else if fieldEnds cs then [c] :: Fields cs
    else
      match Fields cs with
      | [] => [[c]]
      | f :: fs => (c :: f) :: fs

end strings

/-- Go `len(s)` for a string: its length in bytes of UTF-8. -/
def len (s : Str) : Nat := (s.map Char.utf8Size).sum

/-! ## The rule table -/

/-- Go `match`: indicates the appropriate field(s) for the supplied find text. -/
structure Match where
  find : Str
  deviceType : Str := []
  operatingSystem : Str := []
  clientType : Str := []
  clientName : Str := []
deriving DecidableEq

/-- A rule that gives a device type and an operating system. -/
def Match.device (find deviceType operatingSystem : String) : Match :=
  { find := find.toList, deviceType := deviceType.toList,
    operatingSystem := operatingSystem.toList }

/-- A rule that gives a client type and a client name. -/
def Match.client (find clientType clientName : String) : Match :=
  { find := find.toList, clientType := clientType.toList, clientName := clientName.toList }

/-- Go `patterns`: used to identify appropriate fields in the UserAgent struct. -/
def patterns : List Match := [
  Match.device "Macintosh" "Desktop" "macOS",
  Match.device "iPad" "Tablet" "iPadOS",
  Match.device "iPhone" "Mobile" "iOS",
  Match.device "Mobile" "Mobile" "",
  Match.device "Android" "Tablet" "Android",
  Match.device "Windows" "Desktop" "Windows",
  Match.device "CrOS" "Desktop" "ChromeOS",
  Match.device "Tizen" "" "Tizen",
  Match.device "Linux" "" "Linux",
  Match.client "pa11y" "Bot" "Pa11y",
  Match.client "AhrefsBot" "Bot" "AhrefsBot",
  Match.client "Applebot" "Bot" "Applebot",
  Match.client "Baiduspider" "Bot" "Baiduspider",
  Match.client "adidxbot" "Bot" "AdIdxBot",
  Match.client "bingbot" "Bot" "Bingbot",
  Match.client "BingPreview" "Bot" "BingPreview",
  Match.client "Cincraw" "Bot" "Cincraw",
  Match.client "facebookexternalhit" "Bot" "FacebookBot",
  Match.client "Googlebot" "Bot" "Googlebot",
  Match.client "AdsBot-Google" "Bot" "Google-AdsBot",
  Match.client "Google-Adwords" "Bot" "Google-AdWords",
  Match.client "Google-Read-Aloud" "Bot" "Google-Read-Aloud",
  Match.client "Google-Structured-Data-Testing-Tool" "Bot" "Google-Testing",
  Match.client "HeadlessChrome" "Bot" "HeadlessChrome",
  Match.client "HubSpot" "Bot" "HubSpot",
  Match.client "Linespider" "Bot" "Linespider",
  Match.client "PagePeeker" "Bot" "PagePeeker",
  Match.client "Pinterestbot" "Bot" "Pinterestbot",
  Match.client "Seekport" "Bot" "Seekport",
  Match.client "SeoSiteCheckup" "Bot" "SeoSiteCheckup",
  Match.client "Sitebulb" "Bot" "Sitebulb",
  Match.client "SiteScoreBot" "Bot" "SiteScoreBot",
  Match.client "SMTBot" "Bot" "SMTBot",
  Match.client "Yeti" "Bot" "Yeti",
  Match.client "YisouSpider" "Bot" "YisouSpider",
  Match.client "FBSV" "App" "Facebook",
  Match.client "FBAV" "App" "Facebook",
  Match.client "GSA/" "App" "GoogleSearch",
  Match.client "Instagram" "App" "Instagram",
  Match.client "LinkedInApp" "App" "LinkedIn",
  Match.client "Pinterest" "App" "Pinterest",
  Match.client "Snapchat" "App" "Snapchat",
  Match.client "MicroMessenger" "App" "WeChat",
  Match.client "ADG/" "Browser" "AOLDesktop",
  Match.client "Silk" "Browser" "Silk",
  Match.client "FxiOS" "Browser" "Firefox",
  Match.client "Klarna" "Browser" "Firefox",
  Match.client "Firefox" "Browser" "Firefox",
  Match.client "EdgA/" "Browser" "Edge",
  Match.client "EdgiOS/" "Browser" "Edge",
  Match.client "EdgW/" "Browser" "Edge",
  Match.client "Edg/" "Browser" "Edge",
  Match.client "Edge/" "Browser" "Edge",
  Match.client "MSIE" "Browser" "InternetExplorer",
  Match.client "Trident" "Browser" "InternetExplorer",
  Match.client "OPR/" "Browser" "Opera",
  Match.client "OPT/" "Browser" "Opera",
  Match.client "DuckDuckGo" "Browser" "DuckDuckGo",
  Match.client "SamsungBrowser" "Browser" "SamsungBrowser",
  Match.client "CriOS" "Browser" "Chrome",
  Match.client "Chrome" "Browser" "Chrome",
  Match.client "Safari" "Browser" "Safari"
]

/-! ## The result record -/

/-- Go `UserAgent`: basic information about the user, extracted from an HTTP User-Agent
request header. -/
structure UserAgent where
  Header : Str := []
  Fields : List Str := []
  ClientType : Str := []
  ClientName : Str := []
  ClientVersion : Str := []
  DeviceType : Str := []
  OSName : Str := []
  OSVersion : Str := []
  URL : Str := []
deriving DecidableEq

/-! ## Helpers of `Parse` -/

/-- Go `unquote` on the runes of its argument: keeps the runes other than the single quote
(code 39) and the double quote (code 34).  `unquoteBytes` is the same function on the bytes
of a string that need not be well-formed UTF-8. -/
def unquote : Str → Str
  | [] => []
  | r :: rs =>
    if r ≠ Char.ofNat 39 ∧ r ≠ Char.ofNat 34 then r :: unquote rs else unquote rs

/-- The final loop of Go `parseFields`: drops `","` and the `AppleWebKit…` fields. -/
def keepFields : List Str → List Str
  | [] => []
  | f :: fs =>
    if f ≠ ",".toList ∧ ¬ strings.HasPrefix f "AppleWebKit".toList then f :: keepFields fs
    else keepFields fs

/-- The chain of `strings.ReplaceAll` calls of Go `parseFields`, in source order. -/
def removeNoise (ua : Str) : Str :=
  let s := strings.ReplaceAll ua "Mozilla/5.0".toList []
  let s := strings.ReplaceAll s "Safari/537.36".toList []
  let s := strings.ReplaceAll s "KHTML".toList []
  let s := strings.ReplaceAll s "like Gecko".toList []
  let s := strings.ReplaceAll s "compatible".toList []
  let s := strings.ReplaceAll s " like Mac OS X".toList []
  let s := strings.ReplaceAll s "CPU ".toList []
  let s := strings.ReplaceAll s "Intel ".toList []
  let s := strings.ReplaceAll s "Mac OS X".toList "OS".toList
  let s := strings.ReplaceAll s "Windows NT".toList "Windows".toList
  let s := strings.ReplaceAll s "WOW64".toList []
  let s := strings.ReplaceAll s "Win64".toList []
  let s := strings.ReplaceAll s "x86_64".toList []
  let s := strings.ReplaceAll s "x64".toList []
  let s := strings.ReplaceAll s "aarch64".toList []
  let s := strings.ReplaceAll s "(".toList " ".toList
  let s := strings.ReplaceAll s ")".toList " ".toList
  let s := strings.ReplaceAll s "[".toList []
  let s := strings.ReplaceAll s "]".toList []
  strings.ReplaceAll s ";".toList " ".toList

/-- Go `parseFields`: removes common, meaningless text and parses the User-Agent string
into individual segments for analysis. -/
def parseFields (ua : Str) : List Str :=
  keepFields (strings.Fields (removeNoise ua))

/-- Go `botURL`: returns a URL, if present in the User-Agent string. -/
def botURL : List Str → Str
  | [] => []
  | f :: fs =>
    if strings.Contains f "://".toList then
      let i := strings.Index f "http".toList
      let i := if i = -1 then 0 else i
      f.drop i.toNat
    else botURL fs

/-- The major.minor cut shared by `version` and `clientVersion`: `none` stands for
falling out of the `if … else if` without returning. -/
def cutSegments (segments : List Str) : Option Str :=
  if segments.length = 1 then segments.head?
  else if segments.length ≥ 2 then some (strings.Join (segments.take 2) ".".toList)
  else none

/-- Go `version`: the major.minor version number indicated by "Version". -/
def version : List Str → Str
  | [] => []
  | f :: fs =>
    if strings.HasPrefix f "Version/".toList ∧ len f > 8 then
      let i := strings.Index f "/".toList + 1
      match cutSegments (strings.Split (f.drop i.toNat) '.') with
      | some v => v
      | none => version fs
    else version fs

/-- Go `releaseVersion`: the version number indicated by "rv". -/
def releaseVersion : List Str → Str
  | [] => []
  | f :: fs =>
    if strings.HasPrefix f "rv:".toList ∧ len f > 3 then
      let i := strings.Index f ":".toList + 1
      f.drop i.toNat
    else releaseVersion fs

/-- Go `clientVersion`: splits a clientName/clientVersion field on the slash, returning
a major.minor version. -/
def clientVersion : List Str → Str → Str
  | [], _ => []
  | f :: fs, clientName =>
    if strings.Contains f clientName then
      let r := strings.Cut f '/'
      if r.2.2 then
        match cutSegments (strings.Split r.2.1 '.') with
        | some v => v
        | none => clientVersion fs clientName
      else clientVersion fs clientName
    else clientVersion fs clientName

/-- Go `validRune`: the rune appears in the set of valid runes. -/
def validRune : List Char → Char → Bool
  | [], _ => false
  | i :: is, r => if r = i then true else validRune is r

/-- Go `isDigits`: the text is non-empty and made of digits, `.` and `_` only. -/
def isDigits (ver : Str) : Bool :=
  if ver = [] then false
  else ver.all (validRune "0123456789._".toList)

/-- Go `majorMinorVersion`: a cleaned and trimmed major.minor version number. -/
def majorMinorVersion (ver : Str) : Str :=
  if ¬ isDigits ver then []
  else
    let segments :=
      if strings.Contains ver "_".toList then strings.Split ver '_' else strings.Split ver '.'
    if segments.length ≥ 2 then strings.Join (segments.take 2) ".".toList
    else if segments.length = 1 then segments.headD []
    else ver

/-- The loop of Go `osVersion`: the field following the first field equal to `osName`
that has a successor. -/
def osVersionLoop : List Str → Str → Str
  | [], _ => []
  | f :: fs, osName =>
    if f = osName ∧ fs ≠ [] then majorMinorVersion (fs.headD [])
    else osVersionLoop fs osName

/-- Go `osVersion`: an operating system version, if available. -/
def osVersion (fields : List Str) (osName : Str) : Str :=
  if osName = [] then []
  else
    let osName :=
      if osName = "iOS".toList ∨ osName = "iPadOS".toList ∨ osName = "macOS".toList
      then "OS".toList else osName
    osVersionLoop fields osName

/-! ## `Parse` -/

/-- The body of the `for … range patterns` loop of Go `Parse`, before its `break` test. -/
def applyPattern (cleaned : Str) (ua : UserAgent) (p : Match) : UserAgent :=
  if strings.Contains cleaned p.find then
    let ua : UserAgent := if p.deviceType ≠ [] ∧ ua.DeviceType = [] then
      { ua with DeviceType := p.deviceType } else ua
    let ua : UserAgent := if p.operatingSystem ≠ [] ∧ ua.OSName = [] then
      { ua with OSName := p.operatingSystem } else ua
    let ua : UserAgent := if p.clientType ≠ [] ∧ ua.ClientType = [] then
      { ua with ClientType := p.clientType } else ua
    if p.clientName ≠ [] ∧ ua.ClientName = [] then
      { ua with ClientName := p.clientName, ClientVersion := clientVersion ua.Fields p.find }
    else ua
  else ua

/-- The `break` test of the loop: the UserAgent is complete. -/
def complete (ua : UserAgent) : Bool :=
  ua.DeviceType ≠ [] ∧ ua.OSName ≠ [] ∧ ua.ClientType ≠ [] ∧ ua.ClientName ≠ []

/-- The `for … range patterns` loop of Go `Parse`, run over the rules `ps`. -/
def matchPatterns (cleaned : Str) : List Match → UserAgent → UserAgent
  | [], ua => ua
  | p :: ps, ua =>
    let ua : UserAgent := applyPattern cleaned ua p
    if complete ua then ua else matchPatterns cleaned ps ua

/-- The start of Go `Parse`: header, fields, and the "a URL always indicates a Bot" step. -/
def initial (userAgent : Str) : UserAgent :=
  let ua : UserAgent := { Header := unquote userAgent }
  let ua : UserAgent := { ua with Fields := parseFields ua.Header }
  if strings.Contains ua.Header "://".toList then
    { ua with ClientType := "Bot".toList, URL := botURL ua.Fields }
  else ua

/-- The post-processing of Go `Parse`: default values and version updates. -/
def postProcess (ua : UserAgent) : UserAgent :=
  let ua : UserAgent := if ua.OSName = [] then { ua with OSName := "Other".toList }
    else { ua with OSVersion := osVersion ua.Fields ua.OSName }
  let ua : UserAgent := if ua.DeviceType = [] then { ua with DeviceType := "Desktop".toList } else ua
  let ua : UserAgent :=
    if ua.ClientName = [] then
      if ua.OSName = "iOS".toList ∨ ua.OSName = "iPadOS".toList ∨ ua.OSName = "macOS".toList then
        let ua : UserAgent := if ua.ClientType = [] then { ua with ClientType := "Browser".toList } else ua
        { ua with ClientName := "Safari".toList }
      else if ua.OSName = "Android".toList then
        let ua : UserAgent := if ua.ClientType = [] then { ua with ClientType := "Browser".toList } else ua
        { ua with ClientName := "Chrome".toList }
      else { ua with ClientName := "Other".toList }
    else ua
  let ua : UserAgent :=
    if ua.ClientName = "Safari".toList then
      let ver := version ua.Fields
      if ver ≠ [] then { ua with ClientVersion := ver } else ua
    else if ua.ClientName = "InternetExplorer".toList then
      let ver := releaseVersion ua.Fields
      if ver ≠ [] then { ua with ClientVersion := ver } else ua
    else ua
  if ua.ClientType = [] then { ua with ClientType := "Other".toList } else ua

/-- The match buffer of Go `Parse`: `cleaned := strings.Join(ua.Fields, " ")`. -/
def cleaned (userAgent : Str) : Str :=
  strings.Join (parseFields (unquote userAgent)) " ".toList

/-- The state of Go `Parse` when the pattern loop has finished. -/
def matched (userAgent : Str) : UserAgent :=
  matchPatterns (cleaned userAgent) patterns (initial userAgent)

/-- Go `Parse`: extracts client, device, and operating system information from the
User-Agent request header provided. -/
def Parse (userAgent : Str) : UserAgent :=
  postProcess (matched userAgent)

/-- Go `UserAgent.String`: an abbreviated user agent string. -/
def UserAgent.String (ua : UserAgent) : Str :=
  let s : Str := ua.ClientType
  let s : Str := if ua.ClientName ≠ [] then s ++ " ".toList ++ ua.ClientName else s
  let s : Str := if ua.ClientVersion ≠ [] then s ++ " ".toList ++ ua.ClientVersion else s
  let s : Str := if ua.DeviceType ≠ [] then s ++ " ".toList ++ ua.DeviceType else s
  let s : Str := if ua.OSName ≠ [] then s ++ " ".toList ++ ua.OSName else s
  let s : Str := if ua.OSVersion ≠ [] then s ++ " ".toList ++ ua.OSVersion else s
  if ua.URL ≠ [] then s ++ " ".toList ++ ua.URL else s

/-! ## Specification-level definitions used to state the properties -/

/-- The value that the earliest rule of `ps` which matches the buffer and specifies the slot
gives for that slot; empty when there is no such rule. This is the specification's
"first rule in catalog order wins per slot". -/
def firstMatch (cleaned : Str) (slot : Match → Str) : List Match → Str
  | [] => []
  | p :: ps =>
    if strings.Contains cleaned p.find ∧ slot p ≠ [] then slot p
    else firstMatch cleaned slot ps

/-- The rule at position `i` of the `patterns` table, counted from 0. -/
def rule (i : Nat) : Match := patterns.getD i { find := [] }

/-- The first token that contains `://`, if any. -/
def firstURLToken (fields : List Str) : Option Str :=
  fields.find? (fun f => strings.Contains f "://".toList)

/-- The rules of the `patterns` table whose client type is `Bot`, in table order. -/
def botRules : List Match := patterns.filter (fun p => p.clientType = "Bot".toList)

/-- The canonical rendering in the specification's words (section 4.5): the values of
clientType, clientName, clientVersion, deviceType, osName, osVersion and url, in that
order, every empty one omitted, joined by single spaces. -/
def canonicalRendering (ua : UserAgent) : Str :=
  strings.Join
    ([ua.ClientType, ua.ClientName, ua.ClientVersion, ua.DeviceType, ua.OSName, ua.OSVersion,
      ua.URL].filter (fun f => f ≠ []))
    " ".toList

/-- The two-segment truncation as the specification words it: the first two dot-separated
segments joined by `.`, and the text itself when it contains no `.`. -/
def firstTwoSegments (x : Str) : Str :=
  if '.' ∈ x then strings.Join ((strings.Split x '.').take 2) ".".toList else x

/-- The key that `osVersion` searches for: `OS` for the Apple platforms, the name of the
operating system otherwise. -/
def osKey (osName : Str) : Str :=
  if osName = "iOS".toList ∨ osName = "iPadOS".toList ∨ osName = "macOS".toList
  then "OS".toList else osName

/-- The token right after the first token equal to `key`, if there is one. -/
def tokenAfter (fields : List Str) (key : Str) : Option Str :=
  match fields.dropWhile (fun f => decide (f ≠ key)) with
  | _ :: next :: _ => some next
  | _ => none

/-! ## The helpers and `Parse` with the run-time bounds checks of Go made explicit

Every slice and index expression of the source is evaluated through `sliceFrom`, `sliceTo`
or `indexAt`, which return `none` where the Go run time panics.  The bound of `xs[:n]` used
here is `len(xs)`, which is at most the capacity that Go checks against. -/

/-- Go `s[i:]` on a string: `none` unless `0 ≤ i ≤ len(s)`. -/
def sliceFrom (s : Str) (i : Int) : Option Str :=
  if 0 ≤ i ∧ i ≤ (s.length : Int) then some (s.drop i.toNat) else none

/-- Go `xs[:n]` on a slice of strings: `none` unless `n ≤ len(xs)`. -/
def sliceTo (xs : List Str) (n : Nat) : Option (List Str) :=
  if n ≤ xs.length then some (xs.take n) else none

/-- Go `xs[i]` on a slice of strings: `none` unless `i < len(xs)`. -/
def indexAt (xs : List Str) (i : Nat) : Option Str :=
  if i < xs.length then some (xs.getD i []) else none

/-- Go `rs[i]` on a slice of runes: `none` unless `i < len(rs)`. -/
def runeAt (rs : List Char) (i : Nat) : Option Char :=
  if i < rs.length then some (rs.getD i (Char.ofNat 0)) else none

/-- The local `quotes` of Go `unquote`: the single and the double quote. -/
def quotes : List Char := [Char.ofNat 39, Char.ofNat 34]

/-- Go `unquote`, with the bounds checks of `quotes[0]` and `quotes[1]`. -/
def unquoteChecked : Str → Option Str
  | [] => some []
  | r :: rs =>
    (runeAt quotes 0).bind fun q0 =>
      (runeAt quotes 1).bind fun q1 =>
        (unquoteChecked rs).map fun t => if r ≠ q0 ∧ r ≠ q1 then r :: t else t

/-- Go `botURL`, with the bounds check of `f[i:]`. -/
def botURLChecked : List Str → Option Str
  | [] => some []
  | f :: fs =>
    if strings.Contains f "://".toList then
      let i := strings.Index f "http".toList
      let i := if i = -1 then 0 else i
      sliceFrom f i
    else botURLChecked fs

/-- Go `version`, with the bounds checks of `f[i:]`, `segments[0]` and `segments[:2]`. -/
def versionChecked : List Str → Option Str
  | [] => some []
  | f :: fs =>
    if strings.HasPrefix f "Version/".toList ∧ len f > 8 then
      let i := strings.Index f "/".toList + 1
      (sliceFrom f i).bind fun rest =>
        let segments := strings.Split rest '.'
        if segments.length = 1 then indexAt segments 0
        else if segments.length ≥ 2 then
          (sliceTo segments 2).map fun t => strings.Join t ".".toList
        else versionChecked fs
    else versionChecked fs

/-- Go `releaseVersion`, with the bounds check of `f[i:]`. -/
def releaseVersionChecked : List Str → Option Str
  | [] => some []
  | f :: fs =>
    if strings.HasPrefix f "rv:".toList ∧ len f > 3 then
      let i := strings.Index f ":".toList + 1
      sliceFrom f i
    else releaseVersionChecked fs

/-- Go `clientVersion`, with the bounds checks of `segments[0]` and `segments[:2]`. -/
def clientVersionChecked : List Str → Str → Option Str
  | [], _ => some []
  | f :: fs, clientName =>
    if strings.Contains f clientName then
      let r := strings.Cut f '/'
      if r.2.2 then
        let segments := strings.Split r.2.1 '.'
        if segments.length = 1 then indexAt segments 0
        else if segments.length ≥ 2 then
          (sliceTo segments 2).map fun t => strings.Join t ".".toList
        else clientVersionChecked fs clientName
      else clientVersionChecked fs clientName
    else clientVersionChecked fs clientName

/-- Go `majorMinorVersion`, with the bounds checks of `segments[:2]` and `segments[0]`. -/
def majorMinorVersionChecked (ver : Str) : Option Str :=
  if ¬ isDigits ver then some []
  else
    let segments :=
      if strings.Contains ver "_".toList then strings.Split ver '_' else strings.Split ver '.'
    if segments.length ≥ 2 then (sliceTo segments 2).map fun t => strings.Join t ".".toList
    else if segments.length = 1 then indexAt segments 0
    else some ver

/-- The loop of Go `osVersion` from position `i` on, `rest` being `fields[i:]`, with the
bounds check of `fields[i+1]`. -/
def osVersionLoopChecked (fields : List Str) (osName : Str) : Nat → List Str → Option Str
  | _, [] => some []
  | i, f :: rest =>
    if f = osName ∧ i + 1 < fields.length then
      (indexAt fields (i + 1)).bind majorMinorVersionChecked
    else osVersionLoopChecked fields osName (i + 1) rest

/-- Go `osVersion`, with the bounds check of `fields[i+1]`. -/
def osVersionChecked (fields : List Str) (osName : Str) : Option Str :=
  if osName = [] then some []
  else
    let osName :=
      if osName = "iOS".toList ∨ osName = "iPadOS".toList ∨ osName = "macOS".toList
      then "OS".toList else osName
    osVersionLoopChecked fields osName 0 fields

/-- The loop body of Go `Parse`, calling the checked `clientVersion`. -/
def applyPatternChecked (cleaned : Str) (ua : UserAgent) (p : Match) : Option UserAgent :=
  if strings.Contains cleaned p.find then
    let ua : UserAgent := if p.deviceType ≠ [] ∧ ua.DeviceType = [] then
      { ua with DeviceType := p.deviceType } else ua
    let ua : UserAgent := if p.operatingSystem ≠ [] ∧ ua.OSName = [] then
      { ua with OSName := p.operatingSystem } else ua
    let ua : UserAgent := if p.clientType ≠ [] ∧ ua.ClientType = [] then
      { ua with ClientType := p.clientType } else ua
    if p.clientName ≠ [] ∧ ua.ClientName = [] then
      (clientVersionChecked ua.Fields p.find).map fun v =>
        { ua with ClientName := p.clientName, ClientVersion := v }
    else some ua
  else some ua

/-- The pattern loop of Go `Parse` over the checked loop body. -/
def matchPatternsChecked (cleaned : Str) : List Match → UserAgent → Option UserAgent
  | [], ua => some ua
  | p :: ps, ua =>
    (applyPatternChecked cleaned ua p).bind fun ua =>
      if complete ua then some ua else matchPatternsChecked cleaned ps ua

/-- The start of Go `Parse`, calling the checked `unquote` and `botURL`. -/
def initialChecked (userAgent : Str) : Option UserAgent :=
  (unquoteChecked userAgent).bind fun header =>
    let ua : UserAgent := { Header := header }
    let ua : UserAgent := { ua with Fields := parseFields ua.Header }
    if strings.Contains ua.Header "://".toList then
      (botURLChecked ua.Fields).map fun u => { ua with ClientType := "Bot".toList, URL := u }
    else some ua

/-- The post-processing of Go `Parse`, calling the checked `osVersion`, `version` and
`releaseVersion`. -/
def postProcessChecked (ua : UserAgent) : Option UserAgent :=
  (if ua.OSName = [] then some { ua with OSName := "Other".toList }
   else (osVersionChecked ua.Fields ua.OSName).map fun v => { ua with OSVersion := v }).bind
  fun ua =>
    let ua : UserAgent :=
      if ua.DeviceType = [] then { ua with DeviceType := "Desktop".toList } else ua
    let ua : UserAgent :=
      if ua.ClientName = [] then
        if ua.OSName = "iOS".toList ∨ ua.OSName = "iPadOS".toList ∨
            ua.OSName = "macOS".toList then
          let ua : UserAgent :=
            if ua.ClientType = [] then { ua with ClientType := "Browser".toList } else ua
          { ua with ClientName := "Safari".toList }
        else if ua.OSName = "Android".toList then
          let ua : UserAgent :=
            if ua.ClientType = [] then { ua with ClientType := "Browser".toList } else ua
          { ua with ClientName := "Chrome".toList }
        else { ua with ClientName := "Other".toList }
      else ua
    (if ua.ClientName = "Safari".toList then
       (versionChecked ua.Fields).map fun ver =>
         if ver ≠ [] then { ua with ClientVersion := ver } else ua
     else if ua.ClientName = "InternetExplorer".toList then
       (releaseVersionChecked ua.Fields).map fun ver =>
         if ver ≠ [] then { ua with ClientVersion := ver } else ua
     else some ua).map
    fun ua => if ua.ClientType = [] then { ua with ClientType := "Other".toList } else ua

/-- Go `Parse` over the checked helpers: `none` stands for a run-time panic. -/
def ParseChecked (userAgent : Str) : Option UserAgent :=
  (initialChecked userAgent).bind fun ua =>
    (matchPatternsChecked (strings.Join ua.Fields " ".toList) patterns ua).bind
      postProcessChecked

/-! ## Further definitions used to state the properties -/

/-- The pattern loop of Go `Parse` with the `break` test removed: every rule is visited. -/
def matchPatternsNoBreak (cleaned : Str) : List Match → UserAgent → UserAgent
  | [], ua => ua
  | p :: ps, ua => matchPatternsNoBreak cleaned ps (applyPattern cleaned ua p)

/-- Go `Parse` with the `break` test of its loop removed. -/
def ParseNoBreak (userAgent : Str) : UserAgent :=
  postProcess (matchPatternsNoBreak (cleaned userAgent) patterns (initial userAgent))

/-- A string made up only of whitespace and the characters `(`, `)`, `[`, `]`, `;`. -/
def punctuationOnly (h : Str) : Bool :=
  h.all fun x => strings.isSpace x || decide (x ∈ "()[];".toList)

/-- The search text and the replacement of each `strings.ReplaceAll` call of Go
`parseFields`, in source order. -/
def replacements : List (Str × Str) := [
  ("Mozilla/5.0".toList, []), ("Safari/537.36".toList, []), ("KHTML".toList, []),
  ("like Gecko".toList, []), ("compatible".toList, []), (" like Mac OS X".toList, []),
  ("CPU ".toList, []), ("Intel ".toList, []), ("Mac OS X".toList, "OS".toList),
  ("Windows NT".toList, "Windows".toList), ("WOW64".toList, []), ("Win64".toList, []),
  ("x86_64".toList, []), ("x64".toList, []), ("aarch64".toList, []),
  ("(".toList, " ".toList), (")".toList, " ".toList), ("[".toList, []), ("]".toList, []),
  (";".toList, " ".toList)]

/-- The replacement passes `ps` applied to `s`, one after the other. -/
def cleanWith (ps : List (Str × Str)) (s : Str) : Str :=
  ps.foldl (fun t p => strings.ReplaceAll t p.1 p.2) s

/-- The nine boilerplate substrings named by the property of the removed boilerplate. -/
def boilerplate : List Str := [
  "Mozilla/5.0".toList, "Safari/537.36".toList, "KHTML".toList, "compatible".toList,
  "WOW64".toList, "Win64".toList, "x86_64".toList, "x64".toList, "aarch64".toList]

/-! ## Delimiters and well-separated headers -/

/-- The characters that set the words of a header apart: the space, the parentheses, the
semicolon and the comma. -/
def isDelimiter (c : Char) : Bool := decide (c ∈ " ();,".toList)

/-- No delimiter occurs in `x`. -/
def delimiterFree (x : Str) : Bool := x.all fun c => !isDelimiter c

/-- The text starts with a delimiter. -/
def headDelimiter : Str → Bool
  | [] => false
  | c :: _ => isDelimiter c

/-- The text ends with a delimiter. -/
def lastDelimiter (x : Str) : Bool := headDelimiter x.reverse

/-- The text is empty or starts with a delimiter. -/
def startsWithDelimiter : Str → Bool
  | [] => true
  | c :: _ => isDelimiter c

/-- Every occurrence of `old` in `t` comes after a delimiter or at the start. -/
def GuardedLeft (old t : Str) : Prop :=
  ∀ a c b, t = a ++ c :: (old ++ b) → isDelimiter c = true

/-- Every occurrence of `old` in `t` comes before a delimiter or at the end. -/
def GuardedRight (old t : Str) : Prop :=
  ∀ a c b, t = a ++ old ++ c :: b → isDelimiter c = true

/-- What a replacement pass needs in order to bring no two words together: a removal of a
text that starts with a word needs a delimiter before every occurrence, or a removal of a
text that ends with a word needs a delimiter after every occurrence; the replacement of a
text by `OS` or `Windows` needs both; the replacement by a single delimiter needs
nothing. -/
def PassGuard (old new t : Str) : Prop :=
  (new = [] ∧ headDelimiter old = false ∧ GuardedLeft old t) ∨
  (new = [] ∧ lastDelimiter old = false ∧ GuardedRight old t) ∨
  ((new = "OS".toList ∨ new = "Windows".toList) ∧ headDelimiter old = false ∧
    lastDelimiter old = false ∧ GuardedLeft old t ∧ GuardedRight old t) ∨
  (∃ d, new = [d] ∧ isDelimiter d = true)

/-- The three kinds of replacement pass of `parseFields`: a removal, the replacement of a
text that starts and ends with a word by `OS` or `Windows`, and the replacement by a single
delimiter. -/
def kindOK (old new : Str) : Bool :=
  decide (new = []) ||
  (decide (new = "OS".toList ∨ new = "Windows".toList) && !headDelimiter old &&
    !lastDelimiter old) ||
  (decide (new.length = 1) && new.all isDelimiter)

/-- Some occurrence of `u` in the text comes right after a character that is not a
delimiter. -/
def unguardedLeft (u : Str) : Str → Bool
  | [] => false
  | c :: cs => (!isDelimiter c && u.isPrefixOf cs) || unguardedLeft u cs

/-- Some occurrence of `u` in the text is followed by a character that is not a
delimiter. -/
def unguardedRight (u : Str) : Str → Bool
  | [] => false
  | c :: cs =>
    (u.isPrefixOf (c :: cs) && !startsWithDelimiter ((c :: cs).drop u.length)) ||
      unguardedRight u cs

/-- The first word of a search text: its characters up to the first delimiter. -/
def leftWord (old : Str) : Str := old.takeWhile fun c => !isDelimiter c

/-- The last word of a search text: its characters after the last delimiter. -/
def rightWord (old : Str) : Str := (old.reverse.takeWhile fun c => !isDelimiter c).reverse

/-- The words of a search text that are not part of an inserted `OS` or `Windows`. -/
def escapeWords (old : Str) : List Str :=
  (strings.Split old ' ').filter fun q =>
    decide (q ≠ []) && delimiterFree q && !strings.Contains "OS".toList q &&
      !strings.Contains "Windows".toList q

/-- The pass that replaces `old` by `new` is well separated in the header `h`: a word of
`old` does not occur in `h` at all; or, for a removal, `old` starts with a word whose every
occurrence in `h` comes after a delimiter or at the start, or ends with a word whose every
occurrence in `h` comes before a delimiter or at the end; or, for a replacement, both hold
on the sides where `old` has a word. -/
def passSeparated (h old new : Str) : Bool :=
  (escapeWords old).any (fun q => !strings.Contains h q) ||
  (if new = [] then
     (!headDelimiter old && !unguardedLeft (leftWord old) h) ||
     (!lastDelimiter old && !unguardedRight (rightWord old) h)
   else
     (headDelimiter old || !unguardedLeft (leftWord old) h) &&
     (lastDelimiter old || !unguardedRight (rightWord old) h))

/-- The header is well separated: every replacement pass of `parseFields` is. -/
def wellSeparated (h : Str) : Bool := replacements.all fun r => passSeparated h r.1 r.2

/-- The first and the last word of a search text are not part of an inserted `OS` or
`Windows` with a further character before or after them. -/
def staticOK (old : Str) : Bool :=
  decide (old ≠ []) &&
  (headDelimiter old ||
    (!strings.Contains "OS".toList.tail (leftWord old) &&
     !strings.Contains "Windows".toList.tail (leftWord old))) &&
  (lastDelimiter old ||
    (!strings.Contains "OS".toList.dropLast (rightWord old) &&
     !strings.Contains "Windows".toList.dropLast (rightWord old)))

/-- Every delimiter-free run of `t` is a run of the header `h` or of an inserted `OS` or
`Windows`. -/
def RunsFrom (h t : Str) : Prop :=
  ∀ x, delimiterFree x = true → x ≠ [] → x <:+: t →
    x <:+: h ∨ x <:+: "OS".toList ∨ x <:+: "Windows".toList

/-! ## `unquote` on the bytes of a Go string

A Go string is a sequence of bytes that need not be well-formed UTF-8.  `unquote` ranges
over its runes and builds the result with `string(rs)`; both steps are modelled here on
bytes, so that ill-formed input is covered too. -/

/-- A Go string as it is stored: its bytes, each below 256. -/
abbrev Bytes := List Nat

/-- A continuation byte of UTF-8: `0x80` to `0xBF`. -/
def isCont (b : Nat) : Bool := decide (0x80 ≤ b ∧ b ≤ 0xBF)

/-- The least second byte that Go accepts after the first byte `b0` of a 3-byte or 4-byte
encoding. -/
def secondLo (b0 : Nat) : Nat := if b0 = 0xE0 then 0xA0 else if b0 = 0xF0 then 0x90 else 0x80

/-- The greatest second byte that Go accepts after the first byte `b0` of a 3-byte or
4-byte encoding. -/
def secondHi (b0 : Nat) : Nat := if b0 = 0xED then 0x9F else if b0 = 0xF4 then 0x8F else 0xBF

/-- Go `utf8.DecodeRuneInString` on a non-empty string: the first rune and its width in
bytes; an invalid or truncated encoding gives `U+FFFD` with width 1. -/
def decodeRune : Bytes → Nat × Nat
  | [] => (0xFFFD, 0)
  | b0 :: rest =>
    if b0 < 0x80 then (b0, 1)
    else if 0xC2 ≤ b0 ∧ b0 ≤ 0xDF then
      match rest with
      | b1 :: _ =>
        if isCont b1 then ((b0 - 0xC0) * 64 + (b1 - 0x80), 2) else (0xFFFD, 1)
      | _ => (0xFFFD, 1)
    else if 0xE0 ≤ b0 ∧ b0 ≤ 0xEF then
      match rest with
      | b1 :: b2 :: _ =>
        if secondLo b0 ≤ b1 ∧ b1 ≤ secondHi b0 ∧ isCont b2 then
          ((b0 - 0xE0) * 4096 + (b1 - 0x80) * 64 + (b2 - 0x80), 3)
        else (0xFFFD, 1)
      | _ => (0xFFFD, 1)
    else if 0xF0 ≤ b0 ∧ b0 ≤ 0xF4 then
      match rest with
      | b1 :: b2 :: b3 :: _ =>
        if secondLo b0 ≤ b1 ∧ b1 ≤ secondHi b0 ∧ isCont b2 ∧ isCont b3 then
          ((b0 - 0xF0) * 262144 + (b1 - 0x80) * 4096 + (b2 - 0x80) * 64 + (b3 - 0x80), 4)
        else (0xFFFD, 1)
      | _ => (0xFFFD, 1)
    else (0xFFFD, 1)

/-- Worker of `runes`: the counter is the number of bytes of the rune just decoded that
remain to be skipped. -/
def runesAux : Nat → Bytes → List Nat
  | _, [] => []
  | n + 1, _ :: bs => runesAux n bs
  | 0, b :: bs => (decodeRune (b :: bs)).1 :: runesAux ((decodeRune (b :: bs)).2 - 1) bs

/-- Go `for _, r := range s`: the runes of a string, `U+FFFD` for each invalid byte. -/
def runes (s : Bytes) : List Nat := runesAux 0 s

/-- Go `string(r)` for a rune: its UTF-8 encoding, that of `U+FFFD` for a surrogate or a
value above `U+10FFFF`. -/
def encodeRune (r : Nat) : Bytes :=
  if r < 0x80 then [r]
  else if r < 0x800 then [0xC0 + r / 64, 0x80 + r % 64]
  else if (0xD800 ≤ r ∧ r ≤ 0xDFFF) ∨ 0x10FFFF < r then [0xEF, 0xBF, 0xBD]
  else if r < 0x10000 then [0xE0 + r / 4096, 0x80 + r / 64 % 64, 0x80 + r % 64]
  else [0xF0 + r / 262144, 0x80 + r / 4096 % 64, 0x80 + r / 64 % 64, 0x80 + r % 64]

/-- Go `string(rs)` for a slice of runes. -/
def encodeRunes : List Nat → Bytes
  | [] => []
  | r :: rs => encodeRune r ++ encodeRunes rs

/-- Go `unquote` on the bytes of its argument: the runes other than the two quotes (codes
39 and 34), encoded again. -/
def unquoteBytes (ua : Bytes) : Bytes :=
  encodeRunes ((runes ua).filter fun r => decide (r ≠ 39 ∧ r ≠ 34))

/-- The bytes of a well-formed string: the UTF-8 encoding of its code points. -/
def utf8 (s : Str) : Bytes := encodeRunes (s.map Char.toNat)

/-- The filter that the specification describes, on bytes: every byte other than the two
quote characters, in the original order. -/
def stripQuotes (s : Bytes) : Bytes := s.filter fun b => decide (b ≠ 39 ∧ b ≠ 34)

/-! ## Lemmas and theorems -/

/-! ### The pattern loop: each slot is filled by the first matching rule -/

theorem applyPattern_of_complete (c : Str) (ua : UserAgent) (p : Match)
    (h : complete ua = true) : applyPattern c ua p = ua := by
  simp only [complete, decide_eq_true_eq] at h
  obtain ⟨h1, h2, h3, h4⟩ := h
  simp [applyPattern, h1, h2, h3, h4]

theorem foldl_of_complete (c : Str) (ps : List Match) (ua : UserAgent)
    (h : complete ua = true) : ps.foldl (applyPattern c) ua = ua := by
  induction ps with
  | nil => rfl
  | cons p ps ih => simp [List.foldl, applyPattern_of_complete c ua p h, ih]

theorem matchPatterns_eq_foldl (c : Str) (ps : List Match) (ua : UserAgent) :
    matchPatterns c ps ua = ps.foldl (applyPattern c) ua := by
  induction ps generalizing ua with
  | nil => rfl
  | cons p ps ih =>
    simp only [matchPatterns, List.foldl]
    split
    · rename_i h
      exact (foldl_of_complete c ps _ h).symm
    · exact ih _

theorem applyPattern_DeviceType (c : Str) (ua : UserAgent) (p : Match) :
    (applyPattern c ua p).DeviceType =
      if ua.DeviceType = [] then
        (if strings.Contains c p.find ∧ p.deviceType ≠ [] then p.deviceType else [])
      else ua.DeviceType := by
  simp only [applyPattern, apply_ite UserAgent.DeviceType, apply_ite UserAgent.OSName,
    apply_ite UserAgent.ClientType, apply_ite UserAgent.ClientName, apply_ite UserAgent.Header,
    apply_ite UserAgent.Fields, apply_ite UserAgent.URL, apply_ite UserAgent.OSVersion, ite_self]
  split_ifs <;> simp_all

theorem applyPattern_OSName (c : Str) (ua : UserAgent) (p : Match) :
    (applyPattern c ua p).OSName =
      if ua.OSName = [] then
        (if strings.Contains c p.find ∧ p.operatingSystem ≠ [] then p.operatingSystem else [])
      else ua.OSName := by
  simp only [applyPattern, apply_ite UserAgent.DeviceType, apply_ite UserAgent.OSName,
    apply_ite UserAgent.ClientType, apply_ite UserAgent.ClientName, apply_ite UserAgent.Header,
    apply_ite UserAgent.Fields, apply_ite UserAgent.URL, apply_ite UserAgent.OSVersion, ite_self]
  split_ifs <;> simp_all

theorem applyPattern_ClientType (c : Str) (ua : UserAgent) (p : Match) :
    (applyPattern c ua p).ClientType =
      if ua.ClientType = [] then
        (if strings.Contains c p.find ∧ p.clientType ≠ [] then p.clientType else [])
      else ua.ClientType := by
  simp only [applyPattern, apply_ite UserAgent.DeviceType, apply_ite UserAgent.OSName,
    apply_ite UserAgent.ClientType, apply_ite UserAgent.ClientName, apply_ite UserAgent.Header,
    apply_ite UserAgent.Fields, apply_ite UserAgent.URL, apply_ite UserAgent.OSVersion, ite_self]
  split_ifs <;> simp_all

theorem applyPattern_ClientName (c : Str) (ua : UserAgent) (p : Match) :
    (applyPattern c ua p).ClientName =
      if ua.ClientName = [] then
        (if strings.Contains c p.find ∧ p.clientName ≠ [] then p.clientName else [])
      else ua.ClientName := by
  simp only [applyPattern, apply_ite UserAgent.DeviceType, apply_ite UserAgent.OSName,
    apply_ite UserAgent.ClientType, apply_ite UserAgent.ClientName, apply_ite UserAgent.Header,
    apply_ite UserAgent.Fields, apply_ite UserAgent.URL, apply_ite UserAgent.OSVersion, ite_self]
  split_ifs <;> simp_all

theorem applyPattern_fixed (c : Str) (ua : UserAgent) (p : Match) :
    (applyPattern c ua p).Header = ua.Header ∧ (applyPattern c ua p).Fields = ua.Fields ∧
    (applyPattern c ua p).URL = ua.URL ∧ (applyPattern c ua p).OSVersion = ua.OSVersion := by
  simp only [applyPattern, apply_ite UserAgent.Header, apply_ite UserAgent.Fields,
    apply_ite UserAgent.URL, apply_ite UserAgent.OSVersion, ite_self, and_self]

theorem foldl_DeviceType (c : Str) (ps : List Match) (ua : UserAgent) :
    (ps.foldl (applyPattern c) ua).DeviceType =
      if ua.DeviceType = [] then firstMatch c Match.deviceType ps else ua.DeviceType := by
  induction ps generalizing ua with
  | nil =>
    simp only [List.foldl, firstMatch]
    split_ifs with h
    · exact h
    · rfl
  | cons p ps ih =>
    simp only [List.foldl, ih, applyPattern_DeviceType, firstMatch]
    split_ifs <;> simp_all

theorem foldl_OSName (c : Str) (ps : List Match) (ua : UserAgent) :
    (ps.foldl (applyPattern c) ua).OSName =
      if ua.OSName = [] then firstMatch c Match.operatingSystem ps else ua.OSName := by
  induction ps generalizing ua with
  | nil =>
    simp only [List.foldl, firstMatch]
    split_ifs with h
    · exact h
    · rfl
  | cons p ps ih =>
    simp only [List.foldl, ih, applyPattern_OSName, firstMatch]
    split_ifs <;> simp_all

theorem foldl_ClientType (c : Str) (ps : List Match) (ua : UserAgent) :
    (ps.foldl (applyPattern c) ua).ClientType =
      if ua.ClientType = [] then firstMatch c Match.clientType ps else ua.ClientType := by
  induction ps generalizing ua with
  | nil =>
    simp only [List.foldl, firstMatch]
    split_ifs with h
    · exact h
    · rfl
  | cons p ps ih =>
    simp only [List.foldl, ih, applyPattern_ClientType, firstMatch]
    split_ifs <;> simp_all

theorem foldl_ClientName (c : Str) (ps : List Match) (ua : UserAgent) :
    (ps.foldl (applyPattern c) ua).ClientName =
      if ua.ClientName = [] then firstMatch c Match.clientName ps else ua.ClientName := by
  induction ps generalizing ua with
  | nil =>
    simp only [List.foldl, firstMatch]
    split_ifs with h
    · exact h
    · rfl
  | cons p ps ih =>
    simp only [List.foldl, ih, applyPattern_ClientName, firstMatch]
    split_ifs <;> simp_all

theorem foldl_fixed (c : Str) (ps : List Match) (ua : UserAgent) :
    (ps.foldl (applyPattern c) ua).Header = ua.Header ∧
    (ps.foldl (applyPattern c) ua).Fields = ua.Fields ∧
    (ps.foldl (applyPattern c) ua).URL = ua.URL ∧
    (ps.foldl (applyPattern c) ua).OSVersion = ua.OSVersion := by
  induction ps generalizing ua with
  | nil => simp
  | cons p ps ih =>
    obtain ⟨h1, h2, h3, h4⟩ := applyPattern_fixed c ua p
    obtain ⟨i1, i2, i3, i4⟩ := ih (applyPattern c ua p)
    simp only [List.foldl]
    exact ⟨i1.trans h1, i2.trans h2, i3.trans h3, i4.trans h4⟩

theorem initial_of_url (s : Str) (h : strings.Contains (unquote s) "://".toList = true) :
    initial s = { Header := unquote s, Fields := parseFields (unquote s),
                  ClientType := "Bot".toList, URL := botURL (parseFields (unquote s)) } := by
  unfold initial
  dsimp only
  rw [if_pos h]

theorem initial_of_no_url (s : Str) (h : ¬ strings.Contains (unquote s) "://".toList = true) :
    initial s = { Header := unquote s, Fields := parseFields (unquote s) } := by
  unfold initial
  dsimp only
  rw [if_neg h]

theorem initial_fields (s : Str) :
    (initial s).Header = unquote s ∧ (initial s).Fields = parseFields (unquote s) ∧
    (initial s).DeviceType = [] ∧ (initial s).OSName = [] ∧ (initial s).ClientName = [] ∧
    (initial s).OSVersion = [] ∧ (initial s).ClientVersion = [] ∧
    (initial s).ClientType =
      (if strings.Contains (unquote s) "://".toList then "Bot".toList else []) ∧
    (initial s).URL =
      (if strings.Contains (unquote s) "://".toList then botURL (parseFields (unquote s))
       else []) := by
  by_cases h : strings.Contains (unquote s) "://".toList = true
  · rw [initial_of_url s h, if_pos h, if_pos h]
    dsimp only
    exact ⟨rfl, rfl, rfl, rfl, rfl, rfl, rfl, rfl, rfl⟩
  · rw [initial_of_no_url s h, if_neg h, if_neg h]
    dsimp only
    exact ⟨rfl, rfl, rfl, rfl, rfl, rfl, rfl, rfl, rfl⟩

theorem matched_DeviceType (s : Str) :
    (matched s).DeviceType = firstMatch (cleaned s) Match.deviceType patterns := by
  unfold matched
  rw [matchPatterns_eq_foldl, foldl_DeviceType, if_pos (initial_fields s).2.2.1]

theorem matched_OSName (s : Str) :
    (matched s).OSName = firstMatch (cleaned s) Match.operatingSystem patterns := by
  unfold matched
  rw [matchPatterns_eq_foldl, foldl_OSName, if_pos (initial_fields s).2.2.2.1]

theorem matched_ClientName (s : Str) :
    (matched s).ClientName = firstMatch (cleaned s) Match.clientName patterns := by
  unfold matched
  rw [matchPatterns_eq_foldl, foldl_ClientName, if_pos (initial_fields s).2.2.2.2.1]

theorem matched_ClientType (s : Str) :
    (matched s).ClientType =
      if strings.Contains (unquote s) "://".toList then "Bot".toList
      else firstMatch (cleaned s) Match.clientType patterns := by
  unfold matched
  rw [matchPatterns_eq_foldl, foldl_ClientType, (initial_fields s).2.2.2.2.2.2.2.1]
  by_cases h : strings.Contains (unquote s) "://".toList = true
  · rw [if_pos h, if_pos h, if_neg (by decide)]
  · rw [if_neg h, if_neg h, if_pos rfl]

theorem matched_fixed (s : Str) :
    (matched s).Header = unquote s ∧ (matched s).Fields = parseFields (unquote s) ∧
    (matched s).URL =
      (if strings.Contains (unquote s) "://".toList then botURL (parseFields (unquote s))
       else []) ∧
    (matched s).OSVersion = [] := by
  obtain ⟨h1, h2, h3, h4⟩ := foldl_fixed (cleaned s) patterns (initial s)
  obtain ⟨i1, i2, -, -, -, i6, -, -, i9⟩ := initial_fields s
  simp only [matched, matchPatterns_eq_foldl]
  exact ⟨h1.trans i1, h2.trans i2, h3.trans i9, h4.trans i6⟩

/-! ### Post-processing and the fields of `Parse`, slot by slot -/

theorem postProcess_OSName (ua : UserAgent) :
    (postProcess ua).OSName = if ua.OSName = [] then "Other".toList else ua.OSName := by
  simp only [postProcess, apply_ite UserAgent.OSName, ite_self]

theorem postProcess_DeviceType (ua : UserAgent) :
    (postProcess ua).DeviceType =
      if ua.DeviceType = [] then "Desktop".toList else ua.DeviceType := by
  simp only [postProcess, apply_ite UserAgent.DeviceType, apply_ite UserAgent.OSName, ite_self]

theorem postProcess_fixed (ua : UserAgent) :
    (postProcess ua).Header = ua.Header ∧ (postProcess ua).Fields = ua.Fields ∧
    (postProcess ua).URL = ua.URL := by
  simp only [postProcess, apply_ite UserAgent.Header, apply_ite UserAgent.Fields,
    apply_ite UserAgent.URL, ite_self, and_self]

theorem postProcess_OSVersion (ua : UserAgent) :
    (postProcess ua).OSVersion =
      if ua.OSName = [] then ua.OSVersion else osVersion ua.Fields ua.OSName := by
  simp only [postProcess, apply_ite UserAgent.OSVersion, ite_self]

theorem postProcess_ClientName (ua : UserAgent) :
    (postProcess ua).ClientName =
      if ua.ClientName = [] then
        (if (postProcess ua).OSName = "iOS".toList ∨ (postProcess ua).OSName = "iPadOS".toList ∨
            (postProcess ua).OSName = "macOS".toList then "Safari".toList
         else if (postProcess ua).OSName = "Android".toList then "Chrome".toList
         else "Other".toList)
      else ua.ClientName := by
  rw [postProcess_OSName]
  simp only [postProcess, apply_ite UserAgent.ClientName, apply_ite UserAgent.OSName, ite_self]

theorem postProcess_ClientType (ua : UserAgent) :
    (postProcess ua).ClientType =
      if ua.ClientType = [] then
        (if ua.ClientName = [] ∧
            ((postProcess ua).OSName = "iOS".toList ∨ (postProcess ua).OSName = "iPadOS".toList ∨
             (postProcess ua).OSName = "macOS".toList ∨
             (postProcess ua).OSName = "Android".toList) then "Browser".toList
         else "Other".toList)
      else ua.ClientType := by
  rw [postProcess_OSName]
  simp only [postProcess, apply_ite UserAgent.ClientName, apply_ite UserAgent.OSName,
    apply_ite UserAgent.ClientType, ite_self]
  have hB : "Browser".toList ≠ [] := by decide
  split_ifs <;> first | rfl | simp_all

theorem postProcess_ClientVersion (ua : UserAgent) :
    (postProcess ua).ClientVersion =
      if (postProcess ua).ClientName = "Safari".toList then
        (if version ua.Fields ≠ [] then version ua.Fields else ua.ClientVersion)
      else if (postProcess ua).ClientName = "InternetExplorer".toList then
        (if releaseVersion ua.Fields ≠ [] then releaseVersion ua.Fields else ua.ClientVersion)
      else ua.ClientVersion := by
  rw [postProcess_ClientName, postProcess_OSName]
  simp only [postProcess, apply_ite UserAgent.ClientName, apply_ite UserAgent.OSName,
    apply_ite UserAgent.ClientVersion, apply_ite UserAgent.Fields, ite_self]

theorem postProcess_nonempty (ua : UserAgent) :
    (postProcess ua).ClientType ≠ [] ∧ (postProcess ua).ClientName ≠ [] ∧
    (postProcess ua).DeviceType ≠ [] ∧ (postProcess ua).OSName ≠ [] := by
  have h1 : "Browser".toList ≠ [] := by decide
  have h2 : "Other".toList ≠ [] := by decide
  have h3 : "Safari".toList ≠ [] := by decide
  have h4 : "Chrome".toList ≠ [] := by decide
  have h5 : "Desktop".toList ≠ [] := by decide
  refine ⟨?_, ?_, ?_, ?_⟩
  · rw [postProcess_ClientType]; split_ifs <;> assumption
  · rw [postProcess_ClientName]; split_ifs <;> assumption
  · rw [postProcess_DeviceType]; split_ifs <;> assumption
  · rw [postProcess_OSName]; split_ifs <;> assumption

theorem Parse_Header (s : Str) : (Parse s).Header = unquote s :=
  (postProcess_fixed (matched s)).1.trans (matched_fixed s).1

theorem Parse_Fields (s : Str) : (Parse s).Fields = parseFields (unquote s) :=
  (postProcess_fixed (matched s)).2.1.trans (matched_fixed s).2.1

theorem Parse_URL (s : Str) :
    (Parse s).URL =
      if strings.Contains (unquote s) "://".toList then botURL (parseFields (unquote s))
      else [] :=
  (postProcess_fixed (matched s)).2.2.trans (matched_fixed s).2.2.1

theorem Parse_OSName (s : Str) :
    (Parse s).OSName =
      if firstMatch (cleaned s) Match.operatingSystem patterns = [] then "Other".toList
      else firstMatch (cleaned s) Match.operatingSystem patterns := by
  unfold Parse
  rw [postProcess_OSName, matched_OSName]

theorem Parse_DeviceType (s : Str) :
    (Parse s).DeviceType =
      if firstMatch (cleaned s) Match.deviceType patterns = [] then "Desktop".toList
      else firstMatch (cleaned s) Match.deviceType patterns := by
  unfold Parse
  rw [postProcess_DeviceType, matched_DeviceType]

theorem Parse_OSVersion (s : Str) :
    (Parse s).OSVersion =
      if firstMatch (cleaned s) Match.operatingSystem patterns = [] then []
      else osVersion (Parse s).Fields (firstMatch (cleaned s) Match.operatingSystem patterns) := by
  rw [Parse_Fields]
  unfold Parse
  rw [postProcess_OSVersion, matched_OSName, (matched_fixed s).2.2.2, (matched_fixed s).2.1]

theorem Parse_ClientName (s : Str) :
    (Parse s).ClientName =
      if firstMatch (cleaned s) Match.clientName patterns = [] then
        (if (Parse s).OSName = "iOS".toList ∨ (Parse s).OSName = "iPadOS".toList ∨
            (Parse s).OSName = "macOS".toList then "Safari".toList
         else if (Parse s).OSName = "Android".toList then "Chrome".toList
         else "Other".toList)
      else firstMatch (cleaned s) Match.clientName patterns := by
  unfold Parse
  rw [postProcess_ClientName, matched_ClientName]

theorem Parse_ClientType (s : Str) :
    (Parse s).ClientType =
      if strings.Contains (unquote s) "://".toList then "Bot".toList
      else if firstMatch (cleaned s) Match.clientType patterns = [] then
        (if firstMatch (cleaned s) Match.clientName patterns = [] ∧
            ((Parse s).OSName = "iOS".toList ∨ (Parse s).OSName = "iPadOS".toList ∨
             (Parse s).OSName = "macOS".toList ∨ (Parse s).OSName = "Android".toList)
         then "Browser".toList else "Other".toList)
      else firstMatch (cleaned s) Match.clientType patterns := by
  unfold Parse
  rw [postProcess_ClientType, matched_ClientType, matched_ClientName]
  have hB : "Bot".toList ≠ [] := by decide
  by_cases h : strings.Contains (unquote s) "://".toList = true
  · rw [if_pos h, if_neg hB, if_pos h]
  · rw [if_neg h, if_neg h]

theorem Parse_ClientVersion (s : Str) :
    (Parse s).ClientVersion =
      if (Parse s).ClientName = "Safari".toList then
        (if version (Parse s).Fields ≠ [] then version (Parse s).Fields
         else (matched s).ClientVersion)
      else if (Parse s).ClientName = "InternetExplorer".toList then
        (if releaseVersion (Parse s).Fields ≠ [] then releaseVersion (Parse s).Fields
         else (matched s).ClientVersion)
      else (matched s).ClientVersion := by
  rw [Parse_Fields, ← (matched_fixed s).2.1]
  unfold Parse
  rw [postProcess_ClientVersion]

/-! ### Facts about `firstMatch` -/

theorem firstMatch_eq_nil_iff (c : Str) (slot : Match → Str) (ps : List Match) :
    firstMatch c slot ps = [] ↔
      ∀ p ∈ ps, slot p ≠ [] → strings.Contains c p.find = false := by
  induction ps with
  | nil => simp [firstMatch]
  | cons p ps ih =>
    simp only [firstMatch, List.mem_cons, forall_eq_or_imp]
    split_ifs with h
    · constructor
      · intro h0; exact absurd h0 h.2
      · intro h0; have := h0.1 h.2; rw [h.1] at this; cases this
    · rw [ih]
      constructor
      · intro h0
        refine ⟨fun hs => ?_, h0⟩
        by_cases hc : strings.Contains c p.find = true
        · exact absurd ⟨hc, hs⟩ h
        · simpa using hc
      · intro h0; exact h0.2

theorem firstMatch_mem (c : Str) (slot : Match → Str) (ps : List Match)
    (h : firstMatch c slot ps ≠ []) :
    ∃ p ∈ ps, strings.Contains c p.find = true ∧ slot p ≠ [] ∧
      slot p = firstMatch c slot ps := by
  induction ps with
  | nil => exact absurd rfl h
  | cons p ps ih =>
    simp only [firstMatch] at h ⊢
    split_ifs at h ⊢ with hp
    · exact ⟨p, List.mem_cons_self _ _, hp.1, hp.2, rfl⟩
    · obtain ⟨q, hq, hq'⟩ := ih h
      exact ⟨q, List.mem_cons_of_mem _ hq, hq'⟩

theorem firstMatch_of_index (c : Str) (slot : Match → Str) (d : Match) :
    ∀ (ps : List Match) (i : Nat), i < ps.length →
      strings.Contains c (ps.getD i d).find = true → slot (ps.getD i d) ≠ [] →
      (∀ k, k < i → strings.Contains c (ps.getD k d).find = false ∨ slot (ps.getD k d) = []) →
      firstMatch c slot ps = slot (ps.getD i d) := by
  intro ps
  induction ps with
  | nil => intro i hi; simp at hi
  | cons p ps ih =>
    intro i hi hc hs hb
    cases i with
    | zero =>
      simp only [List.getD_cons_zero] at hc hs ⊢
      simp only [firstMatch]
      rw [if_pos ⟨hc, hs⟩]
    | succ i =>
      simp only [List.getD_cons_succ] at hc hs ⊢
      have h0 := hb 0 (Nat.succ_pos i)
      simp only [List.getD_cons_zero] at h0
      simp only [firstMatch]
      have hn : ¬ (strings.Contains c p.find = true ∧ slot p ≠ []) := by
        rintro ⟨a, b⟩
        rcases h0 with h0 | h0
        · rw [a] at h0; cases h0
        · exact b h0
      rw [if_neg hn]
      apply ih i (by simpa using hi) hc hs
      intro k hk
      have := hb (k + 1) (by omega)
      simpa only [List.getD_cons_succ] using this

theorem firstMatch_append (c : Str) (slot : Match → Str) (ps qs : List Match) :
    firstMatch c slot (ps ++ qs) =
      if firstMatch c slot ps = [] then firstMatch c slot qs else firstMatch c slot ps := by
  induction ps with
  | nil => simp [firstMatch]
  | cons p ps ih =>
    simp only [List.cons_append, firstMatch]
    split_ifs with h1 h2 h3
    · exact absurd h2 h1.2
    · rfl
    · exact ih.trans (if_pos h3)
    · exact ih.trans (if_neg h3)

/-! ### Totality, precedence, quote invariance, URL means Bot (C1 to C4) -/

theorem unquote_idem (s : Str) : unquote (unquote s) = unquote s := by
  induction s with
  | nil => rfl
  | cons r rs ih =>
    simp only [unquote]
    split_ifs with h
    · simp only [unquote, if_pos h, ih]
    · exact ih

theorem Parse_congr (s t : Str) (h : unquote s = unquote t) : Parse s = Parse t := by
  unfold Parse matched cleaned initial
  rw [h]

/-- C1. Totality: for every input string, `Parse` returns a record whose ClientType,
ClientName, DeviceType and OSName are all non-empty. -/
theorem parse_required_fields_nonempty (s : Str) :
    (Parse s).ClientType ≠ [] ∧ (Parse s).ClientName ≠ [] ∧
    (Parse s).DeviceType ≠ [] ∧ (Parse s).OSName ≠ [] :=
  postProcess_nonempty (matched s)

/-- C2, as stated, fails for the clientType slot: the buffer of the header
`Chrome Safari ://` contains the find text of exactly two rules, rule 60 (`Chrome`) and
rule 61 (`Safari`), both give the client type `Browser`, and `Parse` returns `Bot`. -/
theorem precedence_clientType_counterexample :
    strings.Contains (cleaned "Chrome Safari ://".toList) (rule 60).find = true ∧
    strings.Contains (cleaned "Chrome Safari ://".toList) (rule 61).find = true ∧
    (∀ k, k < patterns.length →
      strings.Contains (cleaned "Chrome Safari ://".toList) (rule k).find = true →
      k = 60 ∨ k = 61) ∧
    (rule 60).clientType = "Browser".toList ∧ (rule 61).clientType = "Browser".toList ∧
    (Parse "Chrome Safari ://".toList).ClientType = "Bot".toList ∧
    (Parse "Chrome Safari ://".toList).ClientType ≠ (rule 60).clientType := by
  decide

/-- C2, amended. When the match buffer contains the find text of exactly two rules, rule `i`
and the later rule `j`, and both specify a slot, `Parse` returns rule `i`'s value for
deviceType, osName and clientName; for clientType it returns rule `i`'s value when the
unquoted header has no `://`, and `Bot` when it has. -/
theorem precedence_two_rules (s : Str) (i j : Nat) (hij : i < j) (hj : j < patterns.length)
    (hmi : strings.Contains (cleaned s) (rule i).find = true)
    (_hmj : strings.Contains (cleaned s) (rule j).find = true)
    (honly : ∀ k, k < patterns.length →
      strings.Contains (cleaned s) (rule k).find = true → k = i ∨ k = j) :
    ((rule i).deviceType ≠ [] → (rule j).deviceType ≠ [] →
      (Parse s).DeviceType = (rule i).deviceType) ∧
    ((rule i).operatingSystem ≠ [] → (rule j).operatingSystem ≠ [] →
      (Parse s).OSName = (rule i).operatingSystem) ∧
    ((rule i).clientName ≠ [] → (rule j).clientName ≠ [] →
      (Parse s).ClientName = (rule i).clientName) ∧
    ((rule i).clientType ≠ [] → (rule j).clientType ≠ [] →
      (Parse s).ClientType =
        if strings.Contains (unquote s) "://".toList then "Bot".toList
        else (rule i).clientType) := by
  have hfirst : ∀ slot : Match → Str, slot (rule i) ≠ [] →
      firstMatch (cleaned s) slot patterns = slot (rule i) := by
    intro slot hs
    refine firstMatch_of_index (cleaned s) slot _ patterns i (hij.trans hj) hmi hs ?_
    intro k hk
    left
    by_cases hc : strings.Contains (cleaned s) (rule k).find = true
    · rcases honly k (hk.trans (hij.trans hj)) hc with h | h <;> omega
    · simpa [rule] using hc
  refine ⟨fun h _ => ?_, fun h _ => ?_, fun h _ => ?_, fun h _ => ?_⟩
  · rw [Parse_DeviceType, hfirst _ h, if_neg h]
  · rw [Parse_OSName, hfirst _ h, if_neg h]
  · rw [Parse_ClientName, hfirst _ h, if_neg h]
  · rw [Parse_ClientType, hfirst _ h, if_neg h]

/-- Witness of `precedence_two_rules`: the buffer of `Pinterestbot/1.0` contains the find
texts of rule 27 (`Pinterestbot`, a Bot) and rule 40 (`Pinterest`, an App) only, and the
earlier rule wins both client slots. -/
theorem precedence_two_rules_witness :
    (Parse "Pinterestbot/1.0".toList).ClientName = "Pinterestbot".toList ∧
    (Parse "Pinterestbot/1.0".toList).ClientType = "Bot".toList :=
  have h := precedence_two_rules "Pinterestbot/1.0".toList 27 40 (by decide) (by decide)
    (by decide) (by decide) (by decide)
  ⟨h.2.2.1 (by decide) (by decide), h.2.2.2 (by decide) (by decide)⟩

/-- C3. Quote invariance: inputs with the same unquoted form are parsed to the same record,
field for field; in particular `Parse s = Parse (unquote s)`. -/
theorem parse_quote_invariant (s t : Str) (h : unquote s = unquote t) :
    Parse s = Parse t ∧ Parse s = Parse (unquote s) :=
  ⟨Parse_congr s t h, Parse_congr s (unquote s) (unquote_idem s).symm⟩

/-- Witness of `parse_quote_invariant`: a header with a leading single quote and a trailing
double quote against the bare header. -/
theorem parse_quote_invariant_witness :
    Parse (Char.ofNat 39 :: ("Googlebot/2.1".toList ++ [Char.ofNat 34])) =
      Parse "Googlebot/2.1".toList ∧
    Parse (Char.ofNat 39 :: ("Googlebot/2.1".toList ++ [Char.ofNat 34])) =
      Parse (unquote (Char.ofNat 39 :: ("Googlebot/2.1".toList ++ [Char.ofNat 34]))) :=
  parse_quote_invariant (Char.ofNat 39 :: ("Googlebot/2.1".toList ++ [Char.ofNat 34]))
    "Googlebot/2.1".toList (by decide)

/-- C4. A URL always indicates a Bot: when the unquoted header contains `://`, the
ClientType is `Bot`, whatever rules match. -/
theorem url_indicates_bot (s : Str)
    (h : strings.Contains (unquote s) "://".toList = true) :
    (Parse s).ClientType = "Bot".toList := by
  rw [Parse_ClientType, if_pos h]

/-- Witness of `url_indicates_bot`: a header that names Chrome and Safari and carries a URL. -/
theorem url_indicates_bot_witness :
    (Parse "Chrome/41.0 Safari/537.1 +https://sitebulb.com".toList).ClientType =
      "Bot".toList :=
  url_indicates_bot "Chrome/41.0 Safari/537.1 +https://sitebulb.com".toList (by decide)

/-! ### `strings.Index` and `botURL` -/

theorem Index_of_not_contains (s sub : Str) (h : strings.Contains s sub = false) :
    strings.Index s sub = -1 := by
  induction s with
  | nil =>
    simp only [strings.Contains] at h
    simp [strings.Index, h]
  | cons c cs ih =>
    simp only [strings.Contains, Bool.or_eq_false_iff] at h
    simp only [strings.Index, h.1, Bool.false_eq_true, if_false, ih h.2, if_true]

theorem Index_nonneg_of_contains (s sub : Str) (h : strings.Contains s sub = true) :
    0 ≤ strings.Index s sub := by
  induction s with
  | nil =>
    simp only [strings.Contains] at h
    simp [strings.Index, h]
  | cons c cs ih =>
    simp only [strings.Index]
    cases hp : sub.isPrefixOf (c :: cs) with
    | true => simp
    | false =>
      simp only [strings.Contains, hp, Bool.false_or] at h
      have := ih h
      simp only [Bool.false_eq_true, if_false]
      split_ifs with h1 <;> omega

theorem drop_Index_prefix (s sub : Str) (h : strings.Contains s sub = true) :
    strings.HasPrefix (s.drop (strings.Index s sub).toNat) sub = true := by
  induction s with
  | nil =>
    simp only [strings.Contains] at h
    simp [strings.Index, h, strings.HasPrefix]
  | cons c cs ih =>
    cases hp : sub.isPrefixOf (c :: cs) with
    | true => simp [strings.Index, hp, strings.HasPrefix]
    | false =>
      simp only [strings.Contains, hp, Bool.false_or] at h
      have h0 := Index_nonneg_of_contains cs sub h
      have h1 : strings.Index cs sub ≠ -1 := by omega
      have h2 : (strings.Index cs sub + 1).toNat = (strings.Index cs sub).toNat + 1 := by omega
      simp only [strings.Index, hp, Bool.false_eq_true, if_false, h1, h2, List.drop_succ_cons]
      exact ih h

theorem botURL_eq (fields : List Str) :
    botURL fields =
      match firstURLToken fields with
      | some f => f.drop (strings.Index f "http".toList).toNat
      | none => [] := by
  induction fields with
  | nil => rfl
  | cons f fs ih =>
    simp only [botURL, firstURLToken, List.find?]
    cases hc : strings.Contains f "://".toList with
    | true =>
      simp only [if_true]
      by_cases hi : strings.Index f "http".toList = -1
      · rw [if_pos hi, hi]; rfl
      · rw [if_neg hi]
    | false =>
      simp only [Bool.false_eq_true, if_false]
      exact ih

/-! ### URL extraction (C5) -/

/-- C5, as stated, fails: the unquoted header `Mozilla/5.0 AppleWebKit://example.com`
contains `://`, but its only token starts with `AppleWebKit` and is dropped by
`parseFields`, so no token contains `://` and the URL is empty. -/
theorem url_extraction_counterexample :
    strings.Contains (unquote "Mozilla/5.0 AppleWebKit://example.com".toList) "://".toList
      = true ∧
    firstURLToken (Parse "Mozilla/5.0 AppleWebKit://example.com".toList).Fields = none ∧
    (Parse "Mozilla/5.0 AppleWebKit://example.com".toList).URL = [] := by
  decide

/-- C5, amended. If the unquoted header has no `://` the URL is empty. Otherwise, if some
token of the fields contains `://`, the URL is the first such token with everything before
its first `http` removed (the whole token when it has no `http`); if no token contains
`://`, the URL is empty. -/
theorem url_extraction (s : Str) :
    (strings.Contains (unquote s) "://".toList = false → (Parse s).URL = []) ∧
    (strings.Contains (unquote s) "://".toList = true →
      (∀ f, firstURLToken (Parse s).Fields = some f →
        (Parse s).URL = f.drop (strings.Index f "http".toList).toNat ∧
        (strings.Contains f "http".toList = false → (Parse s).URL = f) ∧
        (strings.Contains f "http".toList = true →
          strings.HasPrefix (Parse s).URL "http".toList = true)) ∧
      (firstURLToken (Parse s).Fields = none → (Parse s).URL = [])) := by
  rw [Parse_URL, Parse_Fields]
  generalize parseFields (unquote s) = fields
  refine ⟨fun h => ?_, fun h => ?_⟩
  · rw [h]; rfl
  · rw [if_pos h, botURL_eq]
    refine ⟨fun f hf => ?_, fun hn => ?_⟩
    · rw [hf]
      refine ⟨rfl, fun hc => ?_, fun hc => ?_⟩
      · show List.drop (strings.Index f "http".toList).toNat f = f
        rw [Index_of_not_contains f _ hc]; rfl
      · exact drop_Index_prefix f _ hc
    · rw [hn]

/-- Witness of `url_extraction`: the Googlebot header; the leading `+` of the token is
dropped. -/
theorem url_extraction_witness :
    (Parse "Mozilla/5.0 (compatible; Googlebot/2.1; +http://www.google.com/bot.html)".toList).URL
      = "http://www.google.com/bot.html".toList :=
  (((url_extraction
      "Mozilla/5.0 (compatible; Googlebot/2.1; +http://www.google.com/bot.html)".toList).2
      (by decide)).1 "+http://www.google.com/bot.html".toList (by decide)).1.trans (by decide)

/-! ### Default client inference (C6) -/

theorem clientType_rules_name_client :
    ∀ p ∈ patterns, p.clientType ≠ [] → p.clientName ≠ [] := by
  decide

/-- C6. Default client inference: when no rule that specifies a clientName matches the
buffer, ClientName is `Safari` on iOS, iPadOS and macOS, `Chrome` on Android and `Other`
otherwise; in the Safari and Chrome cases ClientType is `Browser`, or `Bot` when the header
contains `://`. -/
theorem default_client_inference (s : Str)
    (hno : ∀ p ∈ patterns, p.clientName ≠ [] → strings.Contains (cleaned s) p.find = false) :
    (((Parse s).OSName = "iOS".toList ∨ (Parse s).OSName = "iPadOS".toList ∨
        (Parse s).OSName = "macOS".toList) → (Parse s).ClientName = "Safari".toList) ∧
    ((Parse s).OSName = "Android".toList → (Parse s).ClientName = "Chrome".toList) ∧
    ((Parse s).OSName ≠ "iOS".toList → (Parse s).OSName ≠ "iPadOS".toList →
      (Parse s).OSName ≠ "macOS".toList → (Parse s).OSName ≠ "Android".toList →
      (Parse s).ClientName = "Other".toList) ∧
    (((Parse s).ClientName = "Safari".toList ∨ (Parse s).ClientName = "Chrome".toList) →
      (Parse s).ClientType =
        if strings.Contains (unquote s) "://".toList then "Bot".toList
        else "Browser".toList) := by
  have hname : firstMatch (cleaned s) Match.clientName patterns = [] :=
    (firstMatch_eq_nil_iff _ _ _).2 hno
  have htype : firstMatch (cleaned s) Match.clientType patterns = [] :=
    (firstMatch_eq_nil_iff _ _ _).2
      (fun p hp ht => hno p hp (clientType_rules_name_client p hp ht))
  have hA1 : "Android".toList ≠ "iOS".toList := by decide
  have hA2 : "Android".toList ≠ "iPadOS".toList := by decide
  have hA3 : "Android".toList ≠ "macOS".toList := by decide
  have hO1 : "Other".toList ≠ "Safari".toList := by decide
  have hO2 : "Other".toList ≠ "Chrome".toList := by decide
  have hN := Parse_ClientName s
  rw [hname, if_pos rfl] at hN
  refine ⟨fun h => ?_, fun h => ?_, fun h1 h2 h3 h4 => ?_, fun h => ?_⟩
  · rw [hN, if_pos h]
  · have hn : ¬ ((Parse s).OSName = "iOS".toList ∨ (Parse s).OSName = "iPadOS".toList ∨
        (Parse s).OSName = "macOS".toList) := by
      rw [h]; rintro (h | h | h)
      · exact hA1 h
      · exact hA2 h
      · exact hA3 h
    rw [hN, if_neg hn, if_pos h]
  · have hn : ¬ ((Parse s).OSName = "iOS".toList ∨ (Parse s).OSName = "iPadOS".toList ∨
        (Parse s).OSName = "macOS".toList) := by
      rintro (h | h | h)
      · exact h1 h
      · exact h2 h
      · exact h3 h
    rw [hN, if_neg hn, if_neg h4]
  · rw [Parse_ClientType, htype, hname, if_pos rfl]
    by_cases hu : strings.Contains (unquote s) "://".toList = true
    · rw [if_pos hu, if_pos hu]
    · rw [if_neg hu, if_neg hu]
      by_cases hos : (Parse s).OSName = "iOS".toList ∨ (Parse s).OSName = "iPadOS".toList ∨
          (Parse s).OSName = "macOS".toList ∨ (Parse s).OSName = "Android".toList
      · rw [if_pos ⟨rfl, hos⟩]
      · exfalso
        have hn : ¬ ((Parse s).OSName = "iOS".toList ∨ (Parse s).OSName = "iPadOS".toList ∨
            (Parse s).OSName = "macOS".toList) := by
          rintro (h | h | h)
          · exact hos (Or.inl h)
          · exact hos (Or.inr (Or.inl h))
          · exact hos (Or.inr (Or.inr (Or.inl h)))
        have ha : ¬ (Parse s).OSName = "Android".toList :=
          fun h => hos (Or.inr (Or.inr (Or.inr h)))
        rw [if_neg hn, if_neg ha] at hN
        rcases h with h | h
        · exact hO1 (hN.symm.trans h)
        · exact hO2 (hN.symm.trans h)

/-- Witness of `default_client_inference`: a macOS header that names no client. -/
theorem default_client_inference_witness :
    (Parse ("Mozilla/5.0 (Macintosh; Intel Mac OS X 10_15_7) AppleWebKit/605.1.15 " ++
      "(KHTML, like Gecko)").toList).ClientName = "Safari".toList ∧
    (Parse ("Mozilla/5.0 (Macintosh; Intel Mac OS X 10_15_7) AppleWebKit/605.1.15 " ++
      "(KHTML, like Gecko)").toList).ClientType = "Browser".toList :=
  have h := default_client_inference
    ("Mozilla/5.0 (Macintosh; Intel Mac OS X 10_15_7) AppleWebKit/605.1.15 " ++
      "(KHTML, like Gecko)").toList (by decide)
  ⟨h.1 (by decide), (h.2.2.2 (by decide)).trans (by decide)⟩

/-! ### Version override and the defaults (C7 to C10) -/

/-- C7. Version override: a resolved ClientName `Safari` takes its version from a non-empty
`version(Fields)`, a resolved `InternetExplorer` from a non-empty `releaseVersion(Fields)`;
when the extractor returns empty, the ClientVersion set during rule matching is kept. -/
theorem version_override (s : Str) :
    ((Parse s).ClientName = "Safari".toList → version (Parse s).Fields ≠ [] →
      (Parse s).ClientVersion = version (Parse s).Fields) ∧
    ((Parse s).ClientName = "InternetExplorer".toList → releaseVersion (Parse s).Fields ≠ [] →
      (Parse s).ClientVersion = releaseVersion (Parse s).Fields) ∧
    ((Parse s).ClientName = "Safari".toList → version (Parse s).Fields = [] →
      (Parse s).ClientVersion = (matched s).ClientVersion) ∧
    ((Parse s).ClientName = "InternetExplorer".toList → releaseVersion (Parse s).Fields = [] →
      (Parse s).ClientVersion = (matched s).ClientVersion) := by
  have hIE : "InternetExplorer".toList ≠ "Safari".toList := by decide
  have hV := Parse_ClientVersion s
  refine ⟨fun h hv => ?_, fun h hv => ?_, fun h hv => ?_, fun h hv => ?_⟩
  · rw [hV, if_pos h, if_pos hv]
  · have hn : ¬ (Parse s).ClientName = "Safari".toList := fun h' => hIE (h.symm.trans h')
    rw [hV, if_neg hn, if_pos h, if_pos hv]
  · rw [hV, if_pos h, if_neg (not_not.2 hv)]
  · have hn : ¬ (Parse s).ClientName = "Safari".toList := fun h' => hIE (h.symm.trans h')
    rw [hV, if_neg hn, if_pos h, if_neg (not_not.2 hv)]

/-- Witness of `version_override`: Safari on macOS reports `Version/13.1.1` next to the
build token `Safari/605.1.15`; the version is `13.1`. -/
theorem version_override_witness :
    (Parse ("Mozilla/5.0 (Macintosh; Intel Mac OS X 10_15_5) AppleWebKit/605.1.15 " ++
      "(KHTML, like Gecko) Version/13.1.1 Safari/605.1.15").toList).ClientVersion =
      "13.1".toList :=
  ((version_override ("Mozilla/5.0 (Macintosh; Intel Mac OS X 10_15_5) AppleWebKit/605.1.15 " ++
      "(KHTML, like Gecko) Version/13.1.1 Safari/605.1.15").toList).1
      (by decide) (by decide)).trans (by decide)

/-- C8. OS default: when no rule that specifies an operating system matches the buffer,
OSName is `Other` and OSVersion is empty; otherwise OSName is the value of the earliest
matching such rule and OSVersion is `osVersion(Fields, OSName)`. -/
theorem os_default (s : Str) :
    ((∀ p ∈ patterns, p.operatingSystem ≠ [] →
        strings.Contains (cleaned s) p.find = false) →
      (Parse s).OSName = "Other".toList ∧ (Parse s).OSVersion = []) ∧
    ((∃ p ∈ patterns, p.operatingSystem ≠ [] ∧
        strings.Contains (cleaned s) p.find = true) →
      (Parse s).OSName = firstMatch (cleaned s) Match.operatingSystem patterns ∧
      (Parse s).OSVersion = osVersion (Parse s).Fields (Parse s).OSName) := by
  refine ⟨fun h => ?_, fun h => ?_⟩
  · have h0 : firstMatch (cleaned s) Match.operatingSystem patterns = [] :=
      (firstMatch_eq_nil_iff _ _ _).2 h
    rw [Parse_OSName, Parse_OSVersion, h0]
    exact ⟨rfl, rfl⟩
  · have h0 : firstMatch (cleaned s) Match.operatingSystem patterns ≠ [] := by
      intro h0
      obtain ⟨p, hp, hs, hc⟩ := h
      have := (firstMatch_eq_nil_iff _ _ _).1 h0 p hp hs
      rw [hc] at this
      cases this
    have hO := Parse_OSName s
    rw [if_neg h0] at hO
    refine ⟨hO, ?_⟩
    rw [Parse_OSVersion, if_neg h0, hO]

/-- Witness of `os_default`: the Facebook crawler names no operating system. -/
theorem os_default_witness :
    (Parse "facebookexternalhit/1.1".toList).OSName = "Other".toList ∧
    (Parse "facebookexternalhit/1.1".toList).OSVersion = [] :=
  (os_default "facebookexternalhit/1.1".toList).1 (by decide)

/-- C9. Device default: when no rule that specifies a deviceType matches the buffer,
DeviceType is `Desktop`. -/
theorem device_default (s : Str)
    (h : ∀ p ∈ patterns, p.deviceType ≠ [] → strings.Contains (cleaned s) p.find = false) :
    (Parse s).DeviceType = "Desktop".toList := by
  rw [Parse_DeviceType, (firstMatch_eq_nil_iff _ _ _).2 h, if_pos rfl]

/-- Witness of `device_default`: the Facebook crawler names no device. -/
theorem device_default_witness :
    (Parse "facebookexternalhit/1.1 (+http://www.facebook.com/externalhit_uatext.php)".toList
      ).DeviceType = "Desktop".toList :=
  device_default
    "facebookexternalhit/1.1 (+http://www.facebook.com/externalhit_uatext.php)".toList
    (by decide)

/-- C10, as stated, fails: for the empty header no rule matches and there is no `://`, and
`Parse` returns the DeviceType `Desktop`, not `Other`. -/
theorem other_for_missing_counterexample :
    (∀ p ∈ patterns, strings.Contains (cleaned []) p.find = false) ∧
    strings.Contains (unquote []) "://".toList = false ∧
    (Parse []).DeviceType = "Desktop".toList ∧
    (Parse []).DeviceType ≠ "Other".toList := by
  decide

/-- C10, amended. For a header whose buffer contains no rule's find text and whose unquoted
form contains no `://`, ClientType, ClientName and OSName are `Other` and DeviceType is
`Desktop`. -/
theorem other_for_missing (s : Str)
    (hno : ∀ p ∈ patterns, strings.Contains (cleaned s) p.find = false)
    (hurl : strings.Contains (unquote s) "://".toList = false) :
    (Parse s).ClientType = "Other".toList ∧ (Parse s).ClientName = "Other".toList ∧
    (Parse s).OSName = "Other".toList ∧ (Parse s).DeviceType = "Desktop".toList := by
  have h0 : ∀ slot : Match → Str, firstMatch (cleaned s) slot patterns = [] :=
    fun slot => (firstMatch_eq_nil_iff _ _ _).2 (fun p hp _ => hno p hp)
  have hO : (Parse s).OSName = "Other".toList := by rw [Parse_OSName, h0, if_pos rfl]
  have h1 : ¬ ("Other".toList = "iOS".toList ∨ "Other".toList = "iPadOS".toList ∨
      "Other".toList = "macOS".toList) := by decide
  have h2 : ¬ "Other".toList = "Android".toList := by decide
  have h3 : ¬ ("Other".toList = "iOS".toList ∨ "Other".toList = "iPadOS".toList ∨
      "Other".toList = "macOS".toList ∨ "Other".toList = "Android".toList) := by decide
  have hu : ¬ strings.Contains (unquote s) "://".toList = true := by rw [hurl]; decide
  refine ⟨?_, ?_, hO, ?_⟩
  · rw [Parse_ClientType, if_neg hu, h0, if_pos rfl, hO, if_neg (fun h => h3 h.2)]
  · rw [Parse_ClientName, h0, if_pos rfl, hO, if_neg h1, if_neg h2]
  · rw [Parse_DeviceType, h0, if_pos rfl]

/-- Witness of `other_for_missing`: `curl/7.68.0` matches no rule and has no URL. -/
theorem other_for_missing_witness :
    (Parse "curl/7.68.0".toList).ClientType = "Other".toList ∧
    (Parse "curl/7.68.0".toList).ClientName = "Other".toList ∧
    (Parse "curl/7.68.0".toList).OSName = "Other".toList ∧
    (Parse "curl/7.68.0".toList).DeviceType = "Desktop".toList :=
  other_for_missing "curl/7.68.0".toList (by decide) (by decide)

/-! ### Rule order: Mobile before Android, Bot rules first (C11, C12) -/

/-- C11. "Mobile" is checked before "Android": when the buffer contains none of
`Macintosh`, `iPad`, `iPhone`, a buffer with both `Android` and `Mobile` gives DeviceType
`Mobile` and OSName `Android`, and a buffer with `Android` but not `Mobile` gives
DeviceType `Tablet` and OSName `Android`. -/
theorem mobile_before_android (s : Str)
    (h1 : strings.Contains (cleaned s) "Macintosh".toList = false)
    (h2 : strings.Contains (cleaned s) "iPad".toList = false)
    (h3 : strings.Contains (cleaned s) "iPhone".toList = false)
    (hA : strings.Contains (cleaned s) "Android".toList = true) :
    (strings.Contains (cleaned s) "Mobile".toList = true →
      (Parse s).DeviceType = "Mobile".toList ∧ (Parse s).OSName = "Android".toList) ∧
    (strings.Contains (cleaned s) "Mobile".toList = false →
      (Parse s).DeviceType = "Tablet".toList ∧ (Parse s).OSName = "Android".toList) := by
  have hos : firstMatch (cleaned s) Match.operatingSystem patterns = "Android".toList := by
    refine firstMatch_of_index (cleaned s) Match.operatingSystem { find := [] } patterns 4
      (by decide) hA (by decide) ?_
    intro k hk
    interval_cases k
    · exact Or.inl h1
    · exact Or.inl h2
    · exact Or.inl h3
    · exact Or.inr rfl
  have hne : "Android".toList ≠ [] := by decide
  have hOS : (Parse s).OSName = "Android".toList := by
    rw [Parse_OSName, hos, if_neg hne]
  refine ⟨fun hM => ⟨?_, hOS⟩, fun hM => ⟨?_, hOS⟩⟩
  · have hd : firstMatch (cleaned s) Match.deviceType patterns = "Mobile".toList := by
      refine firstMatch_of_index (cleaned s) Match.deviceType { find := [] } patterns 3
        (by decide) hM (by decide) ?_
      intro k hk
      interval_cases k
      · exact Or.inl h1
      · exact Or.inl h2
      · exact Or.inl h3
    rw [Parse_DeviceType, hd, if_neg (by decide)]
  · have hd : firstMatch (cleaned s) Match.deviceType patterns = "Tablet".toList := by
      refine firstMatch_of_index (cleaned s) Match.deviceType { find := [] } patterns 4
        (by decide) hA (by decide) ?_
      intro k hk
      interval_cases k
      · exact Or.inl h1
      · exact Or.inl h2
      · exact Or.inl h3
      · exact Or.inl hM
    rw [Parse_DeviceType, hd, if_neg (by decide)]

/-- Witness of `mobile_before_android`: Chrome on an Android phone. -/
theorem mobile_before_android_witness :
    (Parse ("Mozilla/5.0 (Linux; Android 10; K) AppleWebKit/537.36 (KHTML, like Gecko) " ++
      "Chrome/98.0.4758.101 Mobile Safari/537.36").toList).DeviceType = "Mobile".toList ∧
    (Parse ("Mozilla/5.0 (Linux; Android 10; K) AppleWebKit/537.36 (KHTML, like Gecko) " ++
      "Chrome/98.0.4758.101 Mobile Safari/537.36").toList).OSName = "Android".toList :=
  (mobile_before_android
    ("Mozilla/5.0 (Linux; Android 10; K) AppleWebKit/537.36 (KHTML, like Gecko) " ++
      "Chrome/98.0.4758.101 Mobile Safari/537.36").toList
    (by decide) (by decide) (by decide) (by decide)).1 (by decide)

theorem patterns_split : patterns = patterns.take 9 ++ (botRules ++ patterns.drop 35) := by
  decide

theorem firstMatch_patterns_client (c : Str) (slot : Match → Str)
    (h0 : ∀ p ∈ patterns.take 9, slot p = [])
    (h1 : firstMatch c slot botRules ≠ []) :
    firstMatch c slot patterns = firstMatch c slot botRules := by
  have ht : firstMatch c slot (patterns.take 9) = [] :=
    (firstMatch_eq_nil_iff _ _ _).2 (fun p hp hs => absurd (h0 p hp) hs)
  rw [patterns_split, firstMatch_append, if_pos ht, firstMatch_append, if_neg h1]

/-- C12. Bot signatures precede app and browser signatures: when the buffer contains the
find text of at least one rule with clientType `Bot`, ClientType is `Bot` and ClientName is
the clientName of the earliest such rule, whatever App or Browser rules also match. -/
theorem bot_signatures_first (s : Str)
    (h : ∃ p ∈ patterns, p.clientType = "Bot".toList ∧
      strings.Contains (cleaned s) p.find = true) :
    (Parse s).ClientType = "Bot".toList ∧
    (Parse s).ClientName = firstMatch (cleaned s) Match.clientName botRules ∧
    ∃ p ∈ botRules, strings.Contains (cleaned s) p.find = true ∧
      (Parse s).ClientName = p.clientName := by
  obtain ⟨p, hp, hb, hc⟩ := h
  have hpb : p ∈ botRules := by
    unfold botRules
    rw [List.mem_filter]
    exact ⟨hp, by simpa using hb⟩
  have hnames : ∀ q ∈ botRules, q.clientName ≠ [] ∧ q.clientType = "Bot".toList := by decide
  have hN : firstMatch (cleaned s) Match.clientName botRules ≠ [] := by
    intro h0
    have := (firstMatch_eq_nil_iff _ _ _).1 h0 p hpb (hnames p hpb).1
    rw [hc] at this
    cases this
  have hT : firstMatch (cleaned s) Match.clientType botRules ≠ [] := by
    intro h0
    have hne : p.clientType ≠ [] := by rw [hb]; decide
    have := (firstMatch_eq_nil_iff _ _ _).1 h0 p hpb hne
    rw [hc] at this
    cases this
  have hN' := firstMatch_patterns_client (cleaned s) Match.clientName (by decide) hN
  have hT' := firstMatch_patterns_client (cleaned s) Match.clientType (by decide) hT
  have hName : (Parse s).ClientName = firstMatch (cleaned s) Match.clientName botRules := by
    rw [Parse_ClientName, hN', if_neg hN]
  refine ⟨?_, hName, ?_⟩
  · rw [Parse_ClientType, hT', if_neg hT]
    obtain ⟨q, hq, -, -, hq'⟩ := firstMatch_mem _ _ _ hT
    rw [← hq', (hnames q hq).2]
    exact ite_self _
  · obtain ⟨q, hq, hqc, -, hq'⟩ := firstMatch_mem _ _ _ hN
    exact ⟨q, hq, hqc, hName.trans hq'.symm⟩

/-- Witness of `bot_signatures_first`: Googlebot's smartphone header also names Chrome and
Safari. -/
theorem bot_signatures_first_witness :
    (Parse ("Mozilla/5.0 (Linux; Android 6.0.1; Nexus 5X Build/MMB29P) AppleWebKit/537.36 " ++
      "(KHTML, like Gecko) Chrome/100.0.4851.0 Mobile Safari/537.36 " ++
      "(compatible; Googlebot/2.1; +http://www.google.com/bot.html)").toList).ClientType =
      "Bot".toList ∧
    (Parse ("Mozilla/5.0 (Linux; Android 6.0.1; Nexus 5X Build/MMB29P) AppleWebKit/537.36 " ++
      "(KHTML, like Gecko) Chrome/100.0.4851.0 Mobile Safari/537.36 " ++
      "(compatible; Googlebot/2.1; +http://www.google.com/bot.html)").toList).ClientName =
      "Googlebot".toList :=
  have h := bot_signatures_first
    ("Mozilla/5.0 (Linux; Android 6.0.1; Nexus 5X Build/MMB29P) AppleWebKit/537.36 " ++
      "(KHTML, like Gecko) Chrome/100.0.4851.0 Mobile Safari/537.36 " ++
      "(compatible; Googlebot/2.1; +http://www.google.com/bot.html)").toList
    ⟨rule 18, by decide, by decide, by decide⟩
  ⟨h.1, h.2.1.trans (by decide)⟩

/-! ### The formatter and the closed vocabularies (C13 to C16) -/

/-- C13, the code at the failing input: for the record whose only non-empty field is
ClientName = `Chrome`, `String()` returns ` Chrome` with a leading space (the empty
ClientType is not omitted), while the rendering the claim describes is `Chrome`. -/
theorem string_keeps_empty_clientType :
    ({ ClientName := "Chrome".toList } : UserAgent).String = " Chrome".toList ∧
    canonicalRendering { ClientName := "Chrome".toList } = "Chrome".toList ∧
    ({ ClientName := "Chrome".toList } : UserAgent).String ≠
      canonicalRendering { ClientName := "Chrome".toList } := by
  decide

theorem firstMatch_value (c : Str) (slot : Match → Str) (ps : List Match)
    (P : Str → Prop) (hP : ∀ p ∈ ps, slot p ≠ [] → P (slot p))
    (h : firstMatch c slot ps ≠ []) : P (firstMatch c slot ps) := by
  obtain ⟨p, hp, -, hs, hq⟩ := firstMatch_mem c slot ps h
  rw [← hq]
  exact hP p hp hs

/-- C14. For every input, ClientType is one of `App`, `Bot`, `Browser`, `Other`. -/
theorem clientType_vocabulary (s : Str) :
    (Parse s).ClientType = "App".toList ∨ (Parse s).ClientType = "Bot".toList ∨
    (Parse s).ClientType = "Browser".toList ∨ (Parse s).ClientType = "Other".toList := by
  rw [Parse_ClientType]
  split_ifs with h1 h2 h3
  · exact Or.inr (Or.inl rfl)
  · exact Or.inr (Or.inr (Or.inl rfl))
  · exact Or.inr (Or.inr (Or.inr rfl))
  · exact firstMatch_value (cleaned s) Match.clientType patterns
      (fun v => v = "App".toList ∨ v = "Bot".toList ∨ v = "Browser".toList ∨
        v = "Other".toList) (by decide) h2

/-- C15. For every input, DeviceType is one of `Desktop`, `Mobile`, `Tablet`, `Other`. -/
theorem deviceType_vocabulary (s : Str) :
    (Parse s).DeviceType = "Desktop".toList ∨ (Parse s).DeviceType = "Mobile".toList ∨
    (Parse s).DeviceType = "Tablet".toList ∨ (Parse s).DeviceType = "Other".toList := by
  rw [Parse_DeviceType]
  split_ifs with h1
  · exact Or.inl rfl
  · exact firstMatch_value (cleaned s) Match.deviceType patterns
      (fun v => v = "Desktop".toList ∨ v = "Mobile".toList ∨ v = "Tablet".toList ∨
        v = "Other".toList) (by decide) h1

/-- C16. Closed vocabulary of names: OSName is `Other` or the operatingSystem value of a
rule of the table (macOS, iPadOS, iOS, Android, Windows, ChromeOS, Tizen, Linux), and
ClientName is `Other` or the clientName value of a rule of the table. -/
theorem names_vocabulary (s : Str) :
    ((Parse s).OSName = "Other".toList ∨
      ∃ p ∈ patterns, p.operatingSystem ≠ [] ∧ (Parse s).OSName = p.operatingSystem) ∧
    (Parse s).OSName ∈
      ["macOS".toList, "iPadOS".toList, "iOS".toList, "Android".toList, "Windows".toList,
       "ChromeOS".toList, "Tizen".toList, "Linux".toList, "Other".toList] ∧
    ((Parse s).ClientName = "Other".toList ∨
      ∃ p ∈ patterns, p.clientName ≠ [] ∧ (Parse s).ClientName = p.clientName) := by
  refine ⟨?_, ?_, ?_⟩
  · rw [Parse_OSName]
    split_ifs with h
    · exact Or.inl rfl
    · obtain ⟨p, hp, -, hs, hq⟩ := firstMatch_mem _ _ _ h
      exact Or.inr ⟨p, hp, hs, hq.symm⟩
  · rw [Parse_OSName]
    split_ifs with h
    · decide
    · exact firstMatch_value (cleaned s) Match.operatingSystem patterns
        (fun v => v ∈ ["macOS".toList, "iPadOS".toList, "iOS".toList, "Android".toList,
          "Windows".toList, "ChromeOS".toList, "Tizen".toList, "Linux".toList,
          "Other".toList]) (by decide) h
  · rw [Parse_ClientName]
    split_ifs with h h1 h2
    · exact Or.inr ⟨rule 61, by decide, by decide, by decide⟩
    · exact Or.inr ⟨rule 60, by decide, by decide, by decide⟩
    · exact Or.inl rfl
    · obtain ⟨p, hp, -, hs, hq⟩ := firstMatch_mem _ _ _ h
      exact Or.inr ⟨p, hp, hs, hq.symm⟩

/-! ### Two-segment truncation of versions -/

theorem Split_ne_nil (x : Str) (sep : Char) : strings.Split x sep ≠ [] := by
  induction x with
  | nil => simp [strings.Split]
  | cons c cs ih =>
    simp only [strings.Split]
    split_ifs
    · simp
    · cases h : strings.Split cs sep with
      | nil => simp
      | cons seg rest => simp

theorem Split_no_sep (x : Str) (sep : Char) :
    ∀ seg ∈ strings.Split x sep, seg.count sep = 0 := by
  induction x with
  | nil => simp [strings.Split]
  | cons c cs ih =>
    simp only [strings.Split]
    split_ifs with hc
    · intro seg hseg
      rcases List.mem_cons.1 hseg with h | h
      · rw [h]; rfl
      · exact ih seg h
    · cases h : strings.Split cs sep with
      | nil =>
        intro seg hseg
        simp only [List.mem_singleton] at hseg
        rw [hseg, List.count_cons_of_ne (Ne.symm hc)]
        rfl
      | cons seg0 rest =>
        rw [h] at ih
        intro seg hseg
        rcases List.mem_cons.1 hseg with h1 | h1
        · rw [h1, List.count_cons_of_ne (Ne.symm hc)]
          exact ih seg0 (List.mem_cons_self _ _)
        · exact ih seg (List.mem_cons_of_mem _ h1)

theorem cutSegments_dots (x v : Str)
    (h : cutSegments (strings.Split x '.') = some v) : v.count '.' ≤ 1 := by
  have hno := Split_no_sep x '.'
  cases hs : strings.Split x '.' with
  | nil => exact absurd hs (Split_ne_nil x '.')
  | cons a rest =>
    rw [hs] at h hno
    cases rest with
    | nil =>
      simp only [cutSegments, List.length_singleton, if_true, List.head?_cons,
        Option.some.injEq] at h
      rw [← h, hno a (List.mem_cons_self _ _)]
      exact Nat.zero_le 1
    | cons b rest2 =>
      have ha := hno a (List.mem_cons_self _ _)
      have hb := hno b (List.mem_cons_of_mem _ (List.mem_cons_self _ _))
      simp [cutSegments, strings.Join, List.intercalate, List.intersperse] at h
      rw [← h]
      simp [List.count_append, ha, hb]

theorem version_dots (fields : List Str) : (version fields).count '.' ≤ 1 := by
  induction fields with
  | nil => exact Nat.zero_le 1
  | cons f fs ih =>
    simp only [version]
    split_ifs
    · split
      · rename_i v hv
        exact cutSegments_dots _ v hv
      · exact ih
    · exact ih

theorem clientVersion_dots (fields : List Str) (name : Str) :
    (clientVersion fields name).count '.' ≤ 1 := by
  induction fields with
  | nil => exact Nat.zero_le 1
  | cons f fs ih =>
    simp only [clientVersion]
    split_ifs
    · split
      · rename_i v hv
        exact cutSegments_dots _ v hv
      · exact ih
    · exact ih
    · exact ih

theorem applyPattern_ClientVersion (c : Str) (ua : UserAgent) (p : Match) :
    (applyPattern c ua p).ClientVersion = ua.ClientVersion ∨
    (applyPattern c ua p).ClientVersion = clientVersion ua.Fields p.find := by
  simp only [applyPattern, apply_ite UserAgent.ClientVersion, apply_ite UserAgent.Fields,
    ite_self]
  split_ifs <;> first | exact Or.inl rfl | exact Or.inr rfl

theorem foldl_ClientVersion_dots (c : Str) (ps : List Match) (ua : UserAgent)
    (h : ua.ClientVersion.count '.' ≤ 1) :
    (ps.foldl (applyPattern c) ua).ClientVersion.count '.' ≤ 1 := by
  induction ps generalizing ua with
  | nil => exact h
  | cons p ps ih =>
    simp only [List.foldl]
    apply ih
    rcases applyPattern_ClientVersion c ua p with h1 | h1
    · rw [h1]; exact h
    · rw [h1]; exact clientVersion_dots _ _

theorem matched_ClientVersion_dots (s : Str) : (matched s).ClientVersion.count '.' ≤ 1 := by
  unfold matched
  rw [matchPatterns_eq_foldl]
  apply foldl_ClientVersion_dots
  rw [(initial_fields s).2.2.2.2.2.2.1]
  exact Nat.zero_le 1

/-! ### Versions, and `unquote` on code points (C17 to C19) -/

/-- C17, as stated, fails: for the Internet Explorer header below the ClientVersion is the
`rv:` text verbatim, `11.0.1`, which has two `.` characters. -/
theorem clientVersion_major_minor_counterexample :
    (Parse "Mozilla/5.0 (Windows NT 6.1; Trident/7.0; rv:11.0.1) like Gecko".toList
      ).ClientName = "InternetExplorer".toList ∧
    (Parse "Mozilla/5.0 (Windows NT 6.1; Trident/7.0; rv:11.0.1) like Gecko".toList
      ).ClientVersion = "11.0.1".toList ∧
    ¬ (Parse "Mozilla/5.0 (Windows NT 6.1; Trident/7.0; rv:11.0.1) like Gecko".toList
      ).ClientVersion.count '.' ≤ 1 := by
  decide

/-- C17, amended. ClientVersion contains at most one `.`, except when ClientName is
`InternetExplorer` and `releaseVersion(Fields)` is non-empty: then ClientVersion is
`releaseVersion(Fields)` verbatim. -/
theorem clientVersion_major_minor (s : Str) :
    (¬ ((Parse s).ClientName = "InternetExplorer".toList ∧
        releaseVersion (Parse s).Fields ≠ []) →
      (Parse s).ClientVersion.count '.' ≤ 1) ∧
    ((Parse s).ClientName = "InternetExplorer".toList →
      releaseVersion (Parse s).Fields ≠ [] →
      (Parse s).ClientVersion = releaseVersion (Parse s).Fields) := by
  have hIE : "InternetExplorer".toList ≠ "Safari".toList := by decide
  have hV := Parse_ClientVersion s
  have hm := matched_ClientVersion_dots s
  refine ⟨fun h => ?_, fun h hv => ?_⟩
  · rw [hV]
    split_ifs with h1 h2 h3 h4
    · exact version_dots _
    · exact hm
    · exact absurd ⟨h3, h4⟩ h
    · exact hm
    · exact hm
  · have hn : ¬ (Parse s).ClientName = "Safari".toList := fun h' => hIE (h.symm.trans h')
    rw [hV, if_neg hn, if_pos h, if_pos hv]

/-- Witness of `clientVersion_major_minor`: Chrome's four-segment version is cut to two. -/
theorem clientVersion_major_minor_witness :
    (Parse ("Mozilla/5.0 (X11; Linux x86_64) AppleWebKit/537.36 (KHTML, like Gecko) " ++
      "Chrome/100.0.4889.0 Safari/537.36").toList).ClientVersion.count '.' ≤ 1 :=
  (clientVersion_major_minor
    ("Mozilla/5.0 (X11; Linux x86_64) AppleWebKit/537.36 (KHTML, like Gecko) " ++
      "Chrome/100.0.4889.0 Safari/537.36").toList).1 (by decide)

/-- C18, the code at the failing input: a text that mixes both separators is split on `_`
only, so `majorMinorVersion` keeps the dots of its first two segments; `1.2_3.4` gives
`1.2.3.4`, and the header `Mozilla/5.0 (Windows NT 1.2_3.4)` gets that OSVersion, with
three `.` characters. -/
theorem majorMinorVersion_mixed_separators :
    majorMinorVersion "1.2_3.4".toList = "1.2.3.4".toList ∧
    (Parse "Mozilla/5.0 (Windows NT 1.2_3.4)".toList).OSName = "Windows".toList ∧
    (Parse "Mozilla/5.0 (Windows NT 1.2_3.4)".toList).OSVersion = "1.2.3.4".toList ∧
    (Parse "Mozilla/5.0 (Windows NT 1.2_3.4)".toList).OSVersion.count '.' = 3 := by
  decide

/-- C19. Version truncation examples of `majorMinorVersion`, from the specification and
from the test table. -/
theorem majorMinorVersion_examples :
    majorMinorVersion "10_15_5".toList = "10.15".toList ∧
    majorMinorVersion "15_1".toList = "15.1".toList ∧
    majorMinorVersion "x86_64".toList = [] ∧
    majorMinorVersion "10".toList = "10".toList ∧
    majorMinorVersion "10_11_6".toList = "10.11".toList ∧
    majorMinorVersion "5.1".toList = "5.1".toList ∧
    majorMinorVersion "iPhone".toList = [] ∧
    majorMinorVersion [] = [] := by
  decide

theorem unquote_eq_filter (s : Str) :
    unquote s = s.filter (fun r => decide (r ≠ Char.ofNat 39 ∧ r ≠ Char.ofNat 34)) := by
  induction s with
  | nil => rfl
  | cons r rs ih =>
    simp only [unquote, List.filter]
    by_cases h : r ≠ Char.ofNat 39 ∧ r ≠ Char.ofNat 34
    · rw [if_pos h, decide_eq_true h, ih]
    · rw [if_neg h, decide_eq_false h, ih]

/-- On a well-formed string, given by its code points, `unquote` is order-preserving
character filtering: `unquote s` is the sequence of the characters of `s` that are neither
the single quote (code 39) nor the double quote (code 34), in their order; so it contains
no quote, equals `s` when `s` contains none, and is idempotent.  Strings that are not
well-formed UTF-8 are treated with `unquoteBytes`. -/
theorem unquote_filters_quotes (s : Str) :
    unquote s = s.filter (fun r => decide (r ≠ Char.ofNat 39 ∧ r ≠ Char.ofNat 34)) ∧
    Char.ofNat 39 ∉ unquote s ∧ Char.ofNat 34 ∉ unquote s ∧
    (Char.ofNat 39 ∉ s → Char.ofNat 34 ∉ s → unquote s = s) ∧
    unquote (unquote s) = unquote s := by
  refine ⟨unquote_eq_filter s, ?_, ?_, ?_, unquote_idem s⟩
  · rw [unquote_eq_filter, List.mem_filter]
    rintro ⟨-, h⟩
    simp at h
  · rw [unquote_eq_filter, List.mem_filter]
    rintro ⟨-, h⟩
    simp at h
  · intro h1 h2
    rw [unquote_eq_filter, List.filter_eq_self]
    intro a ha
    refine decide_eq_true ⟨?_, ?_⟩
    · rintro rfl; exact h1 ha
    · rintro rfl; exact h2 ha

/-- Witness of `unquote_filters_quotes` on the test input with unbalanced quotes: a leading
single quote before `Mozilla/5.0 (compatible; Seekport Crawler; http://seekport.com/`. -/
theorem unquote_filters_quotes_witness :
    unquote (Char.ofNat 39 ::
        "Mozilla/5.0 (compatible; Seekport Crawler; http://seekport.com/".toList) =
      "Mozilla/5.0 (compatible; Seekport Crawler; http://seekport.com/".toList ∧
    unquote "SiteScoreBot v20210315 - https://sitescore.ai".toList =
      "SiteScoreBot v20210315 - https://sitescore.ai".toList :=
  ⟨(unquote_filters_quotes (Char.ofNat 39 ::
      "Mozilla/5.0 (compatible; Seekport Crawler; http://seekport.com/".toList)).1.trans
      (by decide),
   (unquote_filters_quotes "SiteScoreBot v20210315 - https://sitescore.ai".toList).2.2.2.1
      (by decide) (by decide)⟩

/-! ### The Googlebot scenario, first match per slot, version by find text (C23 to C25) -/

/-- C23. End-to-end scenario: the Googlebot header renders as
`Bot Googlebot 2.1 Desktop Other http://www.google.com/bot.html`; its tokens are
`Googlebot/2.1` and `+http://www.google.com/bot.html`, the URL loses its `+`, the version
comes from the token of the matched name, and device and OS fall back to `Desktop` and
`Other`. -/
theorem googlebot_scenario :
    (Parse "Mozilla/5.0 (compatible; Googlebot/2.1; +http://www.google.com/bot.html)".toList
      ).String = "Bot Googlebot 2.1 Desktop Other http://www.google.com/bot.html".toList ∧
    (Parse "Mozilla/5.0 (compatible; Googlebot/2.1; +http://www.google.com/bot.html)".toList
      ).Fields = ["Googlebot/2.1".toList, "+http://www.google.com/bot.html".toList] ∧
    (Parse "Mozilla/5.0 (compatible; Googlebot/2.1; +http://www.google.com/bot.html)".toList
      ).URL = "http://www.google.com/bot.html".toList ∧
    (Parse "Mozilla/5.0 (compatible; Googlebot/2.1; +http://www.google.com/bot.html)".toList
      ).ClientVersion = "2.1".toList ∧
    (Parse "Mozilla/5.0 (compatible; Googlebot/2.1; +http://www.google.com/bot.html)".toList
      ).DeviceType = "Desktop".toList ∧
    (Parse "Mozilla/5.0 (compatible; Googlebot/2.1; +http://www.google.com/bot.html)".toList
      ).OSName = "Other".toList := by
  decide

/-- C24. First match wins per slot: if rule `i` matches the buffer and specifies a slot, and
no earlier rule both matches and specifies that slot, then `Parse` returns rule `i`'s value
for deviceType, osName and clientName, and for clientType when the unquoted header has no
`://`, whatever rules fill the other slots. -/
theorem first_match_wins (s : Str) (i : Nat) (hi : i < patterns.length)
    (hm : strings.Contains (cleaned s) (rule i).find = true) :
    ((rule i).deviceType ≠ [] →
      (∀ k, k < i → strings.Contains (cleaned s) (rule k).find = false ∨
        (rule k).deviceType = []) →
      (Parse s).DeviceType = (rule i).deviceType) ∧
    ((rule i).operatingSystem ≠ [] →
      (∀ k, k < i → strings.Contains (cleaned s) (rule k).find = false ∨
        (rule k).operatingSystem = []) →
      (Parse s).OSName = (rule i).operatingSystem) ∧
    ((rule i).clientName ≠ [] →
      (∀ k, k < i → strings.Contains (cleaned s) (rule k).find = false ∨
        (rule k).clientName = []) →
      (Parse s).ClientName = (rule i).clientName) ∧
    ((rule i).clientType ≠ [] →
      (∀ k, k < i → strings.Contains (cleaned s) (rule k).find = false ∨
        (rule k).clientType = []) →
      strings.Contains (unquote s) "://".toList = false →
      (Parse s).ClientType = (rule i).clientType) := by
  have hfirst : ∀ slot : Match → Str, slot (rule i) ≠ [] →
      (∀ k, k < i → strings.Contains (cleaned s) (rule k).find = false ∨ slot (rule k) = []) →
      firstMatch (cleaned s) slot patterns = slot (rule i) :=
    fun slot hs hb => firstMatch_of_index (cleaned s) slot _ patterns i hi hm hs hb
  refine ⟨fun h hb => ?_, fun h hb => ?_, fun h hb => ?_, fun h hb hu => ?_⟩
  · rw [Parse_DeviceType, hfirst _ h hb, if_neg h]
  · rw [Parse_OSName, hfirst _ h hb, if_neg h]
  · rw [Parse_ClientName, hfirst _ h hb, if_neg h]
  · have hu' : ¬ strings.Contains (unquote s) "://".toList = true := by rw [hu]; decide
    rw [Parse_ClientType, if_neg hu', hfirst _ h hb, if_neg h]

/-- Witness of `first_match_wins`: an iPad header also contains `Mobile`; rule 1 (`iPad`)
is the first matching rule with a device type and an operating system. -/
theorem first_match_wins_witness :
    (Parse ("Mozilla/5.0 (iPad; CPU OS 15_5 like Mac OS X) AppleWebKit/605.1.15 " ++
      "(KHTML, like Gecko) GSA/213.0.449417121 Mobile/15E148 Safari/604.1").toList
      ).DeviceType = "Tablet".toList ∧
    (Parse ("Mozilla/5.0 (iPad; CPU OS 15_5 like Mac OS X) AppleWebKit/605.1.15 " ++
      "(KHTML, like Gecko) GSA/213.0.449417121 Mobile/15E148 Safari/604.1").toList
      ).OSName = "iPadOS".toList :=
  have h := first_match_wins
    ("Mozilla/5.0 (iPad; CPU OS 15_5 like Mac OS X) AppleWebKit/605.1.15 " ++
      "(KHTML, like Gecko) GSA/213.0.449417121 Mobile/15E148 Safari/604.1").toList
    1 (by decide) (by decide)
  ⟨(h.1 (by decide) (by decide)).trans (by decide),
   (h.2.1 (by decide) (by decide)).trans (by decide)⟩

theorem applyPattern_ClientVersion_eq (c : Str) (ua : UserAgent) (p : Match) :
    (applyPattern c ua p).ClientVersion =
      if strings.Contains c p.find ∧ p.clientName ≠ [] ∧ ua.ClientName = [] then
        clientVersion ua.Fields p.find
      else ua.ClientVersion := by
  simp only [applyPattern, apply_ite UserAgent.ClientVersion, apply_ite UserAgent.Fields,
    apply_ite UserAgent.ClientName, ite_self]
  split_ifs <;> simp_all

theorem foldl_ClientVersion_of_named (c : Str) (ps : List Match) (ua : UserAgent)
    (h : ua.ClientName ≠ []) :
    (ps.foldl (applyPattern c) ua).ClientVersion = ua.ClientVersion := by
  induction ps generalizing ua with
  | nil => rfl
  | cons p ps ih =>
    simp only [List.foldl]
    have hn : (applyPattern c ua p).ClientName ≠ [] := by
      rw [applyPattern_ClientName, if_neg h]; exact h
    rw [ih _ hn, applyPattern_ClientVersion_eq, if_neg (fun hh => h hh.2.2)]

theorem foldl_ClientVersion_of_index (c : Str) (d : Match) :
    ∀ (ps : List Match) (i : Nat) (ua : UserAgent), i < ps.length → ua.ClientName = [] →
      strings.Contains c (ps.getD i d).find = true → (ps.getD i d).clientName ≠ [] →
      (∀ k, k < i → strings.Contains c (ps.getD k d).find = false ∨
        (ps.getD k d).clientName = []) →
      (ps.foldl (applyPattern c) ua).ClientVersion = clientVersion ua.Fields (ps.getD i d).find := by
  intro ps
  induction ps with
  | nil => intro i ua hi; simp at hi
  | cons p ps ih =>
    intro i ua hi hu hc hs hb
    simp only [List.foldl]
    cases i with
    | zero =>
      simp only [List.getD_cons_zero] at hc hs ⊢
      have hn : (applyPattern c ua p).ClientName ≠ [] := by
        rw [applyPattern_ClientName, if_pos hu, if_pos ⟨hc, hs⟩]; exact hs
      rw [foldl_ClientVersion_of_named c ps _ hn, applyPattern_ClientVersion_eq,
        if_pos ⟨hc, hs, hu⟩]
    | succ j =>
      simp only [List.getD_cons_succ] at hc hs ⊢
      have h0 := hb 0 (Nat.succ_pos j)
      simp only [List.getD_cons_zero] at h0
      have hskip : ¬ (strings.Contains c p.find = true ∧ p.clientName ≠ []) := by
        rintro ⟨h1, h2⟩
        rcases h0 with h0 | h0
        · rw [h0] at h1; exact Bool.noConfusion h1
        · exact h2 h0
      have hn : (applyPattern c ua p).ClientName = [] := by
        rw [applyPattern_ClientName, if_pos hu, if_neg hskip]
      have hf : (applyPattern c ua p).Fields = ua.Fields := (applyPattern_fixed c ua p).2.1
      rw [ih j _ (Nat.lt_of_succ_lt_succ hi) hn hc hs
        (fun k hk => by simpa using hb (k + 1) (Nat.succ_lt_succ hk)), hf]

theorem matched_ClientVersion_of_index (s : Str) (i : Nat) (hi : i < patterns.length)
    (hm : strings.Contains (cleaned s) (rule i).find = true)
    (hn : (rule i).clientName ≠ [])
    (hb : ∀ k, k < i → strings.Contains (cleaned s) (rule k).find = false ∨
      (rule k).clientName = []) :
    (matched s).ClientVersion = clientVersion (parseFields (unquote s)) (rule i).find := by
  unfold matched
  rw [matchPatterns_eq_foldl,
    foldl_ClientVersion_of_index (cleaned s) _ patterns i (initial s) hi
      (initial_fields s).2.2.2.2.1 hm hn hb, (initial_fields s).2.1]
  rfl

/-- C25. The version follows the matched rule's find text: when rule `i` is the earliest
rule that matches the buffer and specifies a clientName, and that clientName is neither
`Safari` nor `InternetExplorer`, `Parse` returns
`ClientVersion = clientVersion(Fields, (rule i).find)`: the search key is the rule's find
text, not the reported ClientName. -/
theorem version_follows_find_text (s : Str) (i : Nat) (hi : i < patterns.length)
    (hm : strings.Contains (cleaned s) (rule i).find = true)
    (hn : (rule i).clientName ≠ [])
    (hb : ∀ k, k < i → strings.Contains (cleaned s) (rule k).find = false ∨
      (rule k).clientName = [])
    (hS : (rule i).clientName ≠ "Safari".toList)
    (hI : (rule i).clientName ≠ "InternetExplorer".toList) :
    (Parse s).ClientName = (rule i).clientName ∧
    (Parse s).ClientVersion = clientVersion (Parse s).Fields (rule i).find := by
  have hfm : firstMatch (cleaned s) Match.clientName patterns = (rule i).clientName :=
    firstMatch_of_index (cleaned s) Match.clientName _ patterns i hi hm hn hb
  have hname : (Parse s).ClientName = (rule i).clientName := by
    rw [Parse_ClientName, hfm, if_neg hn]
  refine ⟨hname, ?_⟩
  rw [Parse_ClientVersion, hname, if_neg hS, if_neg hI, Parse_Fields,
    matched_ClientVersion_of_index s i hi hm hn hb]

/-- Witness of `version_follows_find_text`: the Facebook app is recognised by the find text
`FBSV` (rule 35), and the version is read from the `FBSV/15.5` token, which does not
contain the reported name `Facebook`. -/
theorem version_follows_find_text_witness :
    (Parse ("Mozilla/5.0 (iPhone; CPU iPhone OS 15_5 like Mac OS X) AppleWebKit/605.1.15 " ++
      "(KHTML, like Gecko) Mobile/19F77 [FBAN/FBIOS;FBDV/iPhone12,1;FBSV/15.5]").toList
      ).ClientName = "Facebook".toList ∧
    (Parse ("Mozilla/5.0 (iPhone; CPU iPhone OS 15_5 like Mac OS X) AppleWebKit/605.1.15 " ++
      "(KHTML, like Gecko) Mobile/19F77 [FBAN/FBIOS;FBDV/iPhone12,1;FBSV/15.5]").toList
      ).ClientVersion = "15.5".toList :=
  have h := version_follows_find_text
    ("Mozilla/5.0 (iPhone; CPU iPhone OS 15_5 like Mac OS X) AppleWebKit/605.1.15 " ++
      "(KHTML, like Gecko) Mobile/19F77 [FBAN/FBIOS;FBDV/iPhone12,1;FBSV/15.5]").toList
    35 (by decide) (by decide) (by decide) (by decide) (by decide) (by decide)
  ⟨h.1.trans (by decide), h.2.trans (by decide)⟩

/-! ### Segments, valid runes and the numeric normalizer (C27) -/

theorem Split_of_not_mem (x : Str) (sep : Char) (h : sep ∉ x) : strings.Split x sep = [x] := by
  induction x with
  | nil => rfl
  | cons c cs ih =>
    have hc : c ≠ sep := fun e => h (e ▸ List.mem_cons_self _ _)
    have hcs : sep ∉ cs := fun e => h (List.mem_cons_of_mem _ e)
    simp only [strings.Split, if_neg hc, ih hcs]

theorem Split_length_of_mem (x : Str) (sep : Char) (h : sep ∈ x) :
    2 ≤ (strings.Split x sep).length := by
  induction x with
  | nil => simp at h
  | cons c cs ih =>
    simp only [strings.Split]
    by_cases hc : c = sep
    · rw [if_pos hc]
      have := List.length_pos.2 (Split_ne_nil cs sep)
      simp only [List.length_cons]
      omega
    · rw [if_neg hc]
      have hcs : sep ∈ cs := by
        rcases List.mem_cons.1 h with e | e
        · exact absurd e.symm hc
        · exact e
      have := ih hcs
      cases hs : strings.Split cs sep with
      | nil => rw [hs] at this; simp at this
      | cons seg rest => rw [hs] at this; simpa using this

theorem Split_length_one_iff (x : Str) (sep : Char) :
    (strings.Split x sep).length = 1 ↔ sep ∉ x := by
  constructor
  · intro h hm
    have := Split_length_of_mem x sep hm
    omega
  · intro h
    rw [Split_of_not_mem x sep h]; rfl

theorem cutSegments_Split (x : Str) :
    cutSegments (strings.Split x '.') = some (firstTwoSegments x) := by
  unfold firstTwoSegments cutSegments
  by_cases h : '.' ∈ x
  · have h2 := Split_length_of_mem x '.' h
    rw [if_neg (by omega), if_pos h2, if_pos h]
  · rw [if_neg h, Split_of_not_mem x '.' h]; rfl

theorem Contains_singleton (t : Str) (c : Char) : strings.Contains t [c] = true ↔ c ∈ t := by
  induction t with
  | nil => simp [strings.Contains]
  | cons d ds ih =>
    simp only [strings.Contains, Bool.or_eq_true, ih, List.mem_cons]
    constructor
    · rintro (h | h)
      · left
        simp only [List.isPrefixOf, Bool.and_eq_true, beq_iff_eq] at h
        exact h.1
      · exact Or.inr h
    · rintro (h | h)
      · left
        subst h
        simp [List.isPrefixOf]
      · exact Or.inr h

theorem validRune_iff (l : List Char) (r : Char) : validRune l r = true ↔ r ∈ l := by
  induction l with
  | nil => simp [validRune]
  | cons i is ih =>
    simp only [validRune, List.mem_cons]
    by_cases h : r = i
    · simp [h]
    · simp [h, ih]

theorem isDigits_iff (t : Str) :
    isDigits t = true ↔ t ≠ [] ∧ ∀ c ∈ t, c ∈ "0123456789._".toList := by
  unfold isDigits
  by_cases h : t = []
  · simp [h]
  · rw [if_neg h, List.all_eq_true]
    simp only [validRune_iff]
    exact ⟨fun hh => ⟨h, hh⟩, fun hh => hh.2⟩

theorem Join_two_ne_nil (segments : List Str) (h : 2 ≤ segments.length) :
    strings.Join (segments.take 2) ".".toList ≠ [] := by
  match segments, h with
  | a :: b :: rest, _ =>
    simp [strings.Join, List.intercalate, List.intersperse]

/-- C27. The numeric normalizer: `majorMinorVersion t` is empty exactly when `t` is empty or
has a character other than the digits, `.` and `_`; otherwise, splitting `t` on `_` when it
contains `_` and on `.` when it does not, the result is the first two segments joined by
`.`, or `t` itself when there is a single segment. -/
theorem majorMinorVersion_normalizer (t : Str) :
    (majorMinorVersion t = [] ↔ t = [] ∨ ∃ c ∈ t, c ∉ "0123456789._".toList) ∧
    (majorMinorVersion t ≠ [] →
      majorMinorVersion t =
        if (strings.Split t (if '_' ∈ t then '_' else '.')).length = 1 then t
        else strings.Join ((strings.Split t (if '_' ∈ t then '_' else '.')).take 2)
          ".".toList) := by
  have hsegs : (if strings.Contains t "_".toList = true then strings.Split t '_'
      else strings.Split t '.') = strings.Split t (if '_' ∈ t then '_' else '.') := by
    have hc : strings.Contains t "_".toList = true ↔ '_' ∈ t := Contains_singleton t '_'
    by_cases h : '_' ∈ t
    · rw [if_pos (hc.2 h), if_pos h]
    · rw [if_neg (fun e => h (hc.1 e)), if_neg h]
  have hval : isDigits t = true →
      majorMinorVersion t =
        (if (strings.Split t (if '_' ∈ t then '_' else '.')).length = 1 then t
         else strings.Join ((strings.Split t (if '_' ∈ t then '_' else '.')).take 2)
          ".".toList) ∧ majorMinorVersion t ≠ [] := by
    intro hd
    have hne : t ≠ [] := ((isDigits_iff t).1 hd).1
    unfold majorMinorVersion
    rw [if_neg (by simp [hd])]
    dsimp only
    rw [hsegs]
    generalize (if '_' ∈ t then '_' else '.') = sep
    by_cases hm : sep ∈ t
    · have h2 := Split_length_of_mem t sep hm
      rw [if_pos h2, if_neg (by omega)]
      exact ⟨rfl, Join_two_ne_nil _ h2⟩
    · rw [Split_of_not_mem t sep hm]
      simp only [List.length_singleton, ge_iff_le, Nat.not_ofNat_le_one, if_false, if_true,
        List.headD_cons]
      exact ⟨trivial, hne⟩
  have hinv : isDigits t = false → majorMinorVersion t = [] := by
    intro hd
    unfold majorMinorVersion
    rw [if_pos (by simp [hd])]
  constructor
  · constructor
    · intro he
      by_contra hcon
      have hd : isDigits t = true := by
        rw [isDigits_iff]
        push_neg at hcon
        exact ⟨hcon.1, hcon.2⟩
      exact (hval hd).2 he
    · intro h
      apply hinv
      cases hd : isDigits t with
      | false => rfl
      | true =>
        rcases (isDigits_iff t).1 hd with ⟨h1, h2⟩
        rcases h with h | ⟨c, hc, hn⟩
        · exact absurd h h1
        · exact absurd (h2 c hc) hn
  · intro hne
    cases hd : isDigits t with
    | false => exact absurd (hinv hd) hne
    | true => exact (hval hd).1

/-! ### The OS-version, Version-keyword and release-version extractors (C28 to C30) -/

theorem osVersionLoop_eq (fields : List Str) (key : Str) :
    osVersionLoop fields key =
      match tokenAfter fields key with
      | some next => majorMinorVersion next
      | none => [] := by
  induction fields with
  | nil => rfl
  | cons f fs ih =>
    simp only [osVersionLoop]
    by_cases h : f = key
    · subst h
      cases fs with
      | nil => simp [osVersionLoop, tokenAfter]
      | cons g gs => simp [tokenAfter]
    · rw [if_neg (fun hh => h hh.1), ih]
      simp [tokenAfter, h]

theorem tokenAfter_of_not_mem (fields : List Str) (key : Str) (h : key ∉ fields) :
    tokenAfter fields key = none := by
  have : fields.dropWhile (fun f => decide (f ≠ key)) = [] := by
    rw [List.dropWhile_eq_nil_iff]
    intro x hx
    exact decide_eq_true (fun e => h (e ▸ hx))
  unfold tokenAfter
  rw [this]

theorem tokenAfter_of_last (pre : List Str) (key : Str) (h : key ∉ pre) :
    tokenAfter (pre ++ [key]) key = none := by
  induction pre with
  | nil => simp [tokenAfter]
  | cons f fs ih =>
    have hf : f ≠ key := fun e => h (e ▸ List.mem_cons_self _ _)
    have := ih (fun e => h (List.mem_cons_of_mem _ e))
    simp only [tokenAfter, List.cons_append, List.dropWhile_cons, decide_eq_true hf,
      if_true] at this ⊢
    exact this

/-- C28. The OS-version extractor: with `key = OS` for `iOS`, `iPadOS` and `macOS` and
`key = osName` otherwise, `osVersion fields osName` is `majorMinorVersion` of the token
right after the first token equal to `key`; it is empty when `osName` is empty, when no
token equals `key`, and when the first token equal to `key` is the last token. -/
theorem osVersion_extractor (fields : List Str) (osName : Str) :
    (osVersion fields osName =
      if osName = [] then []
      else match tokenAfter fields (osKey osName) with
        | some next => majorMinorVersion next
        | none => []) ∧
    (osName = [] → osVersion fields osName = []) ∧
    (osKey osName ∉ fields → osVersion fields osName = []) ∧
    (∀ pre, osKey osName ∉ pre → fields = pre ++ [osKey osName] →
      osVersion fields osName = []) := by
  have main : osVersion fields osName =
      if osName = [] then []
      else match tokenAfter fields (osKey osName) with
        | some next => majorMinorVersion next
        | none => [] := by
    unfold osVersion
    by_cases h : osName = []
    · rw [if_pos h, if_pos h]
    · rw [if_neg h, if_neg h]
      exact osVersionLoop_eq fields (osKey osName)
  refine ⟨main, fun h => ?_, fun h => ?_, fun pre h hf => ?_⟩
  · rw [main, if_pos h]
  · rw [main, tokenAfter_of_not_mem fields _ h]
    exact ite_self _
  · rw [main, hf, tokenAfter_of_last pre _ h]
    exact ite_self _

theorem len_eq_zero_iff (t : Str) : len t = 0 ↔ t = [] := by
  cases t with
  | nil => simp [len]
  | cons c cs =>
    have := Char.utf8Size_pos c
    simp only [len, List.map_cons, List.sum_cons, reduceCtorEq, iff_false]
    omega

theorem len_append (a b : Str) : len (a ++ b) = len a + len b := by
  simp [len]

theorem HasPrefix_iff (f pre : Str) : strings.HasPrefix f pre = true ↔ ∃ t, f = pre ++ t := by
  unfold strings.HasPrefix
  rw [List.isPrefixOf_iff_prefix]
  exact ⟨fun ⟨t, h⟩ => ⟨t, h.symm⟩, fun ⟨t, h⟩ => ⟨t, h.symm⟩⟩

theorem version_token (t : Str) :
    (len ("Version/".toList ++ t) > 8 ↔ t ≠ []) ∧
    strings.Index ("Version/".toList ++ t) "/".toList + 1 = 8 ∧
    ("Version/".toList ++ t).drop 8 = t := by
  refine ⟨?_, by simp [strings.Index, List.isPrefixOf], rfl⟩
  have h0 := len_eq_zero_iff t
  have h8 : len "Version/".toList = 8 := by decide
  rw [len_append, h8]
  constructor
  · intro h e
    have := h0.2 e
    omega
  · intro h
    have : len t ≠ 0 := fun e => h (h0.1 e)
    omega

theorem release_token (t : Str) :
    (len ("rv:".toList ++ t) > 3 ↔ t ≠ []) ∧
    strings.Index ("rv:".toList ++ t) ":".toList + 1 = 3 ∧
    ("rv:".toList ++ t).drop 3 = t := by
  refine ⟨?_, by simp [strings.Index, List.isPrefixOf], rfl⟩
  have h0 := len_eq_zero_iff t
  have h8 : len "rv:".toList = 3 := by decide
  rw [len_append, h8]
  constructor
  · intro h e
    have := h0.2 e
    omega
  · intro h
    have : len t ≠ 0 := fun e => h (h0.1 e)
    omega

/-- C29. The Version-keyword extractor: `version fields` is empty when no token begins with
`Version/` and is longer than 8; otherwise, for the first such token, it is the text after
`Version/` cut down to its first two dot-separated segments joined by `.` (the whole text
when it has no `.`).  A token that begins with `Version/` is longer than 8 exactly when it
is not `Version/` itself, so that token is skipped. -/
theorem version_extractor (fields : List Str) :
    (version fields =
      match fields.find? (fun f => strings.HasPrefix f "Version/".toList && decide (len f > 8))
      with
      | none => []
      | some f => firstTwoSegments (f.drop 8)) ∧
    (∀ f, strings.HasPrefix f "Version/".toList = true →
      ((len f > 8 ↔ f.length > 8) ∧ (len f > 8 ↔ f ≠ "Version/".toList))) ∧
    version ("Version/".toList :: fields) = version fields := by
  refine ⟨?_, ?_, ?_⟩
  · induction fields with
    | nil => rfl
    | cons f fs ih =>
      simp only [version, List.find?]
      by_cases h : strings.HasPrefix f "Version/".toList = true ∧ len f > 8
      · rw [if_pos h]
        obtain ⟨t, rfl⟩ := (HasPrefix_iff f _).1 h.1
        have hd : (strings.HasPrefix ("Version/".toList ++ t) "Version/".toList &&
            decide (len ("Version/".toList ++ t) > 8)) = true := by
          rw [h.1, decide_eq_true h.2]; rfl
        rw [hd]
        dsimp only
        rw [(version_token t).2.1]
        change (match cutSegments (strings.Split t (Char.ofNat 46)) with
          | some v => v
          | none => version fs) = firstTwoSegments t
        rw [cutSegments_Split]
      · rw [if_neg h]
        have hd : (strings.HasPrefix f "Version/".toList && decide (len f > 8)) = false := by
          cases hp : strings.HasPrefix f "Version/".toList with
          | false => rfl
          | true =>
            have : ¬ len f > 8 := fun hl => h ⟨hp, hl⟩
            rw [decide_eq_false this]; rfl
        rw [hd]
        exact ih
  · intro f hf
    obtain ⟨t, rfl⟩ := (HasPrefix_iff f _).1 hf
    rw [(version_token t).1]
    constructor
    · rw [List.length_append]
      have : "Version/".toList.length = 8 := by decide
      rw [this]
      cases t with
      | nil => simp
      | cons c cs => simp
    · constructor
      · intro h e
        exact h (List.append_right_eq_self.1 e)
      · intro h e
        exact h (by rw [e]; rfl)
  · rfl

/-- C30. The release-version extractor: `releaseVersion fields` is empty when no token
begins with `rv:` and is longer than 3; otherwise it is everything after `rv:` in the first
such token, verbatim, with no truncation: `rv:11.0.1` gives `11.0.1`. -/
theorem releaseVersion_extractor (fields : List Str) :
    (releaseVersion fields =
      match fields.find? (fun f => strings.HasPrefix f "rv:".toList && decide (len f > 3)) with
      | none => []
      | some f => f.drop 3) ∧
    (∀ f, strings.HasPrefix f "rv:".toList = true → (len f > 3 ↔ f.length > 3)) ∧
    releaseVersion ["rv:11.0.1".toList] = "11.0.1".toList := by
  refine ⟨?_, ?_, by decide⟩
  · induction fields with
    | nil => rfl
    | cons f fs ih =>
      simp only [releaseVersion, List.find?]
      by_cases h : strings.HasPrefix f "rv:".toList = true ∧ len f > 3
      · rw [if_pos h]
        obtain ⟨t, rfl⟩ := (HasPrefix_iff f _).1 h.1
        have hd : (strings.HasPrefix ("rv:".toList ++ t) "rv:".toList &&
            decide (len ("rv:".toList ++ t) > 3)) = true := by
          rw [h.1, decide_eq_true h.2]; rfl
        rw [hd]
        dsimp only
        rw [(release_token t).2.1]
        rfl
      · rw [if_neg h]
        have hd : (strings.HasPrefix f "rv:".toList && decide (len f > 3)) = false := by
          cases hp : strings.HasPrefix f "rv:".toList with
          | false => rfl
          | true =>
            have : ¬ len f > 3 := fun hl => h ⟨hp, hl⟩
            rw [decide_eq_false this]; rfl
        rw [hd]
        exact ih
  · intro f hf
    obtain ⟨t, rfl⟩ := (HasPrefix_iff f _).1 hf
    rw [(release_token t).1, List.length_append]
    have : "rv:".toList.length = 3 := by decide
    rw [this]
    cases t with
    | nil => simp
    | cons c cs => simp

/-! ### The name-adjacent extractor (C26) -/

theorem Cut_eq (f : Str) (sep : Char) :
    strings.Cut f sep =
      (f.takeWhile (fun c => decide (c ≠ sep)),
       (f.dropWhile (fun c => decide (c ≠ sep))).drop 1, decide (sep ∈ f)) := by
  induction f with
  | nil => simp [strings.Cut]
  | cons c cs ih =>
    simp only [strings.Cut]
    by_cases h : c = sep
    · subst h
      simp
    · rw [if_neg h, ih]
      have h2 : ¬ sep = c := fun e => h e.symm
      by_cases hm : sep ∈ cs
      · simp [h, h2, hm]
      · have ht : cs.takeWhile (fun c => decide (c ≠ sep)) = cs := by
          rw [List.takeWhile_eq_self_iff]
          intro x hx
          exact decide_eq_true (fun e => hm (e ▸ hx))
        have hd : cs.dropWhile (fun c => decide (c ≠ sep)) = [] := by
          rw [List.dropWhile_eq_nil_iff]
          intro x hx
          exact decide_eq_true (fun e => hm (e ▸ hx))
        simp only [ne_eq, decide_not] at ht hd
        simp [h, h2, hm, ht, hd]

/-- C26, the claim as worded fails: the first token that contains the name has no `/`, yet
`clientVersion` is not empty, because the scan goes on to the next token that contains
the name; the header `Chrome Chrome/1.2` reaches this through `Parse`. -/
theorem clientVersion_first_token_counterexample :
    ["Chrome".toList, "Chrome/1.2".toList].find?
      (fun f => strings.Contains f "Chrome".toList) = some "Chrome".toList ∧
    '/' ∉ "Chrome".toList ∧
    clientVersion ["Chrome".toList, "Chrome/1.2".toList] "Chrome".toList = "1.2".toList ∧
    (Parse "Chrome Chrome/1.2".toList).Fields = ["Chrome".toList, "Chrome/1.2".toList] ∧
    (Parse "Chrome Chrome/1.2".toList).ClientVersion = "1.2".toList := by
  decide

/-- C26, amended. The name-adjacent extractor: `clientVersion fields name` is determined by
the first token that contains `name` and a `/`: it is empty when there is no such token,
and otherwise it is the text after the first `/` of that token, cut down to its first two
dot-separated segments joined by `.` (returned as it is when it has a single segment). -/
theorem clientVersion_extractor (fields : List Str) (name : Str) :
    clientVersion fields name =
      match fields.find? (fun f => strings.Contains f name && decide ('/' ∈ f)) with
      | none => []
      | some f => firstTwoSegments ((f.dropWhile (fun c => decide (c ≠ '/'))).drop 1) := by
  induction fields with
  | nil => rfl
  | cons f fs ih =>
    simp only [clientVersion, List.find?, Cut_eq]
    cases hc : strings.Contains f name with
    | false =>
      simp only [Bool.false_eq_true, if_false, Bool.false_and]
      exact ih
    | true =>
      by_cases hm : '/' ∈ f
      · simp only [if_true, decide_eq_true hm, Bool.and_self, cutSegments_Split]
      · simp only [if_true, decide_eq_false hm, Bool.false_eq_true, if_false, Bool.and_false]
        exact ih

/-! ### Well-formed tokens of `parseFields` (C21) -/

theorem mem_ReplaceAll_single (s : Str) (c : Char) (new : Str) (x : Char)
    (h : x ∈ strings.ReplaceAll s [c] new) : (x ∈ s ∧ x ≠ c) ∨ x ∈ new := by
  unfold strings.ReplaceAll at h
  induction s with
  | nil => simp [strings.replaceAllAux] at h
  | cons d ds ih =>
    simp only [strings.replaceAllAux, List.length_singleton, Nat.sub_self] at h
    by_cases hp : List.isPrefixOf [c] (d :: ds) = true
    · rw [if_pos hp] at h
      rcases List.mem_append.1 h with h1 | h1
      · exact Or.inr h1
      · rcases ih h1 with h2 | h2
        · exact Or.inl ⟨List.mem_cons_of_mem _ h2.1, h2.2⟩
        · exact Or.inr h2
    · rw [if_neg hp] at h
      rcases List.mem_cons.1 h with h1 | h1
      · left
        refine ⟨h1 ▸ List.mem_cons_self _ _, ?_⟩
        intro e
        apply hp
        rw [← e, h1]
        simp [List.isPrefixOf]
      · rcases ih h1 with h2 | h2
        · exact Or.inl ⟨List.mem_cons_of_mem _ h2.1, h2.2⟩
        · exact Or.inr h2

theorem mem_removeNoise (ua : Str) (x : Char) (h : x ∈ removeNoise ua) :
    x = ' ' ∨ (x ≠ '(' ∧ x ≠ ')' ∧ x ≠ '[' ∧ x ≠ ']' ∧ x ≠ ';') := by
  unfold removeNoise at h
  dsimp only at h
  rcases mem_ReplaceAll_single _ ';' _ x h with ⟨h5, n5⟩ | h5
  · rcases mem_ReplaceAll_single _ ']' _ x h5 with ⟨h4, n4⟩ | h4
    · rcases mem_ReplaceAll_single _ '[' _ x h4 with ⟨h3, n3⟩ | h3
      · rcases mem_ReplaceAll_single _ ')' _ x h3 with ⟨h2, n2⟩ | h2
        · rcases mem_ReplaceAll_single _ '(' _ x h2 with ⟨_, n1⟩ | h1
          · exact Or.inr ⟨n1, n2, n3, n4, n5⟩
          · exact Or.inl (List.mem_singleton.1 h1)
        · exact Or.inl (List.mem_singleton.1 h2)
      · exact absurd h3 (List.not_mem_nil _)
    · exact absurd h4 (List.not_mem_nil _)
  · exact Or.inl (List.mem_singleton.1 h5)

theorem Fields_tokens (s : Str) :
    ∀ f ∈ strings.Fields s, f ≠ [] ∧ ∀ x ∈ f, strings.isSpace x = false ∧ x ∈ s := by
  induction s with
  | nil => intro f hf; simp [strings.Fields] at hf
  | cons c cs ih =>
    have up : ∀ f ∈ strings.Fields cs,
        f ≠ [] ∧ ∀ x ∈ f, strings.isSpace x = false ∧ x ∈ c :: cs :=
      fun f hf => ⟨(ih f hf).1, fun x hx =>
        ⟨((ih f hf).2 x hx).1, List.mem_cons_of_mem _ ((ih f hf).2 x hx).2⟩⟩
    intro f hf
    simp only [strings.Fields] at hf
    cases hsp : strings.isSpace c with
    | true =>
      rw [hsp, if_pos rfl] at hf
      exact up f hf
    | false =>
      rw [hsp, if_neg (by decide)] at hf
      have hc : ∀ x ∈ [c], strings.isSpace x = false ∧ x ∈ c :: cs := by
        intro x hx
        rw [List.mem_singleton.1 hx]
        exact ⟨hsp, List.mem_cons_self _ _⟩
      by_cases he : strings.fieldEnds cs = true
      · rw [if_pos he] at hf
        rcases List.mem_cons.1 hf with h1 | h1
        · rw [h1]
          exact ⟨List.cons_ne_nil _ _, hc⟩
        · exact up f h1
      · rw [if_neg he] at hf
        cases hF : strings.Fields cs with
        | nil =>
          rw [hF] at hf
          rw [List.mem_singleton.1 hf]
          exact ⟨List.cons_ne_nil _ _, hc⟩
        | cons g gs =>
          rw [hF] at hf up
          rcases List.mem_cons.1 hf with h1 | h1
          · rw [h1]
            refine ⟨List.cons_ne_nil _ _, fun x hx => ?_⟩
            rcases List.mem_cons.1 hx with h2 | h2
            · rw [h2]
              exact ⟨hsp, List.mem_cons_self _ _⟩
            · exact (up g (List.mem_cons_self _ _)).2 x h2
          · exact up f (List.mem_cons_of_mem _ h1)

theorem mem_keepFields (fs : List Str) (f : Str) (h : f ∈ keepFields fs) :
    f ∈ fs ∧ f ≠ ",".toList ∧ strings.HasPrefix f "AppleWebKit".toList = false := by
  induction fs with
  | nil => simp [keepFields] at h
  | cons g gs ih =>
    simp only [keepFields] at h
    by_cases hk : g ≠ ",".toList ∧ ¬ strings.HasPrefix g "AppleWebKit".toList = true
    · rw [if_pos hk] at h
      rcases List.mem_cons.1 h with h1 | h1
      · rw [h1]
        exact ⟨List.mem_cons_self _ _, hk.1, by simpa using hk.2⟩
      · exact ⟨List.mem_cons_of_mem _ (ih h1).1, (ih h1).2⟩
    · rw [if_neg hk] at h
      exact ⟨List.mem_cons_of_mem _ (ih h).1, (ih h).2⟩

/-- C21. Token well-formedness: every token returned by `parseFields h` is non-empty, is
not the literal `,`, does not begin with `AppleWebKit`, and contains no whitespace
character and none of the characters `(`, `)`, `[`, `]`, `;`. -/
theorem parseFields_tokens_wellformed (h : Str) (f : Str) (hf : f ∈ parseFields h) :
    f ≠ [] ∧ f ≠ ",".toList ∧ strings.HasPrefix f "AppleWebKit".toList = false ∧
    ∀ x ∈ f, strings.isSpace x = false ∧
      x ≠ '(' ∧ x ≠ ')' ∧ x ≠ '[' ∧ x ≠ ']' ∧ x ≠ ';' := by
  unfold parseFields at hf
  obtain ⟨h1, h2, h3⟩ := mem_keepFields _ f hf
  obtain ⟨h4, h5⟩ := Fields_tokens _ f h1
  refine ⟨h4, h2, h3, fun x hx => ?_⟩
  obtain ⟨h6, h7⟩ := h5 x hx
  refine ⟨h6, ?_⟩
  rcases mem_removeNoise h x h7 with h8 | h8
  · rw [h8] at h6
    exact absurd h6 (by decide)
  · exact h8

/-- Witness of `parseFields_tokens_wellformed`: the token `Googlebot/2.1` of the Googlebot
header. -/
theorem parseFields_tokens_wellformed_witness :
    "Googlebot/2.1".toList ∈
      parseFields "Mozilla/5.0 (compatible; Googlebot/2.1; +http://www.google.com/bot.html)".toList ∧
    "Googlebot/2.1".toList ≠ [] ∧ "Googlebot/2.1".toList ≠ ",".toList ∧
    strings.HasPrefix "Googlebot/2.1".toList "AppleWebKit".toList = false ∧
    ∀ x ∈ "Googlebot/2.1".toList, strings.isSpace x = false ∧
      x ≠ '(' ∧ x ≠ ')' ∧ x ≠ '[' ∧ x ≠ ']' ∧ x ≠ ';' :=
  ⟨by decide, parseFields_tokens_wellformed
    "Mozilla/5.0 (compatible; Googlebot/2.1; +http://www.google.com/bot.html)".toList
    "Googlebot/2.1".toList (by decide)⟩

/-! ### The bounds-checked helpers agree with the helpers -/

theorem Index_bounds (s sub : Str) :
    -1 ≤ strings.Index s sub ∧ strings.Index s sub ≤ (s.length : Int) := by
  induction s with
  | nil =>
    simp only [strings.Index]
    split_ifs <;> simp
  | cons c cs ih =>
    simp only [strings.Index, List.length_cons]
    split_ifs <;> constructor <;> push_cast <;> omega

theorem sliceFrom_of_bounds (s : Str) (i : Int) (h0 : 0 ≤ i) (h1 : i ≤ (s.length : Int)) :
    sliceFrom s i = some (s.drop i.toNat) := by
  unfold sliceFrom
  rw [if_pos ⟨h0, h1⟩]

theorem segments_checked (segments : List Str) (rc : Option Str) (r : Str)
    (h : rc = some r) :
    (if segments.length = 1 then indexAt segments 0
     else if segments.length ≥ 2 then
       (sliceTo segments 2).map fun t => strings.Join t ".".toList
     else rc) =
    some (match cutSegments segments with
      | some v => v
      | none => r) := by
  match segments with
  | [] => simp [cutSegments, h]
  | [a] => simp [cutSegments, indexAt]
  | a :: b :: rest => simp [cutSegments, sliceTo]

theorem unquoteChecked_eq (s : Str) : unquoteChecked s = some (unquote s) := by
  induction s with
  | nil => rfl
  | cons r rs ih =>
    simp only [unquoteChecked, unquote, ih, Option.map_some']
    rfl

theorem botURLChecked_eq (fields : List Str) : botURLChecked fields = some (botURL fields) := by
  induction fields with
  | nil => rfl
  | cons f fs ih =>
    simp only [botURLChecked, botURL]
    split_ifs with h1 h2
    · exact sliceFrom_of_bounds f 0 (le_refl 0) (by omega)
    · have := Index_bounds f "http".toList
      exact sliceFrom_of_bounds f _ (by omega) this.2
    · exact ih

theorem versionChecked_eq (fields : List Str) :
    versionChecked fields = some (version fields) := by
  induction fields with
  | nil => rfl
  | cons f fs ih =>
    simp only [versionChecked, version]
    by_cases h : strings.HasPrefix f "Version/".toList = true ∧ len f > 8
    · rw [if_pos h, if_pos h]
      obtain ⟨t, rfl⟩ := (HasPrefix_iff f _).1 h.1
      rw [(version_token t).2.1, sliceFrom_of_bounds _ 8 (by decide)
        (by rw [List.length_append, show "Version/".toList.length = 8 by decide]
            push_cast; omega)]
      exact segments_checked _ _ _ ih
    · rw [if_neg h, if_neg h]
      exact ih

theorem releaseVersionChecked_eq (fields : List Str) :
    releaseVersionChecked fields = some (releaseVersion fields) := by
  induction fields with
  | nil => rfl
  | cons f fs ih =>
    simp only [releaseVersionChecked, releaseVersion]
    by_cases h : strings.HasPrefix f "rv:".toList = true ∧ len f > 3
    · rw [if_pos h, if_pos h]
      obtain ⟨t, rfl⟩ := (HasPrefix_iff f _).1 h.1
      rw [(release_token t).2.1]
      exact sliceFrom_of_bounds _ 3 (by decide)
        (by rw [List.length_append, show "rv:".toList.length = 3 by decide]
            push_cast; omega)
    · rw [if_neg h, if_neg h]
      exact ih

theorem clientVersionChecked_eq (fields : List Str) (name : Str) :
    clientVersionChecked fields name = some (clientVersion fields name) := by
  induction fields with
  | nil => rfl
  | cons f fs ih =>
    simp only [clientVersionChecked, clientVersion]
    by_cases h1 : strings.Contains f name = true
    · rw [if_pos h1, if_pos h1]
      by_cases h2 : (strings.Cut f '/').2.2 = true
      · rw [if_pos h2, if_pos h2]
        exact segments_checked _ _ _ ih
      · rw [if_neg h2, if_neg h2]
        exact ih
    · rw [if_neg h1, if_neg h1]
      exact ih

theorem majorMinorVersionChecked_eq (ver : Str) :
    majorMinorVersionChecked ver = some (majorMinorVersion ver) := by
  unfold majorMinorVersionChecked majorMinorVersion
  by_cases h : ¬ isDigits ver = true
  · rw [if_pos h, if_pos h]
  · rw [if_neg h, if_neg h]
    dsimp only
    generalize (if strings.Contains ver "_".toList = true then strings.Split ver '_'
      else strings.Split ver '.') = segments
    match segments with
    | [] => simp
    | [a] => simp [indexAt]
    | a :: b :: rest => simp [sliceTo]

theorem getD_after (pre : List Str) (f g : Str) (gs : List Str) :
    (pre ++ f :: g :: gs).getD (pre.length + 1) [] = g := by
  induction pre with
  | nil => rfl
  | cons p ps ih => simpa using ih

theorem osVersionLoopChecked_eq (fields : List Str) (key : Str) :
    ∀ (rest pre : List Str), fields = pre ++ rest →
      osVersionLoopChecked fields key pre.length rest = some (osVersionLoop rest key) := by
  intro rest
  induction rest with
  | nil => intro pre _; rfl
  | cons f fs ih =>
    intro pre hp
    simp only [osVersionLoopChecked, osVersionLoop]
    have hlen : fields.length = pre.length + 1 + fs.length := by
      rw [hp]; simp; omega
    by_cases hf : f = key
    · cases fs with
      | nil =>
        rw [if_neg (by simp at hlen; omega), if_neg (by simp)]
        exact ih (pre ++ [f]) (by rw [hp]; simp) ▸ (by simp)
      | cons g gs =>
        rw [if_pos ⟨hf, by simp at hlen; omega⟩, if_pos ⟨hf, by simp⟩]
        have hi : indexAt fields (pre.length + 1) = some g := by
          unfold indexAt
          rw [if_pos (by simp at hlen; omega), hp, getD_after]
        rw [hi]
        exact majorMinorVersionChecked_eq g
    · rw [if_neg (fun hh => hf hh.1), if_neg (fun hh => hf hh.1)]
      have := ih (pre ++ [f]) (by rw [hp]; simp)
      simpa using this

theorem osVersionChecked_eq (fields : List Str) (osName : Str) :
    osVersionChecked fields osName = some (osVersion fields osName) := by
  unfold osVersionChecked osVersion
  by_cases h : osName = []
  · rw [if_pos h, if_pos h]
  · rw [if_neg h, if_neg h]
    exact osVersionLoopChecked_eq fields _ fields [] rfl

/-! ### No panics (C22) -/

theorem applyPatternChecked_eq (c : Str) (ua : UserAgent) (p : Match) :
    applyPatternChecked c ua p = some (applyPattern c ua p) := by
  unfold applyPatternChecked applyPattern
  simp only [clientVersionChecked_eq, Option.map_some']
  split_ifs <;> rfl

theorem matchPatternsChecked_eq (c : Str) (ps : List Match) (ua : UserAgent) :
    matchPatternsChecked c ps ua = some (matchPatterns c ps ua) := by
  induction ps generalizing ua with
  | nil => rfl
  | cons p ps ih =>
    simp only [matchPatternsChecked, matchPatterns, applyPatternChecked_eq, Option.some_bind]
    split_ifs
    · rfl
    · exact ih _

theorem initialChecked_eq (s : Str) : initialChecked s = some (initial s) := by
  unfold initialChecked initial
  rw [unquoteChecked_eq, Option.some_bind]
  dsimp only
  by_cases h : strings.Contains (unquote s) "://".toList = true
  · rw [if_pos h, if_pos h, botURLChecked_eq]
    rfl
  · rw [if_neg h, if_neg h]

theorem ite_some_some {α : Type} (c : Prop) [Decidable c] (a b : α) :
    (if c then some a else some b) = some (if c then a else b) := by
  split_ifs <;> rfl

theorem postProcessChecked_eq (ua : UserAgent) :
    postProcessChecked ua = some (postProcess ua) := by
  unfold postProcessChecked postProcess
  simp only [osVersionChecked_eq, versionChecked_eq, releaseVersionChecked_eq,
    Option.map_some', ite_some_some, Option.some_bind]

theorem ParseChecked_eq (s : Str) : ParseChecked s = some (Parse s) := by
  unfold ParseChecked
  rw [initialChecked_eq, Option.some_bind, matchPatternsChecked_eq, Option.some_bind,
    postProcessChecked_eq, (initial_fields s).2.1]
  rfl

/-- C22. No panics: with every slice and index expression of the source bounds-checked
(`quotes[0]` and `quotes[1]` in `unquote`, `f[i:]` in `botURL`, `version` and
`releaseVersion`, `segments[0]` and `segments[:2]` in `version`, `clientVersion` and
`majorMinorVersion`, `fields[i+1]` in `osVersion`), `Parse` and each helper return a value
on every input, and it is the value of the unchecked function: no access is ever out of
range. -/
theorem parse_never_panics (s : Str) (fields : List Str) (name : Str) :
    ParseChecked s = some (Parse s) ∧
    unquoteChecked s = some (unquote s) ∧
    botURLChecked fields = some (botURL fields) ∧
    versionChecked fields = some (version fields) ∧
    releaseVersionChecked fields = some (releaseVersion fields) ∧
    clientVersionChecked fields name = some (clientVersion fields name) ∧
    osVersionChecked fields name = some (osVersion fields name) ∧
    majorMinorVersionChecked name = some (majorMinorVersion name) :=
  ⟨ParseChecked_eq s, unquoteChecked_eq s, botURLChecked_eq fields, versionChecked_eq fields,
    releaseVersionChecked_eq fields, clientVersionChecked_eq fields name,
    osVersionChecked_eq fields name, majorMinorVersionChecked_eq name⟩

/-! ### Truncation, the early exit, ClientType `Other`, a URL marker without URL (C31, C34 to C36) -/

/-- C31. Two-segment truncation: the results of `clientVersion fields name` and of
`version fields` each contain at most one `.` character. -/
theorem two_segment_truncation (fields : List Str) (name : Str) :
    (clientVersion fields name).count '.' ≤ 1 ∧ (version fields).count '.' ≤ 1 :=
  ⟨clientVersion_dots fields name, version_dots fields⟩

theorem matchPatternsNoBreak_eq_foldl (c : Str) (ps : List Match) (ua : UserAgent) :
    matchPatternsNoBreak c ps ua = ps.foldl (applyPattern c) ua := by
  induction ps generalizing ua with
  | nil => rfl
  | cons p ps ih => exact ih _

/-- C34. The early exit is only an optimisation: `Parse s` equals the result of the same
procedure with the `break` test removed, so that every rule of the table is visited; the
same holds for the loop alone, from any state and over any list of rules. -/
theorem early_exit_is_optimisation (s : Str) :
    Parse s = ParseNoBreak s ∧
    ∀ (c : Str) (ps : List Match) (ua : UserAgent),
      matchPatterns c ps ua = matchPatternsNoBreak c ps ua := by
  have h : ∀ (c : Str) (ps : List Match) (ua : UserAgent),
      matchPatterns c ps ua = matchPatternsNoBreak c ps ua := fun c ps ua =>
    (matchPatterns_eq_foldl c ps ua).trans (matchPatternsNoBreak_eq_foldl c ps ua).symm
  refine ⟨?_, h⟩
  unfold Parse ParseNoBreak matched
  rw [h]

/-- C36. A header can contain `://` and still get no URL: the only token of
`AppleWebKit://x` begins with `AppleWebKit` and is dropped, so the header contains `://`,
`Parse` returns ClientType `Bot`, no tokens and an empty URL. -/
theorem url_marker_without_url :
    strings.Contains (unquote "AppleWebKit://x".toList) "://".toList = true ∧
    (Parse "AppleWebKit://x".toList).Fields = [] ∧
    (Parse "AppleWebKit://x".toList).ClientType = "Bot".toList ∧
    (Parse "AppleWebKit://x".toList).URL = [] := by
  decide

theorem clientName_rules_name_type :
    ∀ p ∈ patterns, p.clientName ≠ [] → p.clientType ≠ [] ∧ p.clientType ≠ "Other".toList ∧
      p.clientName ≠ "Other".toList := by
  decide

theorem clientType_rules_not_other :
    ∀ p ∈ patterns, p.clientType ≠ [] → p.clientType ≠ "Other".toList := by
  decide

theorem clientType_other_core (u : Prop) [Decidable u] (ft fn os : Str)
    (hT : ft ≠ [] → ft ≠ "Other".toList) (hN : fn ≠ [] → fn ≠ "Other".toList)
    (hTN : ft = [] ↔ fn = []) :
    (if u then "Bot".toList
     else if ft = [] then
       (if fn = [] ∧ (os = "iOS".toList ∨ os = "iPadOS".toList ∨ os = "macOS".toList ∨
          os = "Android".toList) then "Browser".toList else "Other".toList)
     else ft) = "Other".toList ↔
    ((if fn = [] then
        (if os = "iOS".toList ∨ os = "iPadOS".toList ∨ os = "macOS".toList then
           "Safari".toList
         else if os = "Android".toList then "Chrome".toList
         else "Other".toList)
      else fn) = "Other".toList ∧ ¬ u) := by
  have dB : "Bot".toList ≠ "Other".toList := by decide
  have dBr : "Browser".toList ≠ "Other".toList := by decide
  have dS : "Safari".toList ≠ "Other".toList := by decide
  have dC : "Chrome".toList ≠ "Other".toList := by decide
  by_cases hu : u
  · rw [if_pos hu]
    exact ⟨fun h => absurd h dB, fun h => absurd hu h.2⟩
  · rw [if_neg hu]
    by_cases ht : ft = []
    · have hn := hTN.1 ht
      rw [if_pos ht, if_pos hn]
      by_cases h1 : os = "iOS".toList ∨ os = "iPadOS".toList ∨ os = "macOS".toList
      · rw [if_pos h1, if_pos ⟨hn, h1.elim Or.inl (fun h => Or.inr (h.elim Or.inl
          (fun h => Or.inr (Or.inl h))))⟩]
        exact ⟨fun h => absurd h dBr, fun h => absurd h.1 dS⟩
      · rw [if_neg h1]
        by_cases h2 : os = "Android".toList
        · rw [if_pos h2, if_pos ⟨hn, Or.inr (Or.inr (Or.inr h2))⟩]
          exact ⟨fun h => absurd h dBr, fun h => absurd h.1 dC⟩
        · rw [if_neg h2, if_neg (fun h => h.2.elim (fun a => h1 (Or.inl a))
            (fun h => h.elim (fun b => h1 (Or.inr (Or.inl b)))
              (fun h => h.elim (fun c => h1 (Or.inr (Or.inr c))) h2)))]
          exact ⟨fun _ => ⟨rfl, hu⟩, fun _ => rfl⟩
    · have hn : fn ≠ [] := fun e => ht (hTN.2 e)
      rw [if_neg ht, if_neg hn]
      exact ⟨fun h => absurd h (hT ht), fun h => absurd h.1 (hN hn)⟩

theorem clientType_other_iff (s : Str) :
    (Parse s).ClientType = "Other".toList ↔
      ((Parse s).ClientName = "Other".toList ∧
        ¬ strings.Contains (unquote s) "://".toList = true) := by
  have hT : firstMatch (cleaned s) Match.clientType patterns ≠ [] →
      firstMatch (cleaned s) Match.clientType patterns ≠ "Other".toList := fun h =>
    firstMatch_value (cleaned s) Match.clientType patterns (fun v => v ≠ "Other".toList)
      clientType_rules_not_other h
  have hN : firstMatch (cleaned s) Match.clientName patterns ≠ [] →
      firstMatch (cleaned s) Match.clientName patterns ≠ "Other".toList := fun h =>
    firstMatch_value (cleaned s) Match.clientName patterns (fun v => v ≠ "Other".toList)
      (fun p hp hs => (clientName_rules_name_type p hp hs).2.2) h
  have hTN : firstMatch (cleaned s) Match.clientType patterns = [] ↔
      firstMatch (cleaned s) Match.clientName patterns = [] := by
    rw [firstMatch_eq_nil_iff, firstMatch_eq_nil_iff]
    exact ⟨fun h p hp hs => h p hp (clientName_rules_name_type p hp hs).1,
      fun h p hp hs => h p hp (clientType_rules_name_client p hp hs)⟩
  rw [Parse_ClientType, Parse_ClientName]
  exact clientType_other_core _ _ _ _ hT hN hTN

/-- C35. ClientType is `Other` exactly when ClientName is `Other` and the unquoted header
has no `://`; a result with ClientType `Other` never has OSName `iOS`, `iPadOS`, `macOS`
or `Android`, and a result with ClientName `Other` has ClientType `Other` or `Bot`. -/
theorem clientType_other_characterisation (s : Str) :
    ((Parse s).ClientType = "Other".toList ↔
      ((Parse s).ClientName = "Other".toList ∧
        strings.Contains (unquote s) "://".toList = false)) ∧
    ((Parse s).ClientType = "Other".toList →
      (Parse s).OSName ≠ "iOS".toList ∧ (Parse s).OSName ≠ "iPadOS".toList ∧
      (Parse s).OSName ≠ "macOS".toList ∧ (Parse s).OSName ≠ "Android".toList) ∧
    ((Parse s).ClientName = "Other".toList →
      (Parse s).ClientType = "Other".toList ∨ (Parse s).ClientType = "Bot".toList) := by
  have hiff := clientType_other_iff s
  have hfalse : strings.Contains (unquote s) "://".toList = false ↔
      ¬ strings.Contains (unquote s) "://".toList = true := by
    cases strings.Contains (unquote s) "://".toList <;> simp
  refine ⟨?_, ?_, ?_⟩
  · rw [hfalse]; exact hiff
  · intro h
    have hname := (hiff.1 h).1
    have hN : ∀ p ∈ patterns, p.clientName ≠ [] → p.clientName ≠ "Other".toList :=
      fun p hp hs => (clientName_rules_name_type p hp hs).2.2
    have hfn : firstMatch (cleaned s) Match.clientName patterns = [] := by
      by_contra hne
      rw [Parse_ClientName, if_neg hne] at hname
      exact firstMatch_value (cleaned s) Match.clientName patterns
        (fun v => v ≠ "Other".toList) hN hne hname
    rw [Parse_ClientName, if_pos hfn] at hname
    generalize (Parse s).OSName = os at hname ⊢
    have dS : "Safari".toList ≠ "Other".toList := by decide
    have dC : "Chrome".toList ≠ "Other".toList := by decide
    by_cases h1 : os = "iOS".toList ∨ os = "iPadOS".toList ∨ os = "macOS".toList
    · rw [if_pos h1] at hname
      exact absurd hname dS
    · rw [if_neg h1] at hname
      by_cases h2 : os = "Android".toList
      · rw [if_pos h2] at hname
        exact absurd hname dC
      · exact ⟨fun a => h1 (Or.inl a), fun b => h1 (Or.inr (Or.inl b)),
          fun c => h1 (Or.inr (Or.inr c)), h2⟩
  · intro h
    by_cases hu : strings.Contains (unquote s) "://".toList = true
    · right
      rw [Parse_ClientType, if_pos hu]
    · left
      exact hiff.2 ⟨h, hu⟩

/-! ### Replacement passes and punctuation-only input (C33) -/

theorem removeNoise_eq_cleanWith (s : Str) : removeNoise s = cleanWith replacements s := by
  unfold removeNoise cleanWith replacements
  simp only [List.foldl_cons, List.foldl_nil]

theorem Contains_iff_sublist_run (s sub : Str) : strings.Contains s sub = true ↔ sub <:+: s := by
  induction s with
  | nil =>
    simp only [strings.Contains, List.isPrefixOf_iff_prefix, List.prefix_nil, List.infix_nil]
  | cons c cs ih =>
    simp only [strings.Contains, Bool.or_eq_true, List.isPrefixOf_iff_prefix, ih,
      List.infix_cons_iff]

theorem Contains_mem (s w : Str) (h : strings.Contains s w = true) : ∀ x ∈ w, x ∈ s :=
  fun _ hx => ((Contains_iff_sublist_run s w).1 h).subset hx

theorem ReplaceAll_of_not_contains (s old new : Str) (h : strings.Contains s old = false) :
    strings.ReplaceAll s old new = s := by
  unfold strings.ReplaceAll
  induction s with
  | nil => rfl
  | cons c cs ih =>
    simp only [strings.Contains, Bool.or_eq_false_iff] at h
    simp only [strings.replaceAllAux, h.1, Bool.false_eq_true, if_false, ih h.2]

theorem mem_punct_passes (s : Str) (x : Char)
    (h : x ∈ strings.ReplaceAll (strings.ReplaceAll (strings.ReplaceAll (strings.ReplaceAll
      (strings.ReplaceAll s "(".toList " ".toList) ")".toList " ".toList) "[".toList [])
      "]".toList []) ";".toList " ".toList) :
    x = ' ' ∨ (x ∈ s ∧ x ≠ '(' ∧ x ≠ ')' ∧ x ≠ '[' ∧ x ≠ ']' ∧ x ≠ ';') := by
  rcases mem_ReplaceAll_single _ ';' _ x h with ⟨h5, n5⟩ | h5
  · rcases mem_ReplaceAll_single _ ']' _ x h5 with ⟨h4, n4⟩ | h4
    · rcases mem_ReplaceAll_single _ '[' _ x h4 with ⟨h3, n3⟩ | h3
      · rcases mem_ReplaceAll_single _ ')' _ x h3 with ⟨h2, n2⟩ | h2
        · rcases mem_ReplaceAll_single _ '(' _ x h2 with ⟨h1, n1⟩ | h1
          · exact Or.inr ⟨h1, n1, n2, n3, n4, n5⟩
          · exact Or.inl (List.mem_singleton.1 h1)
        · exact Or.inl (List.mem_singleton.1 h2)
      · exact absurd h3 (List.not_mem_nil _)
    · exact absurd h4 (List.not_mem_nil _)
  · exact Or.inl (List.mem_singleton.1 h5)

theorem Fields_of_spaces (s : Str) (h : ∀ x ∈ s, strings.isSpace x = true) :
    strings.Fields s = [] := by
  rw [List.eq_nil_iff_forall_not_mem]
  intro f hf
  obtain ⟨hne, hx⟩ := Fields_tokens s f hf
  cases f with
  | nil => exact hne rfl
  | cons c cs =>
    obtain ⟨h1, h2⟩ := hx c (List.mem_cons_self _ _)
    rw [h c h2] at h1
    exact Bool.noConfusion h1

theorem punctuationOnly_no_word (h : Str) (hp : punctuationOnly h = true) (w : Str) (x : Char)
    (hx : x ∈ w) (hs : strings.isSpace x = false) (hn : x ∉ "()[];".toList) :
    strings.Contains h w = false := by
  cases hc : strings.Contains h w with
  | false => rfl
  | true =>
    have hm := Contains_mem h w hc x hx
    unfold punctuationOnly at hp
    rw [List.all_eq_true] at hp
    have := hp x hm
    rw [hs, Bool.false_or, decide_eq_true_eq] at this
    exact absurd this hn

theorem parseFields_of_punctuationOnly (h : Str) (hp : punctuationOnly h = true) :
    parseFields h = [] := by
  have nw := punctuationOnly_no_word h hp
  unfold parseFields removeNoise
  dsimp only
  rw [ReplaceAll_of_not_contains h _ _
        (nw "Mozilla/5.0".toList 'M' (by decide) (by decide) (by decide)),
    ReplaceAll_of_not_contains h _ _
        (nw "Safari/537.36".toList 'S' (by decide) (by decide) (by decide)),
    ReplaceAll_of_not_contains h _ _
        (nw "KHTML".toList 'K' (by decide) (by decide) (by decide)),
    ReplaceAll_of_not_contains h _ _
        (nw "like Gecko".toList 'l' (by decide) (by decide) (by decide)),
    ReplaceAll_of_not_contains h _ _
        (nw "compatible".toList 'c' (by decide) (by decide) (by decide)),
    ReplaceAll_of_not_contains h _ _
        (nw " like Mac OS X".toList 'l' (by decide) (by decide) (by decide)),
    ReplaceAll_of_not_contains h _ _
        (nw "CPU ".toList 'C' (by decide) (by decide) (by decide)),
    ReplaceAll_of_not_contains h _ _
        (nw "Intel ".toList 'I' (by decide) (by decide) (by decide)),
    ReplaceAll_of_not_contains h _ _
        (nw "Mac OS X".toList 'M' (by decide) (by decide) (by decide)),
    ReplaceAll_of_not_contains h _ _
        (nw "Windows NT".toList 'W' (by decide) (by decide) (by decide)),
    ReplaceAll_of_not_contains h _ _
        (nw "WOW64".toList 'W' (by decide) (by decide) (by decide)),
    ReplaceAll_of_not_contains h _ _
        (nw "Win64".toList 'W' (by decide) (by decide) (by decide)),
    ReplaceAll_of_not_contains h _ _
        (nw "x86_64".toList 'x' (by decide) (by decide) (by decide)),
    ReplaceAll_of_not_contains h _ _
        (nw "x64".toList 'x' (by decide) (by decide) (by decide)),
    ReplaceAll_of_not_contains h _ _
        (nw "aarch64".toList 'a' (by decide) (by decide) (by decide))]
  rw [Fields_of_spaces]
  · rfl
  · intro x hx
    rcases mem_punct_passes h x hx with h1 | ⟨h1, n1, n2, n3, n4, n5⟩
    · rw [h1]; decide
    · unfold punctuationOnly at hp
      rw [List.all_eq_true] at hp
      have := hp x h1
      rw [Bool.or_eq_true, decide_eq_true_eq] at this
      rcases this with h2 | h2
      · exact h2
      · simp only [String.toList, List.mem_cons, List.mem_singleton] at h2
        simp only [List.not_mem_nil, or_false] at h2
        rcases h2 with e | e | e | e | e
        · exact absurd e n1
        · exact absurd e n2
        · exact absurd e n3
        · exact absurd e n4
        · exact absurd e n5

/-- C33. Punctuation-only input yields no tokens: for every string made up only of
whitespace and the characters `(`, `)`, `[`, `]`, `;` (the empty string included),
`parseFields` returns the empty sequence; so it does for the test inputs `""` and `"()"`,
and `parseFields "Mozilla/5.0 ("` is empty as well. -/
theorem punctuation_only_no_tokens (h : Str) (hp : punctuationOnly h = true) :
    parseFields h = [] ∧ parseFields [] = [] ∧ parseFields "()".toList = [] ∧
    parseFields "Mozilla/5.0 (".toList = [] :=
  ⟨parseFields_of_punctuationOnly h hp, by decide, by decide, by decide⟩

/-- Witness of `punctuation_only_no_tokens`: a string of brackets, semicolons, a tab and
spaces. -/
theorem punctuation_only_no_tokens_witness :
    punctuationOnly "( [;]\t) ;".toList = true ∧ parseFields "( [;]\t) ;".toList = [] :=
  ⟨by decide, (punctuation_only_no_tokens "( [;]\t) ;".toList (by decide)).1⟩

/-! ### Tokens are parts of the cleaned text; boilerplate that survives -/

theorem Fields_head_prefix (s : Str) (h : strings.fieldEnds s = false) :
    ∃ f fs, strings.Fields s = f :: fs ∧ f <+: s := by
  induction s with
  | nil => simp [strings.fieldEnds] at h
  | cons c cs ih =>
    simp only [strings.fieldEnds] at h
    simp only [strings.Fields, h, Bool.false_eq_true, if_false]
    cases he : strings.fieldEnds cs with
    | true =>
      rw [if_pos rfl]
      exact ⟨[c], _, rfl, by simp [List.prefix_iff_eq_append]⟩
    | false =>
      rw [if_neg (by decide)]
      obtain ⟨f, fs, hf, hpre⟩ := ih he
      rw [hf]
      exact ⟨c :: f, fs, rfl, by simpa using hpre⟩

theorem Fields_infix (s : Str) : ∀ f ∈ strings.Fields s, f <:+: s := by
  induction s with
  | nil => intro f hf; simp [strings.Fields] at hf
  | cons c cs ih =>
    have up : ∀ f ∈ strings.Fields cs, f <:+: c :: cs :=
      fun f hf => List.infix_cons (ih f hf)
    intro f hf
    simp only [strings.Fields] at hf
    cases hsp : strings.isSpace c with
    | true =>
      rw [hsp, if_pos rfl] at hf
      exact up f hf
    | false =>
      rw [hsp, if_neg (by decide)] at hf
      cases he : strings.fieldEnds cs with
      | true =>
        rw [he, if_pos rfl] at hf
        rcases List.mem_cons.1 hf with h1 | h1
        · rw [h1]
          exact List.IsPrefix.isInfix (by simp [List.prefix_iff_eq_append])
        · exact up f h1
      | false =>
        rw [he, if_neg (by decide)] at hf
        obtain ⟨g, gs, hg, hpre⟩ := Fields_head_prefix cs he
        rw [hg] at hf up
        rcases List.mem_cons.1 hf with h1 | h1
        · rw [h1]
          exact List.IsPrefix.isInfix (by simpa using hpre)
        · exact up f (List.mem_cons_of_mem _ h1)

theorem token_contains (h f w : Str) (hf : f ∈ parseFields h)
    (hc : strings.Contains f w = true) : strings.Contains (removeNoise h) w = true := by
  unfold parseFields at hf
  have h1 := (mem_keepFields _ f hf).1
  have h2 := Fields_infix _ f h1
  rw [Contains_iff_sublist_run] at hc ⊢
  exact List.IsInfix.trans hc h2

/-- C32, the claim as worded fails: each boilerplate substring is removed by one pass, in a
fixed order, and the text is not scanned again, so text that a removal brings together can
be boilerplate: removing `KHTML` leaves `Mozilla/5.0`, removing `[` leaves `aarch64`, and
removing the inner `aarch64` of `aarch6aarch644` leaves `aarch64`. -/
theorem boilerplate_removed_counterexample :
    parseFields "MozKHTMLilla/5.0".toList = ["Mozilla/5.0".toList] ∧
    parseFields "aar[ch64".toList = ["aarch64".toList] ∧
    parseFields "aarch6aarch644".toList = ["aarch64".toList] ∧
    "Mozilla/5.0".toList ∈ boilerplate ∧ "aarch64".toList ∈ boilerplate := by
  decide

/-! ### The rendering as a join, and `Split` of a join -/

theorem Join_cons_cons (a b : Str) (rest : List Str) (sep : Str) :
    strings.Join (a :: b :: rest) sep = a ++ sep ++ strings.Join (b :: rest) sep := by
  simp [strings.Join, List.intercalate, List.intersperse]

theorem Join_singleton (a : Str) (sep : Str) : strings.Join [a] sep = a := by
  simp [strings.Join, List.intercalate, List.intersperse]

theorem Join_snoc (xs : List Str) (hx : xs ≠ []) (f sep : Str) :
    strings.Join (xs ++ [f]) sep = strings.Join xs sep ++ sep ++ f := by
  induction xs with
  | nil => exact absurd rfl hx
  | cons a rest ih =>
    cases rest with
    | nil => rw [List.singleton_append, Join_cons_cons, Join_singleton, Join_singleton]
    | cons b rest =>
      rw [List.cons_append, List.cons_append, Join_cons_cons, ← List.cons_append,
        ih (List.cons_ne_nil _ _), Join_cons_cons]
      simp only [List.append_assoc]

theorem foldl_append_fields (fs : List Str) :
    ∀ xs : List Str, xs ≠ [] →
      fs.foldl (fun s f => if f ≠ [] then s ++ " ".toList ++ f else s)
        (strings.Join xs " ".toList) =
      strings.Join (xs ++ fs.filter (fun f => f ≠ [])) " ".toList := by
  induction fs with
  | nil => intro xs _; simp
  | cons f fs ih =>
    intro xs hx
    simp only [List.foldl_cons]
    by_cases hf : f ≠ []
    · rw [if_pos hf, ← Join_snoc xs hx, ih (xs ++ [f]) (by simp),
        List.filter_cons_of_pos (by simpa using hf)]
      simp
    · rw [if_neg hf, ih xs hx, List.filter_cons_of_neg (by simpa using hf)]

theorem String_eq_canonicalRendering (ua : UserAgent) (h : ua.ClientType ≠ []) :
    ua.String = canonicalRendering ua := by
  have h1 : ua.String =
      [ua.ClientName, ua.ClientVersion, ua.DeviceType, ua.OSName, ua.OSVersion, ua.URL].foldl
        (fun s f => if f ≠ [] then s ++ " ".toList ++ f else s)
        (strings.Join [ua.ClientType] " ".toList) := by
    rw [Join_singleton]
    rfl
  rw [h1, foldl_append_fields _ _ (List.cons_ne_nil _ _)]
  unfold canonicalRendering
  have h2 : List.filter (fun f => decide (f ≠ []))
      [ua.ClientType, ua.ClientName, ua.ClientVersion, ua.DeviceType, ua.OSName,
        ua.OSVersion, ua.URL] =
      ua.ClientType :: List.filter (fun f => decide (f ≠ []))
        [ua.ClientName, ua.ClientVersion, ua.DeviceType, ua.OSName, ua.OSVersion, ua.URL] :=
    List.filter_cons_of_pos (by simpa using h)
  rw [h2]
  rfl

theorem Split_append_sep (x rest : Str) (sep : Char) (h : sep ∉ x) :
    strings.Split (x ++ sep :: rest) sep = x :: strings.Split rest sep := by
  induction x with
  | nil => simp [strings.Split]
  | cons c cs ih =>
    have hc : c ≠ sep := fun e => h (e ▸ List.mem_cons_self _ _)
    have hcs : sep ∉ cs := fun e => h (List.mem_cons_of_mem _ e)
    have e : cs.append (sep :: rest) = cs ++ sep :: rest := rfl
    simp only [List.cons_append, strings.Split, if_neg hc]
    rw [e, ih hcs]

theorem Split_Join (xs : List Str) (sep : Char) (hx : xs ≠ []) (h : ∀ x ∈ xs, sep ∉ x) :
    strings.Split (strings.Join xs [sep]) sep = xs := by
  induction xs with
  | nil => exact absurd rfl hx
  | cons a rest ih =>
    cases rest with
    | nil =>
      rw [Join_singleton]
      exact Split_of_not_mem a sep (h a (List.mem_cons_self _ _))
    | cons b rest =>
      rw [Join_cons_cons, List.append_assoc, List.singleton_append,
        Split_append_sep _ _ _ (h a (List.mem_cons_self _ _)),
        ih (List.cons_ne_nil _ _) (fun x hx => h x (List.mem_cons_of_mem _ hx))]

theorem Split_tail_of_sep (a b : Str) (sep : Char)
    (hb : (strings.Split b sep).head? = some []) :
    [] ∈ (strings.Split (a ++ sep :: b) sep).tail := by
  induction a with
  | nil =>
    simp only [List.nil_append, strings.Split, if_true, List.tail_cons]
    exact List.mem_of_mem_head? hb
  | cons c cs ih =>
    simp only [List.cons_append, strings.Split]
    by_cases hc : c = sep
    · rw [if_pos hc, List.tail_cons]
      exact List.mem_of_mem_tail ih
    · rw [if_neg hc]
      cases hs : strings.Split (cs ++ sep :: b) sep with
      | nil => exact absurd hs (Split_ne_nil _ _)
      | cons seg more =>
        rw [hs] at ih
        exact ih

theorem Split_no_empty (s : Str) (sep : Char) (h : [] ∉ strings.Split s sep) :
    s.head? ≠ some sep ∧ s.getLast? ≠ some sep ∧ strings.Contains s [sep, sep] = false := by
  refine ⟨?_, ?_, ?_⟩
  · intro e
    cases s with
    | nil => simp at e
    | cons c cs =>
      simp only [List.head?_cons, Option.some.injEq] at e
      apply h
      simp [strings.Split, e]
  · intro e
    obtain ⟨t, rfl⟩ := List.getLast?_eq_some_iff.1 e
    exact h (List.mem_of_mem_tail (Split_tail_of_sep t [] sep rfl))
  · cases hc : strings.Contains s [sep, sep] with
    | false => rfl
    | true =>
      obtain ⟨a, b, hab⟩ := (Contains_iff_sublist_run s _).1 hc
      exfalso
      apply h
      have : s = a ++ sep :: (sep :: b) := by rw [← hab]; simp
      rw [this]
      exact List.mem_of_mem_tail
        (Split_tail_of_sep a (sep :: b) sep (by simp [strings.Split]))

/-! ### No field of `Parse` contains a space -/

theorem rules_no_space :
    ∀ p ∈ patterns, ' ' ∉ p.deviceType ∧ ' ' ∉ p.operatingSystem ∧ ' ' ∉ p.clientType ∧
      ' ' ∉ p.clientName := by
  decide

theorem parseFields_no_space (h f : Str) (hf : f ∈ parseFields h) : ' ' ∉ f := by
  unfold parseFields at hf
  intro hm
  have h1 := ((Fields_tokens _ f (mem_keepFields _ f hf).1).2 ' ' hm).1
  exact absurd h1 (by decide)

theorem Split_chars (x : Str) (sep : Char) :
    ∀ seg ∈ strings.Split x sep, ∀ c ∈ seg, c ∈ x := by
  induction x with
  | nil =>
    intro seg hseg c hc
    simp only [strings.Split, List.mem_singleton] at hseg
    rw [hseg] at hc
    exact hc
  | cons d ds ih =>
    intro seg hseg c hc
    simp only [strings.Split] at hseg
    by_cases hd : d = sep
    · rw [if_pos hd] at hseg
      rcases List.mem_cons.1 hseg with h | h
      · rw [h] at hc; exact absurd hc (List.not_mem_nil _)
      · exact List.mem_cons_of_mem _ (ih seg h c hc)
    · rw [if_neg hd] at hseg
      cases hs : strings.Split ds sep with
      | nil =>
        rw [hs] at hseg
        rw [List.mem_singleton.1 hseg] at hc
        rw [List.mem_singleton.1 hc]
        exact List.mem_cons_self _ _
      | cons g gs =>
        rw [hs] at hseg ih
        rcases List.mem_cons.1 hseg with h | h
        · rw [h] at hc
          rcases List.mem_cons.1 hc with h2 | h2
          · rw [h2]; exact List.mem_cons_self _ _
          · exact List.mem_cons_of_mem _ (ih g (List.mem_cons_self _ _) c h2)
        · exact List.mem_cons_of_mem _ (ih seg (List.mem_cons_of_mem _ h) c hc)

theorem Join_chars (xs : List Str) (sep : Str) :
    ∀ c ∈ strings.Join xs sep, c ∈ sep ∨ ∃ x ∈ xs, c ∈ x := by
  induction xs with
  | nil => intro c hc; simp [strings.Join, List.intercalate] at hc
  | cons a rest ih =>
    intro c hc
    cases rest with
    | nil =>
      rw [Join_singleton] at hc
      exact Or.inr ⟨a, List.mem_cons_self _ _, hc⟩
    | cons b rest =>
      rw [Join_cons_cons] at hc
      rcases List.mem_append.1 hc with h | h
      · rcases List.mem_append.1 h with h | h
        · exact Or.inr ⟨a, List.mem_cons_self _ _, h⟩
        · exact Or.inl h
      · rcases ih c h with h | ⟨x, hx, hcx⟩
        · exact Or.inl h
        · exact Or.inr ⟨x, List.mem_cons_of_mem _ hx, hcx⟩

theorem take_two_Join_chars (x : Str) (sep : Char) :
    ∀ c ∈ strings.Join ((strings.Split x sep).take 2) ".".toList, c = '.' ∨ c ∈ x := by
  intro c hc
  rcases Join_chars _ _ c hc with h | ⟨seg, hseg, hcs⟩
  · exact Or.inl (List.mem_singleton.1 h)
  · exact Or.inr (Split_chars x sep seg (List.mem_of_mem_take hseg) c hcs)

theorem firstTwoSegments_chars (x : Str) : ∀ c ∈ firstTwoSegments x, c = '.' ∨ c ∈ x := by
  intro c hc
  unfold firstTwoSegments at hc
  by_cases h : '.' ∈ x
  · rw [if_pos h] at hc
    exact take_two_Join_chars x '.' c hc
  · rw [if_neg h] at hc
    exact Or.inr hc

theorem clientVersion_chars (fields : List Str) (name : Str) :
    ∀ c ∈ clientVersion fields name, c = '.' ∨ ∃ f ∈ fields, c ∈ f := by
  induction fields with
  | nil => intro c hc; exact absurd hc (List.not_mem_nil _)
  | cons f fs ih =>
    have up : ∀ c ∈ clientVersion fs name, c = '.' ∨ ∃ g ∈ f :: fs, c ∈ g := by
      intro c hc
      rcases ih c hc with h | ⟨g, hg, hcg⟩
      · exact Or.inl h
      · exact Or.inr ⟨g, List.mem_cons_of_mem _ hg, hcg⟩
    intro c hc
    simp only [clientVersion] at hc
    by_cases h1 : strings.Contains f name = true
    · rw [if_pos h1] at hc
      by_cases h2 : (strings.Cut f '/').2.2 = true
      · rw [if_pos h2, cutSegments_Split] at hc
        rcases firstTwoSegments_chars _ c hc with h | h
        · exact Or.inl h
        · refine Or.inr ⟨f, List.mem_cons_self _ _, ?_⟩
          rw [Cut_eq] at h
          exact (List.dropWhile_sublist _).subset (List.mem_of_mem_drop h)
      · rw [if_neg h2] at hc
        exact up c hc
    · rw [if_neg h1] at hc
      exact up c hc

theorem version_chars (fields : List Str) :
    ∀ c ∈ version fields, c = '.' ∨ ∃ f ∈ fields, c ∈ f := by
  induction fields with
  | nil => intro c hc; exact absurd hc (List.not_mem_nil _)
  | cons f fs ih =>
    intro c hc
    simp only [version] at hc
    by_cases h1 : strings.HasPrefix f "Version/".toList = true ∧ len f > 8
    · rw [if_pos h1, cutSegments_Split] at hc
      rcases firstTwoSegments_chars _ c hc with h | h
      · exact Or.inl h
      · exact Or.inr ⟨f, List.mem_cons_self _ _, List.mem_of_mem_drop h⟩
    · rw [if_neg h1] at hc
      rcases ih c hc with h | ⟨g, hg, hcg⟩
      · exact Or.inl h
      · exact Or.inr ⟨g, List.mem_cons_of_mem _ hg, hcg⟩

theorem releaseVersion_chars (fields : List Str) :
    ∀ c ∈ releaseVersion fields, ∃ f ∈ fields, c ∈ f := by
  induction fields with
  | nil => intro c hc; exact absurd hc (List.not_mem_nil _)
  | cons f fs ih =>
    intro c hc
    simp only [releaseVersion] at hc
    by_cases h1 : strings.HasPrefix f "rv:".toList = true ∧ len f > 3
    · rw [if_pos h1] at hc
      exact ⟨f, List.mem_cons_self _ _, List.mem_of_mem_drop hc⟩
    · rw [if_neg h1] at hc
      obtain ⟨g, hg, hcg⟩ := ih c hc
      exact ⟨g, List.mem_cons_of_mem _ hg, hcg⟩

theorem botURL_chars (fields : List Str) : ∀ c ∈ botURL fields, ∃ f ∈ fields, c ∈ f := by
  induction fields with
  | nil => intro c hc; exact absurd hc (List.not_mem_nil _)
  | cons f fs ih =>
    intro c hc
    simp only [botURL] at hc
    by_cases h1 : strings.Contains f "://".toList = true
    · rw [if_pos h1] at hc
      exact ⟨f, List.mem_cons_self _ _, List.mem_of_mem_drop hc⟩
    · rw [if_neg h1] at hc
      obtain ⟨g, hg, hcg⟩ := ih c hc
      exact ⟨g, List.mem_cons_of_mem _ hg, hcg⟩

theorem majorMinorVersion_chars (t : Str) : ∀ c ∈ majorMinorVersion t, c = '.' ∨ c ∈ t := by
  intro c hc
  unfold majorMinorVersion at hc
  by_cases h : ¬ isDigits t = true
  · rw [if_pos h] at hc
    exact absurd hc (List.not_mem_nil _)
  · rw [if_neg h] at hc
    dsimp only at hc
    have key : ∀ sep : Char,
        c ∈ (if (strings.Split t sep).length ≥ 2 then
              strings.Join ((strings.Split t sep).take 2) ".".toList
            else if (strings.Split t sep).length = 1 then (strings.Split t sep).headD []
            else t) → c = '.' ∨ c ∈ t := by
      intro sep hcs
      by_cases h2 : (strings.Split t sep).length ≥ 2
      · rw [if_pos h2] at hcs
        exact take_two_Join_chars t sep c hcs
      · rw [if_neg h2] at hcs
        by_cases h3 : (strings.Split t sep).length = 1
        · rw [if_pos h3] at hcs
          cases hs : strings.Split t sep with
          | nil => rw [hs] at hcs; exact absurd hcs (List.not_mem_nil _)
          | cons g gs =>
            rw [hs] at hcs
            exact Or.inr (Split_chars t sep g (hs ▸ List.mem_cons_self _ _) c hcs)
        · rw [if_neg h3] at hcs
          exact Or.inr hcs
    by_cases hu : strings.Contains t "_".toList = true
    · rw [if_pos hu] at hc
      exact key '_' hc
    · rw [if_neg hu] at hc
      exact key '.' hc

theorem osVersionLoop_chars (fields : List Str) (key : Str) :
    ∀ c ∈ osVersionLoop fields key, c = '.' ∨ ∃ f ∈ fields, c ∈ f := by
  induction fields with
  | nil => intro c hc; exact absurd hc (List.not_mem_nil _)
  | cons f fs ih =>
    intro c hc
    simp only [osVersionLoop] at hc
    by_cases h1 : f = key ∧ fs ≠ []
    · rw [if_pos h1] at hc
      cases fs with
      | nil => exact absurd rfl h1.2
      | cons g gs =>
        rcases majorMinorVersion_chars g c hc with h | h
        · exact Or.inl h
        · exact Or.inr ⟨g, List.mem_cons_of_mem _ (List.mem_cons_self _ _), h⟩
    · rw [if_neg h1] at hc
      rcases ih c hc with h | ⟨g, hg, hcg⟩
      · exact Or.inl h
      · exact Or.inr ⟨g, List.mem_cons_of_mem _ hg, hcg⟩

theorem osVersion_chars (fields : List Str) (osName : Str) :
    ∀ c ∈ osVersion fields osName, c = '.' ∨ ∃ f ∈ fields, c ∈ f := by
  intro c hc
  unfold osVersion at hc
  by_cases h : osName = []
  · rw [if_pos h] at hc
    exact absurd hc (List.not_mem_nil _)
  · rw [if_neg h] at hc
    exact osVersionLoop_chars fields _ c hc

theorem foldl_ClientVersion_chars (c : Str) (ps : List Match) (ua : UserAgent)
    (h0 : ∀ x ∈ ua.ClientVersion, x = '.' ∨ ∃ f ∈ ua.Fields, x ∈ f) :
    ∀ x ∈ (ps.foldl (applyPattern c) ua).ClientVersion, x = '.' ∨ ∃ f ∈ ua.Fields, x ∈ f := by
  induction ps generalizing ua with
  | nil => exact h0
  | cons p ps ih =>
    simp only [List.foldl]
    have hf : (applyPattern c ua p).Fields = ua.Fields := (applyPattern_fixed c ua p).2.1
    have := ih (applyPattern c ua p) (by
      rw [hf]
      rcases applyPattern_ClientVersion c ua p with h1 | h1
      · rw [h1]; exact h0
      · rw [h1]; exact clientVersion_chars _ _)
    rw [hf] at this
    exact this

theorem no_space_of_chars (fields : List Str) (v : Str) (hf : ∀ f ∈ fields, ' ' ∉ f)
    (hv : ∀ x ∈ v, x = '.' ∨ ∃ f ∈ fields, x ∈ f) : ' ' ∉ v := by
  intro hm
  rcases hv ' ' hm with h | ⟨f, hf1, hf2⟩
  · exact absurd h (by decide)
  · exact hf f hf1 hf2

theorem matched_ClientVersion_chars (s : Str) :
    ∀ x ∈ (matched s).ClientVersion, x = '.' ∨ ∃ f ∈ parseFields (unquote s), x ∈ f := by
  have h := foldl_ClientVersion_chars (cleaned s) patterns (initial s) (by
    rw [(initial_fields s).2.2.2.2.2.2.1]
    intro x hx
    exact absurd hx (List.not_mem_nil _))
  rw [(initial_fields s).2.1] at h
  unfold matched
  rw [matchPatterns_eq_foldl]
  exact h

theorem Parse_no_space (s : Str) :
    ' ' ∉ (Parse s).ClientType ∧ ' ' ∉ (Parse s).ClientName ∧
    ' ' ∉ (Parse s).ClientVersion ∧ ' ' ∉ (Parse s).DeviceType ∧ ' ' ∉ (Parse s).OSName ∧
    ' ' ∉ (Parse s).OSVersion ∧ ' ' ∉ (Parse s).URL := by
  have hfields : ∀ f ∈ parseFields (unquote s), ' ' ∉ f :=
    fun f hf => parseFields_no_space (unquote s) f hf
  have hrule : ∀ slot : Match → Str, (∀ p ∈ patterns, ' ' ∉ slot p) →
      firstMatch (cleaned s) slot patterns ≠ [] →
      ' ' ∉ firstMatch (cleaned s) slot patterns := fun slot hs hne =>
    firstMatch_value (cleaned s) slot patterns (fun v => ' ' ∉ v) (fun p hp _ => hs p hp) hne
  have hOS : ' ' ∉ (Parse s).OSName := by
    rw [Parse_OSName]
    by_cases h : firstMatch (cleaned s) Match.operatingSystem patterns = []
    · rw [if_pos h]; decide
    · rw [if_neg h]; exact hrule _ (fun p hp => (rules_no_space p hp).2.1) h
  have hName : ' ' ∉ (Parse s).ClientName := by
    rw [Parse_ClientName]
    by_cases h : firstMatch (cleaned s) Match.clientName patterns = []
    · rw [if_pos h]
      generalize (Parse s).OSName = os
      by_cases h1 : os = "iOS".toList ∨ os = "iPadOS".toList ∨ os = "macOS".toList
      · rw [if_pos h1]; decide
      · rw [if_neg h1]
        by_cases h2 : os = "Android".toList
        · rw [if_pos h2]; decide
        · rw [if_neg h2]; decide
    · rw [if_neg h]; exact hrule _ (fun p hp => (rules_no_space p hp).2.2.2) h
  refine ⟨?_, hName, ?_, ?_, hOS, ?_, ?_⟩
  · rw [Parse_ClientType]
    by_cases hu : strings.Contains (unquote s) "://".toList = true
    · rw [if_pos hu]; decide
    · rw [if_neg hu]
      by_cases h : firstMatch (cleaned s) Match.clientType patterns = []
      · rw [if_pos h]
        split_ifs <;> decide
      · rw [if_neg h]; exact hrule _ (fun p hp => (rules_no_space p hp).2.2.1) h
  · rw [Parse_ClientVersion, Parse_Fields]
    have hm : ' ' ∉ (matched s).ClientVersion :=
      no_space_of_chars _ _ hfields (matched_ClientVersion_chars s)
    have hv : ' ' ∉ version (parseFields (unquote s)) :=
      no_space_of_chars _ _ hfields (version_chars _)
    have hr : ' ' ∉ releaseVersion (parseFields (unquote s)) :=
      no_space_of_chars _ _ hfields (fun x hx => Or.inr (releaseVersion_chars _ x hx))
    generalize (Parse s).ClientName = name
    generalize (matched s).ClientVersion = mv at hm ⊢
    generalize version (parseFields (unquote s)) = vv at hv ⊢
    generalize releaseVersion (parseFields (unquote s)) = rv at hr ⊢
    split_ifs <;> assumption
  · rw [Parse_DeviceType]
    by_cases h : firstMatch (cleaned s) Match.deviceType patterns = []
    · rw [if_pos h]; decide
    · rw [if_neg h]; exact hrule _ (fun p hp => (rules_no_space p hp).1) h
  · rw [Parse_OSVersion, Parse_Fields]
    by_cases h : firstMatch (cleaned s) Match.operatingSystem patterns = []
    · rw [if_pos h]; exact List.not_mem_nil _
    · rw [if_neg h]
      exact no_space_of_chars _ _ hfields (osVersion_chars _ _)
  · rw [Parse_URL]
    by_cases hu : strings.Contains (unquote s) "://".toList = true
    · rw [if_pos hu]
      exact no_space_of_chars _ _ hfields (fun x hx => Or.inr (botURL_chars _ x hx))
    · rw [if_neg hu]; exact List.not_mem_nil _

/-! ### Splitting the rendering back into its fields (C37) -/

theorem rendering_splits (ua : UserAgent)
    (hne : ua.ClientType ≠ [] ∧ ua.ClientName ≠ [] ∧ ua.DeviceType ≠ [] ∧ ua.OSName ≠ [])
    (hsp : ' ' ∉ ua.ClientType ∧ ' ' ∉ ua.ClientName ∧ ' ' ∉ ua.ClientVersion ∧
      ' ' ∉ ua.DeviceType ∧ ' ' ∉ ua.OSName ∧ ' ' ∉ ua.OSVersion ∧ ' ' ∉ ua.URL) :
    strings.Split ua.String ' ' =
      [ua.ClientType, ua.ClientName, ua.ClientVersion, ua.DeviceType, ua.OSName,
        ua.OSVersion, ua.URL].filter (fun f => f ≠ []) ∧
    4 ≤ (strings.Split ua.String ' ').length ∧ (strings.Split ua.String ' ').length ≤ 7 ∧
    ua.String.head? ≠ some ' ' ∧ ua.String.getLast? ≠ some ' ' ∧
    strings.Contains ua.String "  ".toList = false := by
  obtain ⟨hT, hN, hD, hO⟩ := hne
  obtain ⟨s1, s2, s3, s4, s5, s6, s7⟩ := hsp
  have hmem : ∀ x ∈ [ua.ClientType, ua.ClientName, ua.ClientVersion, ua.DeviceType,
      ua.OSName, ua.OSVersion, ua.URL].filter (fun f => f ≠ []), x ≠ [] ∧ ' ' ∉ x := by
    intro x hx
    rw [List.mem_filter] at hx
    refine ⟨by simpa using hx.2, ?_⟩
    have h7 := hx.1
    simp only [List.mem_cons, List.mem_singleton, List.not_mem_nil, or_false] at h7
    rcases h7 with e | e | e | e | e | e | e <;> rw [e] <;> assumption
  have hnil : [ua.ClientType, ua.ClientName, ua.ClientVersion, ua.DeviceType,
      ua.OSName, ua.OSVersion, ua.URL].filter (fun f => f ≠ []) ≠ [] := by
    intro e
    have : ua.ClientType ∈ [ua.ClientType, ua.ClientName, ua.ClientVersion, ua.DeviceType,
        ua.OSName, ua.OSVersion, ua.URL].filter (fun f => f ≠ []) :=
      List.mem_filter.2 ⟨List.mem_cons_self _ _, by simpa using hT⟩
    rw [e] at this
    exact absurd this (List.not_mem_nil _)
  have hsplit : strings.Split ua.String ' ' =
      [ua.ClientType, ua.ClientName, ua.ClientVersion, ua.DeviceType, ua.OSName,
        ua.OSVersion, ua.URL].filter (fun f => f ≠ []) := by
    rw [String_eq_canonicalRendering ua hT]
    unfold canonicalRendering
    exact Split_Join _ ' ' hnil (fun x hx => (hmem x hx).2)
  have hempty : [] ∉ strings.Split ua.String ' ' := by
    rw [hsplit]
    intro h
    exact (hmem [] h).1 rfl
  obtain ⟨h1, h2, h3⟩ := Split_no_empty ua.String ' ' hempty
  refine ⟨hsplit, ?_, ?_, h1, h2, h3⟩
  · rw [hsplit]
    have hsub : [ua.ClientType, ua.ClientName, ua.DeviceType, ua.OSName].Sublist
        ([ua.ClientType, ua.ClientName, ua.ClientVersion, ua.DeviceType, ua.OSName,
          ua.OSVersion, ua.URL].filter (fun f => f ≠ [])) := by
      have h0 : [ua.ClientType, ua.ClientName, ua.DeviceType, ua.OSName].Sublist
          [ua.ClientType, ua.ClientName, ua.ClientVersion, ua.DeviceType, ua.OSName,
            ua.OSVersion, ua.URL] := by
        simp
      have h4 := h0.filter (fun f => decide (f ≠ []))
      rw [List.filter_eq_self.2 (by
        intro x hx
        simp only [List.mem_cons, List.mem_singleton, List.not_mem_nil, or_false] at hx
        rcases hx with e | e | e | e <;> rw [e] <;> simpa)] at h4
      exact h4
    exact hsub.length_le
  · rw [hsplit]
    exact List.length_filter_le _ _

/-- C37. The rendering of a parsed header can be split back into its fields: none of
ClientType, ClientName, ClientVersion, DeviceType, OSName, OSVersion, URL of `Parse s`
contains a space, and splitting `(Parse s).String` on the space character gives exactly
the non-empty ones of these seven values, in that order: between 4 and 7 components, and
the rendering has no leading, trailing or doubled space. -/
theorem rendering_splits_back (s : Str) :
    (' ' ∉ (Parse s).ClientType ∧ ' ' ∉ (Parse s).ClientName ∧
      ' ' ∉ (Parse s).ClientVersion ∧ ' ' ∉ (Parse s).DeviceType ∧ ' ' ∉ (Parse s).OSName ∧
      ' ' ∉ (Parse s).OSVersion ∧ ' ' ∉ (Parse s).URL) ∧
    strings.Split (Parse s).String ' ' =
      [(Parse s).ClientType, (Parse s).ClientName, (Parse s).ClientVersion,
        (Parse s).DeviceType, (Parse s).OSName, (Parse s).OSVersion,
        (Parse s).URL].filter (fun f => f ≠ []) ∧
    4 ≤ (strings.Split (Parse s).String ' ').length ∧
    (strings.Split (Parse s).String ' ').length ≤ 7 ∧
    (Parse s).String.head? ≠ some ' ' ∧ (Parse s).String.getLast? ≠ some ' ' ∧
    strings.Contains (Parse s).String "  ".toList = false := by
  have hsp := Parse_no_space s
  have hne : (Parse s).ClientType ≠ [] ∧ (Parse s).ClientName ≠ [] ∧
      (Parse s).DeviceType ≠ [] ∧ (Parse s).OSName ≠ [] := postProcess_nonempty (matched s)
  generalize Parse s = ua at hsp hne ⊢
  exact ⟨hsp, rendering_splits ua hne hsp⟩

/-! ### One replacement pass as a left-to-right scan; guarded occurrences -/

theorem delimiterFree_iff (x : Str) :
    delimiterFree x = true ↔ ∀ c ∈ x, isDelimiter c = false := by
  simp [delimiterFree, List.all_eq_true]

theorem delimiterFree_of_subset (x y : Str) (h : ∀ c ∈ x, c ∈ y)
    (hy : delimiterFree y = true) : delimiterFree x = true := by
  rw [delimiterFree_iff] at hy ⊢
  exact fun c hc => hy c (h c hc)

theorem replaceAllAux_skip (old new : Str) (xs rest : Str) :
    strings.replaceAllAux old new xs.length (xs ++ rest) =
      strings.replaceAllAux old new 0 rest := by
  induction xs with
  | nil => rfl
  | cons x xs ih => simpa [strings.replaceAllAux] using ih

theorem ReplaceAll_nil (old new : Str) : strings.ReplaceAll [] old new = [] := rfl

theorem ReplaceAll_append_old (old new rest : Str) (hne : old ≠ []) :
    strings.ReplaceAll (old ++ rest) old new = new ++ strings.ReplaceAll rest old new := by
  cases old with
  | nil => exact absurd rfl hne
  | cons d ds =>
    unfold strings.ReplaceAll
    have hp : List.isPrefixOf (d :: ds) (d :: (ds ++ rest)) = true := by
      rw [ List.isPrefixOf_iff_prefix]
      exact ⟨rest, rfl⟩
    have e : strings.replaceAllAux (d :: ds) new 0 (d :: (ds ++ rest)) =
        new ++ strings.replaceAllAux (d :: ds) new ((d :: ds).length - 1) (ds ++ rest) := by
      simp only [strings.replaceAllAux]
      rw [if_pos hp]
    rw [List.cons_append, e, List.length_cons, Nat.add_sub_cancel, replaceAllAux_skip]

theorem ReplaceAll_cons_skip (old new : Str) (c : Char) (cs : Str) (h : ¬ old <+: c :: cs) :
    strings.ReplaceAll (c :: cs) old new = c :: strings.ReplaceAll cs old new := by
  unfold strings.ReplaceAll
  have hp : List.isPrefixOf old (c :: cs) = false := by
    cases hq : List.isPrefixOf old (c :: cs) with
    | false => rfl
    | true => exact absurd (List.isPrefixOf_iff_prefix.1 hq) h
  simp only [strings.replaceAllAux, hp, Bool.false_eq_true, if_false]

theorem scan_induction (old : Str) (hne : old ≠ []) (P : Str → Prop) (h0 : P [])
    (h1 : ∀ rest, P rest → P (old ++ rest))
    (h2 : ∀ c cs, ¬ old <+: c :: cs → P cs → P (c :: cs)) : ∀ t, P t := by
  have key : ∀ n, ∀ t : Str, t.length = n → P t := by
    intro n
    induction n using Nat.strong_induction_on with
    | _ n ih =>
      intro t ht
      cases t with
      | nil => exact h0
      | cons c cs =>
        by_cases hp : old <+: c :: cs
        · obtain ⟨rest, hrest⟩ := hp
          rw [← hrest]
          apply h1
          have hlen : (old ++ rest).length = n := by rw [hrest]; exact ht
          have hl : 0 < old.length := List.length_pos.2 hne
          rw [List.length_append] at hlen
          exact ih rest.length (by omega) rest rfl
        · have hlen : cs.length + 1 = n := by simpa using ht
          exact h2 c cs hp (ih cs.length (by omega) cs rfl)
  exact fun t => key t.length t rfl

theorem GuardedLeft_of_append (old pre t : Str) (h : GuardedLeft old (pre ++ t)) :
    GuardedLeft old t := by
  intro a c b e
  exact h (pre ++ a) c b (by rw [e]; simp)

theorem GuardedRight_of_append (old pre t : Str) (h : GuardedRight old (pre ++ t)) :
    GuardedRight old t := by
  intro a c b e
  exact h (pre ++ a) c b (by rw [e]; simp)

theorem PassGuard_of_append (old new pre t : Str) (h : PassGuard old new (pre ++ t)) :
    PassGuard old new t := by
  rcases h with ⟨h1, h2, h3⟩ | ⟨h1, h2, h3⟩ | ⟨h1, h2, h3, h4, h5⟩ | h
  · exact Or.inl ⟨h1, h2, GuardedLeft_of_append old pre t h3⟩
  · exact Or.inr (Or.inl ⟨h1, h2, GuardedRight_of_append old pre t h3⟩)
  · exact Or.inr (Or.inr (Or.inl ⟨h1, h2, h3, GuardedLeft_of_append old pre t h4,
      GuardedRight_of_append old pre t h5⟩))
  · exact Or.inr (Or.inr (Or.inr h))

theorem PassGuard_of_cons (old new : Str) (c : Char) (t : Str)
    (h : PassGuard old new (c :: t)) : PassGuard old new t :=
  PassGuard_of_append old new [c] t h

theorem kind_cases (old new : Str) (hk : kindOK old new = true) :
    new = [] ∨
    ((new = "OS".toList ∨ new = "Windows".toList) ∧ headDelimiter old = false ∧
      lastDelimiter old = false) ∨
    (∃ d, new = [d] ∧ isDelimiter d = true) := by
  unfold kindOK at hk
  simp only [Bool.or_eq_true, Bool.and_eq_true, decide_eq_true_eq,
    Bool.not_eq_true_eq_eq_false] at hk
  rcases hk with (h1 | ⟨⟨h1, h2⟩, h3⟩) | ⟨h1, h2⟩
  · exact Or.inl h1
  · exact Or.inr (Or.inl ⟨h1, h2, h3⟩)
  · right; right
    match new, h1, h2 with
    | [d], _, h2 => exact ⟨d, rfl, by simpa using h2⟩

/-! ### Delimiter-free runs through one replacement pass -/

theorem delimiterFree_cons (c : Char) (y : Str) :
    delimiterFree (c :: y) = true ↔ isDelimiter c = false ∧ delimiterFree y = true := by
  simp [delimiterFree]

theorem prefix_cons_cases (y o : Str) (c : Char) (hy : y ≠ []) (h : y <+: c :: o) :
    ∃ y2, y = c :: y2 ∧ y2 <+: o := by
  cases y with
  | nil => exact absurd rfl hy
  | cons d y2 =>
    obtain ⟨s, hs⟩ := h
    simp only [List.cons_append, List.cons.injEq] at hs
    exact ⟨y2, by rw [hs.1], ⟨s, hs.2⟩⟩

theorem startsWithDelimiter_of_prefix (y t : Str) (hy : y ≠ []) (h : y <+: t)
    (ht : startsWithDelimiter t = true) : delimiterFree y = false := by
  cases y with
  | nil => exact absurd rfl hy
  | cons d y2 =>
    obtain ⟨s, hs⟩ := h
    rw [← hs] at ht
    simp only [List.cons_append, startsWithDelimiter] at ht
    simp [delimiterFree, ht]

theorem GuardedRight_after (old rest : Str) (h : GuardedRight old (old ++ rest)) :
    startsWithDelimiter rest = true := by
  cases rest with
  | nil => rfl
  | cons c b => exact h [] c b rfl

theorem headDelimiter_of_prefix (old t : Str) (hne : old ≠ []) (h : old <+: t) :
    startsWithDelimiter t = headDelimiter old := by
  cases old with
  | nil => exact absurd rfl hne
  | cons d ds =>
    obtain ⟨s, hs⟩ := h
    rw [← hs]
    rfl

/-- After a removal pass whose occurrences all come before a delimiter or at the end, a
text that starts with a delimiter still does. -/
theorem ReplaceAll_startsWithDelimiter (old : Str) (hne : old ≠ []) :
    ∀ t, GuardedRight old t → startsWithDelimiter t = true →
      startsWithDelimiter (strings.ReplaceAll t old []) = true := by
  apply scan_induction old hne
  · intro _ _; rfl
  · intro rest ih hg _
    rw [ReplaceAll_append_old old [] rest hne, List.nil_append]
    exact ih (GuardedRight_of_append old old rest hg) (GuardedRight_after old rest hg)
  · intro c cs hp _ _ hs
    rw [ReplaceAll_cons_skip old [] c cs hp]
    exact hs

/-- A delimiter-free start of the output of a pass is a start of its input, unless the
input starts with the search text. -/
theorem ReplaceAll_start_run (old new : Str) (hne : old ≠ []) :
    ∀ t, PassGuard old new t → ∀ y, delimiterFree y = true → y ≠ [] →
      y <+: strings.ReplaceAll t old new → y <+: t ∨ old <+: t := by
  apply scan_induction old hne
  · intro _ y _ hy h
    rw [ReplaceAll_nil] at h
    exact absurd (List.prefix_nil.1 h) hy
  · intro rest _ _ y _ _ _
    exact Or.inr ⟨rest, rfl⟩
  · intro c cs hp ih hg y hyf hy h
    rw [ReplaceAll_cons_skip old new c cs hp] at h
    obtain ⟨y2, rfl, h2⟩ := prefix_cons_cases y _ c hy h
    left
    rw [delimiterFree_cons] at hyf
    by_cases hy2 : y2 = []
    · rw [hy2]
      exact ⟨cs, rfl⟩
    · rcases ih (PassGuard_of_cons old new c cs hg) y2 hyf.2 hy2 h2 with h3 | h3
      · obtain ⟨s, hs⟩ := h3
        exact ⟨s, by rw [← hs]; rfl⟩
      · exfalso
        obtain ⟨rest, hrest⟩ := h3
        rw [← hrest] at hg h2
        rw [ReplaceAll_append_old old new rest hne] at h2
        have hcd : isDelimiter c ≠ true := by rw [hyf.1]; decide
        rcases hg with ⟨-, -, hl⟩ | ⟨hn, -, hr⟩ | ⟨-, -, -, hl, -⟩ | ⟨d, hn, hd⟩
        · exact hcd (hl [] c rest rfl)
        · rw [hn, List.nil_append] at h2
          have hr2 := GuardedRight_of_append old [c] (old ++ rest) hr
          have hs := ReplaceAll_startsWithDelimiter old hne rest
            (GuardedRight_of_append old old rest hr2) (GuardedRight_after old rest hr2)
          have := startsWithDelimiter_of_prefix y2 _ hy2 h2 hs
          rw [hyf.2] at this
          exact absurd this (by decide)
        · exact hcd (hl [] c rest rfl)
        · rw [hn] at h2
          have := startsWithDelimiter_of_prefix y2 (d :: strings.ReplaceAll rest old [d]) hy2
            h2 hd
          rw [hyf.2] at this
          exact absurd this (by decide)

theorem prefix_append_cases (x a b : Str) (h : x <+: a ++ b) :
    x <+: a ∨ ∃ x2, x = a ++ x2 ∧ x2 <+: b := by
  induction a generalizing x with
  | nil => exact Or.inr ⟨x, rfl, h⟩
  | cons c a ih =>
    cases x with
    | nil => exact Or.inl List.nil_prefix
    | cons d x =>
      obtain ⟨s, hs⟩ := h
      simp only [List.cons_append, List.cons.injEq] at hs
      rcases ih x ⟨s, hs.2⟩ with h1 | ⟨x2, h1, h2⟩
      · left
        obtain ⟨u, hu⟩ := h1
        exact ⟨u, by rw [← hu, hs.1]; rfl⟩
      · right
        exact ⟨x2, by rw [h1, hs.1]; rfl, h2⟩

theorem mem_run_append (x a b : Str) (h : x <:+: a ++ b) :
    x <:+: a ∨ x <:+: b ∨
      ∃ x1 x2, x = x1 ++ x2 ∧ x1 ≠ [] ∧ x2 ≠ [] ∧ x1 <:+ a ∧ x2 <+: b := by
  induction a with
  | nil => exact Or.inr (Or.inl h)
  | cons c a ih =>
    rw [List.cons_append, List.infix_cons_iff] at h
    rcases h with h | h
    · rcases prefix_append_cases x (c :: a) b h with h1 | ⟨x2, h1, h2⟩
      · exact Or.inl h1.isInfix
      · by_cases hx2 : x2 = []
        · left
          rw [h1, hx2, List.append_nil]
        · right; right
          exact ⟨c :: a, x2, h1, List.cons_ne_nil _ _, hx2, List.suffix_refl _, h2⟩
    · rcases ih h with h1 | h1 | ⟨x1, x2, e, n1, n2, s1, p2⟩
      · exact Or.inl (List.infix_cons h1)
      · exact Or.inr (Or.inl h1)
      · right; right
        exact ⟨x1, x2, e, n1, n2, s1.trans (List.suffix_cons c a), p2⟩

/-- A delimiter-free run of the output of a pass is a run of its input or of the inserted
text: a guarded pass brings no two words together. -/
theorem ReplaceAll_runs (old new : Str) (hne : old ≠ []) :
    ∀ t, PassGuard old new t → ∀ x, delimiterFree x = true → x ≠ [] →
      x <:+: strings.ReplaceAll t old new → x <:+: t ∨ x <:+: new := by
  apply scan_induction old hne
  · intro _ x _ hx h
    rw [ReplaceAll_nil] at h
    exact absurd (List.infix_nil.1 h) hx
  · intro rest ih hg x hxf hx h
    have hg2 := PassGuard_of_append old new old rest hg
    have up : x <:+: rest → x <:+: old ++ rest := fun h1 =>
      h1.trans (List.suffix_append old rest).isInfix
    rw [ReplaceAll_append_old old new rest hne] at h
    rcases mem_run_append x new _ h with h1 | h1 | ⟨x1, x2, e, n1, n2, s1, p2⟩
    · exact Or.inr h1
    · exact (ih hg2 x hxf hx h1).imp up id
    · exfalso
      have hx2f : delimiterFree x2 = true :=
        delimiterFree_of_subset x2 x (fun c hc => by rw [e]; exact List.mem_append_right _ hc)
          hxf
      rcases hg with ⟨hn, -, -⟩ | ⟨hn, -, -⟩ | ⟨-, hh, -, -, hr⟩ | ⟨d, hn, hd⟩
      · rw [hn] at s1
        exact n1 (List.suffix_nil.1 s1)
      · rw [hn] at s1
        exact n1 (List.suffix_nil.1 s1)
      · have hs := GuardedRight_after old rest hr
        rcases ReplaceAll_start_run old new hne rest hg2 x2 hx2f n2 p2 with h3 | h3
        · have := startsWithDelimiter_of_prefix x2 rest n2 h3 hs
          rw [hx2f] at this
          exact absurd this (by decide)
        · rw [ headDelimiter_of_prefix old rest hne h3, hh] at hs
          exact absurd hs (by decide)
      · rw [hn] at s1
        have hx1 : x1 = [d] := by
          obtain ⟨u, hu⟩ := s1
          cases u with
          | nil => exact hu
          | cons v u =>
            have := congrArg List.length hu
            simp only [List.cons_append, List.length_cons, List.length_append,
              List.length_singleton, List.length_nil] at this
            have : x1.length = 0 := by omega
            exact absurd (List.length_eq_zero.1 this) n1
        have hd2 : isDelimiter d = false := by
          rw [delimiterFree_iff] at hxf
          exact hxf d (by rw [e, hx1]; simp)
        rw [hd] at hd2
        exact absurd hd2 (by decide)
  · intro c cs hp ih hg x hxf hx h
    rw [ReplaceAll_cons_skip old new c cs hp, List.infix_cons_iff] at h
    rcases h with h | h
    · have h2 : x <+: strings.ReplaceAll (c :: cs) old new := by
        rw [ReplaceAll_cons_skip old new c cs hp]; exact h
      rcases ReplaceAll_start_run old new hne (c :: cs) hg x hxf hx h2 with h3 | h3
      · exact Or.inl h3.isInfix
      · exact absurd h3 hp
    · exact (ih (PassGuard_of_cons old new c cs hg) x hxf hx h).imp List.infix_cons id

/-- A guarded removal pass for a word leaves no occurrence of it. -/
theorem ReplaceAll_removes (old : Str) (hne : old ≠ []) (hf : delimiterFree old = true) :
    ∀ t, PassGuard old [] t → ¬ old <:+: strings.ReplaceAll t old [] := by
  apply scan_induction old hne
  · intro _ h
    rw [ReplaceAll_nil] at h
    exact hne (List.infix_nil.1 h)
  · intro rest ih hg
    rw [ReplaceAll_append_old old [] rest hne, List.nil_append]
    exact ih (PassGuard_of_append old [] old rest hg)
  · intro c cs hp ih hg h
    rw [ReplaceAll_cons_skip old [] c cs hp, List.infix_cons_iff] at h
    rcases h with h | h
    · have h2 : old <+: strings.ReplaceAll (c :: cs) old [] := by
        rw [ReplaceAll_cons_skip old [] c cs hp]; exact h
      rcases ReplaceAll_start_run old [] hne (c :: cs) hg old hf hne h2 with h3 | h3
      · exact hp h3
      · exact hp h3
    · exact ih (PassGuard_of_cons old [] c cs hg) h

/-! ### Well-separated headers: the words around each search text -/

theorem unguardedLeft_of_run (u s : Str) (c : Char) (h : (c :: u) <:+: s)
    (hc : isDelimiter c = false) : unguardedLeft u s = true := by
  induction s with
  | nil => simp at h
  | cons d ds ih =>
    rw [List.infix_cons_iff] at h
    simp only [unguardedLeft, Bool.or_eq_true, Bool.and_eq_true, Bool.not_eq_true_eq_eq_false]
    rcases h with h | h
    · left
      obtain ⟨b, hb⟩ := h
      simp only [List.cons_append, List.cons.injEq] at hb
      exact ⟨by rw [← hb.1]; exact hc, List.isPrefixOf_iff_prefix.2 ⟨b, hb.2⟩⟩
    · exact Or.inr (ih h)

theorem unguardedRight_of_run (u s : Str) (c : Char) (h : (u ++ [c]) <:+: s)
    (hc : isDelimiter c = false) : unguardedRight u s = true := by
  induction s with
  | nil => simp at h
  | cons d ds ih =>
    rw [List.infix_cons_iff] at h
    simp only [unguardedRight, Bool.or_eq_true, Bool.and_eq_true, Bool.not_eq_true_eq_eq_false]
    rcases h with h | h
    · left
      obtain ⟨b, hb⟩ := h
      have e : d :: ds = u ++ c :: b := by rw [← hb]; simp
      rw [e]
      refine ⟨List.isPrefixOf_iff_prefix.2 ⟨c :: b, rfl⟩, ?_⟩
      rw [List.drop_left]
      exact hc
    · exact Or.inr (ih h)

theorem run_tail (x y : Str) (c : Char) (h : (c :: x) <:+: y) : x <:+: y.tail := by
  obtain ⟨a, b, hab⟩ := h
  cases a with
  | nil =>
    rw [← hab]
    exact ⟨[], b, rfl⟩
  | cons a0 a =>
    rw [← hab]
    exact ⟨a ++ [c], b, by simp⟩

theorem run_dropLast (x y : Str) (c : Char) (h : (x ++ [c]) <:+: y) : x <:+: y.dropLast := by
  obtain ⟨a, b, hab⟩ := h
  rcases List.eq_nil_or_concat b with hb | ⟨b2, d, hb⟩
  · rw [← hab, hb, List.append_nil, ← List.append_assoc, List.dropLast_concat]
    exact ⟨a, [], by simp⟩
  · rw [← hab, hb, List.concat_eq_append, ← List.append_assoc, List.dropLast_concat]
    exact ⟨a, c :: b2, by simp⟩

theorem leftWord_spec (old : Str) :
    delimiterFree (leftWord old) = true ∧ ∃ r, old = leftWord old ++ r := by
  refine ⟨?_, old.dropWhile (fun c => !isDelimiter c), ?_⟩
  · rw [delimiterFree_iff]
    intro c hc
    have := List.mem_takeWhile_imp hc
    simpa using this
  · exact (List.takeWhile_append_dropWhile _ old).symm

theorem rightWord_spec (old : Str) :
    delimiterFree (rightWord old) = true ∧ ∃ l, old = l ++ rightWord old := by
  refine ⟨?_, (old.reverse.dropWhile (fun c => !isDelimiter c)).reverse, ?_⟩
  · rw [delimiterFree_iff]
    intro c hc
    unfold rightWord at hc
    rw [List.mem_reverse] at hc
    have := List.mem_takeWhile_imp hc
    simpa using this
  · unfold rightWord
    rw [← List.reverse_append, List.takeWhile_append_dropWhile, List.reverse_reverse]

theorem Split_runs (x : Str) (sep : Char) :
    (∀ seg ∈ strings.Split x sep, seg <:+: x) ∧
    ∀ seg rest, strings.Split x sep = seg :: rest → seg <+: x := by
  induction x with
  | nil =>
    constructor
    · intro seg hseg
      simp only [strings.Split, List.mem_singleton] at hseg
      rw [hseg]
    · intro seg rest h
      simp only [strings.Split, List.cons.injEq] at h
      rw [← h.1]
  | cons c cs ih =>
    by_cases hc : c = sep
    · simp only [strings.Split, if_pos hc]
      constructor
      · intro seg hseg
        rcases List.mem_cons.1 hseg with h | h
        · rw [h]; exact List.nil_infix
        · exact List.infix_cons (ih.1 seg h)
      · intro seg rest h
        simp only [List.cons.injEq] at h
        rw [← h.1]
        exact List.nil_prefix
    · simp only [strings.Split, if_neg hc]
      cases hs : strings.Split cs sep with
      | nil => exact absurd hs (Split_ne_nil cs sep)
      | cons g gs =>
        rw [hs] at ih
        have hg : g <+: cs := ih.2 g gs rfl
        have hcg : (c :: g) <+: c :: cs := by
          obtain ⟨u, hu⟩ := hg
          exact ⟨u, by rw [← hu]; rfl⟩
        constructor
        · intro seg hseg
          rcases List.mem_cons.1 hseg with h | h
          · rw [h]; exact hcg.isInfix
          · exact List.infix_cons (ih.1 seg (List.mem_cons_of_mem _ h))
        · intro seg rest h
          simp only [List.cons.injEq] at h
          rw [← h.1]
          exact hcg

theorem escapeWords_spec (old q : Str) (hq : q ∈ escapeWords old) :
    q ≠ [] ∧ delimiterFree q = true ∧ q <:+: old ∧ ¬ q <:+: "OS".toList ∧
      ¬ q <:+: "Windows".toList := by
  unfold escapeWords at hq
  rw [List.mem_filter] at hq
  obtain ⟨h1, h2⟩ := hq
  simp only [Bool.and_eq_true, decide_eq_true_eq, Bool.not_eq_true_eq_eq_false] at h2
  obtain ⟨⟨⟨h3, h4⟩, h5⟩, h6⟩ := h2
  refine ⟨h3, h4, (Split_runs old ' ').1 q h1, ?_, ?_⟩
  · intro h
    rw [(Contains_iff_sublist_run _ _).2 h] at h5
    exact absurd h5 (by decide)
  · intro h
    rw [(Contains_iff_sublist_run _ _).2 h] at h6
    exact absurd h6 (by decide)

/-! ### Boilerplate is removed from well-separated headers (C32) -/

theorem leftWord_run (old a b t : Str) (c : Char) (e : t = a ++ c :: (old ++ b)) :
    (c :: leftWord old) <:+: t := by
  obtain ⟨-, r, hr⟩ := leftWord_spec old
  refine ⟨a, r ++ b, ?_⟩
  have h1 : old ++ b = leftWord old ++ (r ++ b) := by rw [← List.append_assoc, ← hr]
  rw [e, h1]
  simp

theorem rightWord_run (old a b t : Str) (c : Char) (e : t = a ++ old ++ c :: b) :
    (rightWord old ++ [c]) <:+: t := by
  obtain ⟨-, l, hl⟩ := rightWord_spec old
  refine ⟨a ++ l, b, ?_⟩
  have h1 : a ++ old = a ++ l ++ rightWord old := by rw [List.append_assoc, ← hl]
  rw [e, h1]
  simp

theorem delimiterFree_snoc (x : Str) (c : Char) (hx : delimiterFree x = true)
    (hc : isDelimiter c = false) : delimiterFree (x ++ [c]) = true := by
  rw [delimiterFree_iff] at hx ⊢
  intro d hd
  rcases List.mem_append.1 hd with h | h
  · exact hx d h
  · rw [List.mem_singleton.1 h]; exact hc

theorem GuardedLeft_of_separated (h old t : Str) (hinv : RunsFrom h t)
    (hu : unguardedLeft (leftWord old) h = false)
    (hs1 : strings.Contains "OS".toList.tail (leftWord old) = false)
    (hs2 : strings.Contains "Windows".toList.tail (leftWord old) = false) :
    GuardedLeft old t := by
  intro a c b e
  cases hc : isDelimiter c with
  | true => rfl
  | false =>
    exfalso
    have hx := leftWord_run old a b t c e
    have hd : delimiterFree (c :: leftWord old) = true :=
      (delimiterFree_cons c _).2 ⟨hc, (leftWord_spec old).1⟩
    rcases hinv _ hd (List.cons_ne_nil _ _) hx with h1 | h1 | h1
    · rw [unguardedLeft_of_run _ h c h1 hc] at hu
      exact absurd hu (by decide)
    · have := (Contains_iff_sublist_run _ _).2 (run_tail _ _ c h1)
      rw [hs1] at this
      exact absurd this (by decide)
    · have := (Contains_iff_sublist_run _ _).2 (run_tail _ _ c h1)
      rw [hs2] at this
      exact absurd this (by decide)

theorem GuardedRight_of_separated (h old t : Str) (hinv : RunsFrom h t)
    (hu : unguardedRight (rightWord old) h = false)
    (hs1 : strings.Contains "OS".toList.dropLast (rightWord old) = false)
    (hs2 : strings.Contains "Windows".toList.dropLast (rightWord old) = false) :
    GuardedRight old t := by
  intro a c b e
  cases hc : isDelimiter c with
  | true => rfl
  | false =>
    exfalso
    have hx := rightWord_run old a b t c e
    have hd : delimiterFree (rightWord old ++ [c]) = true :=
      delimiterFree_snoc _ c (rightWord_spec old).1 hc
    rcases hinv _ hd (by simp) hx with h1 | h1 | h1
    · rw [unguardedRight_of_run _ h c h1 hc] at hu
      exact absurd hu (by decide)
    · have := (Contains_iff_sublist_run _ _).2 (run_dropLast _ _ c h1)
      rw [hs1] at this
      exact absurd this (by decide)
    · have := (Contains_iff_sublist_run _ _).2 (run_dropLast _ _ c h1)
      rw [hs2] at this
      exact absurd this (by decide)

theorem PassGuard_of_separated (h old new t : Str) (hst : staticOK old = true)
    (hk : kindOK old new = true) (hinv : RunsFrom h t)
    (hsep : (if new = [] then
        (!headDelimiter old && !unguardedLeft (leftWord old) h) ||
        (!lastDelimiter old && !unguardedRight (rightWord old) h)
      else
        (headDelimiter old || !unguardedLeft (leftWord old) h) &&
        (lastDelimiter old || !unguardedRight (rightWord old) h)) = true) :
    PassGuard old new t := by
  unfold staticOK at hst
  simp only [Bool.and_eq_true, Bool.or_eq_true, decide_eq_true_eq,
    Bool.not_eq_true_eq_eq_false] at hst
  obtain ⟨⟨-, hsl⟩, hsr⟩ := hst
  have nt : ∀ b : Bool, b = false → ¬ b = true := fun b hb => by rw [hb]; decide
  rcases kind_cases old new hk with hn | ⟨hn, hh, hl⟩ | hd
  · rw [if_pos hn] at hsep
    simp only [Bool.and_eq_true, Bool.or_eq_true, Bool.not_eq_true_eq_eq_false] at hsep
    rcases hsep with ⟨h1, h2⟩ | ⟨h1, h2⟩
    · have hs := hsl.resolve_left (nt _ h1)
      exact Or.inl ⟨hn, h1, GuardedLeft_of_separated h old t hinv h2 hs.1 hs.2⟩
    · have hs := hsr.resolve_left (nt _ h1)
      exact Or.inr (Or.inl ⟨hn, h1, GuardedRight_of_separated h old t hinv h2 hs.1 hs.2⟩)
  · have hne : new ≠ [] := by
      rcases hn with hn | hn <;> rw [hn] <;> decide
    rw [if_neg hne] at hsep
    simp only [Bool.and_eq_true, Bool.or_eq_true, Bool.not_eq_true_eq_eq_false] at hsep
    have h1 := hsep.1.resolve_left (nt _ hh)
    have h2 := hsep.2.resolve_left (nt _ hl)
    have hs1 := hsl.resolve_left (nt _ hh)
    have hs2 := hsr.resolve_left (nt _ hl)
    exact Or.inr (Or.inr (Or.inl ⟨hn, hh, hl,
      GuardedLeft_of_separated h old t hinv h1 hs1.1 hs1.2,
      GuardedRight_of_separated h old t hinv h2 hs2.1 hs2.2⟩))
  · exact Or.inr (Or.inr (Or.inr hd))

theorem run_of_new (old new x : Str) (hk : kindOK old new = true)
    (hf : delimiterFree x = true) (hx : x ≠ []) (h : x <:+: new) :
    x <:+: "OS".toList ∨ x <:+: "Windows".toList := by
  rcases kind_cases old new hk with hn | ⟨hn, -, -⟩ | ⟨d, hn, hd⟩
  · rw [hn] at h
    exact absurd (List.infix_nil.1 h) hx
  · rcases hn with hn | hn
    · rw [hn] at h; exact Or.inl h
    · rw [hn] at h; exact Or.inr h
  · exfalso
    rw [hn] at h
    have hsub := h.subset
    cases x with
    | nil => exact hx rfl
    | cons c cs =>
      have hc : c = d := List.mem_singleton.1 (hsub (List.mem_cons_self _ _))
      rw [delimiterFree_cons, hc, hd] at hf
      exact absurd hf.1 (by decide)

/-- One replacement pass on a well-separated header: the delimiter-free runs of the text
stay runs of the header or of an inserted word, a word that was absent stays absent, and a
removed word is absent afterwards. -/
theorem pass_step (h old new t : Str) (hst : staticOK old = true)
    (hk : kindOK old new = true) (hp : passSeparated h old new = true)
    (hinv : RunsFrom h t) :
    RunsFrom h (strings.ReplaceAll t old new) ∧
    (∀ w, delimiterFree w = true → w ≠ [] → ¬ w <:+: "OS".toList →
      ¬ w <:+: "Windows".toList → ¬ w <:+: t → ¬ w <:+: strings.ReplaceAll t old new) ∧
    (new = [] → delimiterFree old = true → ¬ old <:+: strings.ReplaceAll t old new) := by
  have hne : old ≠ [] := by
    unfold staticOK at hst
    simp only [Bool.and_eq_true, decide_eq_true_eq] at hst
    exact hst.1.1
  unfold passSeparated at hp
  rw [Bool.or_eq_true] at hp
  rcases hp with hp | hp
  · rw [List.any_eq_true] at hp
    obtain ⟨q, hq, hqc⟩ := hp
    obtain ⟨q1, q2, q3, q4, q5⟩ := escapeWords_spec old q hq
    have hno : ¬ old <:+: t := by
      intro ho
      rcases hinv q q2 q1 (q3.trans ho) with h1 | h1 | h1
      · rw [(Contains_iff_sublist_run _ _).2 h1] at hqc
        exact absurd hqc (by decide)
      · exact q4 h1
      · exact q5 h1
    have hc : strings.Contains t old = false := by
      cases hcc : strings.Contains t old with
      | false => rfl
      | true => exact absurd ((Contains_iff_sublist_run _ _).1 hcc) hno
    rw [ReplaceAll_of_not_contains t old new hc]
    exact ⟨hinv, fun _ _ _ _ _ hw => hw, fun _ _ => hno⟩
  · have hg := PassGuard_of_separated h old new t hst hk hinv hp
    refine ⟨?_, ?_, ?_⟩
    · intro x hf hx hxr
      rcases ReplaceAll_runs old new hne t hg x hf hx hxr with h1 | h1
      · exact hinv x hf hx h1
      · exact Or.inr (run_of_new old new x hk hf hx h1)
    · intro w hf hw h1 h2 h3 hwr
      rcases ReplaceAll_runs old new hne t hg w hf hw hwr with h4 | h4
      · exact h3 h4
      · rcases run_of_new old new w hk hf hw h4 with h5 | h5
        · exact h1 h5
        · exact h2 h5
    · intro hn hf
      rw [hn] at hg ⊢
      exact ReplaceAll_removes old hne hf t hg

theorem clean_chain (h : Str) :
    ∀ (ps : List (Str × Str)) (t : Str),
      (∀ r ∈ ps, staticOK r.1 = true ∧ kindOK r.1 r.2 = true ∧
        passSeparated h r.1 r.2 = true) →
      RunsFrom h t →
      RunsFrom h (cleanWith ps t) ∧
      ∀ w, delimiterFree w = true → w ≠ [] → ¬ w <:+: "OS".toList →
        ¬ w <:+: "Windows".toList → (¬ w <:+: t ∨ (w, []) ∈ ps) →
        ¬ w <:+: cleanWith ps t := by
  intro ps
  induction ps with
  | nil =>
    intro t _ hinv
    refine ⟨hinv, fun w _ _ _ _ hw => ?_⟩
    rcases hw with hw | hw
    · exact hw
    · exact absurd hw (List.not_mem_nil _)
  | cons r ps ih =>
    intro t hps hinv
    obtain ⟨hst, hk, hp⟩ := hps r (List.mem_cons_self _ _)
    obtain ⟨s1, s2, s3⟩ := pass_step h r.1 r.2 t hst hk hp hinv
    obtain ⟨i1, i2⟩ := ih (strings.ReplaceAll t r.1 r.2)
      (fun q hq => hps q (List.mem_cons_of_mem _ hq)) s1
    have e : cleanWith (r :: ps) t = cleanWith ps (strings.ReplaceAll t r.1 r.2) := rfl
    rw [e]
    refine ⟨i1, fun w hf hw h1 h2 hor => ?_⟩
    apply i2 w hf hw h1 h2
    rcases hor with hor | hor
    · exact Or.inl (s2 w hf hw h1 h2 hor)
    · rcases List.mem_cons.1 hor with hr | hr
      · left
        have e1 : r.1 = w := by rw [← hr]
        have e2 : r.2 = [] := by rw [← hr]
        rw [← e1] at hf ⊢
        exact s3 e2 hf
      · exact Or.inr hr

theorem replacements_static :
    ∀ r ∈ replacements, staticOK r.1 = true ∧ kindOK r.1 r.2 = true := by
  decide

theorem boilerplate_static :
    ∀ w ∈ boilerplate, (w, ([] : Str)) ∈ replacements ∧ delimiterFree w = true ∧ w ≠ [] ∧
      strings.Contains "OS".toList w = false ∧ strings.Contains "Windows".toList w = false := by
  decide

theorem removeNoise_no_boilerplate (h w : Str) (hs : wellSeparated h = true)
    (hw : w ∈ boilerplate) : strings.Contains (removeNoise h) w = false := by
  obtain ⟨w1, w2, w3, w4, w5⟩ := boilerplate_static w hw
  unfold wellSeparated at hs
  rw [List.all_eq_true] at hs
  have hinv : RunsFrom h h := fun x _ _ hx => Or.inl hx
  have hchain := (clean_chain h replacements h
    (fun r hr => ⟨(replacements_static r hr).1, (replacements_static r hr).2, hs r hr⟩)
    hinv).2 w w2 w3
    (fun hh => by rw [(Contains_iff_sublist_run _ _).2 hh] at w4; exact absurd w4 (by decide))
    (fun hh => by rw [(Contains_iff_sublist_run _ _).2 hh] at w5; exact absurd w5 (by decide))
    (Or.inr w1)
  rw [removeNoise_eq_cleanWith]
  cases hc : strings.Contains (cleanWith replacements h) w with
  | false => rfl
  | true => exact absurd ((Contains_iff_sublist_run _ _).1 hc) hchain

/-- The condition holds of ordinary headers, with or without boilerplate, and of the empty
header; it fails on the three headers in which boilerplate survives the cleaning. -/
theorem wellSeparated_examples :
    wellSeparated "Mozilla/5.0 (X11; Linux; Intel) Chrome/1.0".toList = true ∧
    wellSeparated "curl/7.64.1".toList = true ∧
    wellSeparated [] = true ∧
    wellSeparated "MozKHTMLilla/5.0".toList = false ∧
    wellSeparated "aar[ch64".toList = false ∧
    wellSeparated "aarch6aarch644".toList = false := by
  decide

/-- C32, amended. Boilerplate is removed from well-separated headers.  A header `h` is
well separated when each replacement pass of `parseFields` either has a word of its search
text that does not occur in `h`, or is set off by delimiters (space, parenthesis, semicolon,
comma) or an end of `h`: for a removal, on the left of every occurrence in `h` of the first
word of the search text, or on the right of every occurrence of its last word; for the two
replacements by `OS` and `Windows`, on both.  For such `h` no token of `parseFields h`
contains any of the nine boilerplate substrings. -/
theorem boilerplate_removed_when_separated (h : Str) (hs : wellSeparated h = true)
    (f : Str) (hf : f ∈ parseFields h) (w : Str) (hw : w ∈ boilerplate) :
    strings.Contains f w = false := by
  cases hc : strings.Contains f w with
  | false => rfl
  | true =>
    have h1 := token_contains h f w hf hc
    rw [removeNoise_no_boilerplate h w hs hw] at h1
    exact absurd h1 (by decide)

/-- Witness of `boilerplate_removed_when_separated`: a Chrome header on Windows, which
carries six of the removed texts; its token `Chrome/100.0.4896.75` contains no `x64`. -/
theorem boilerplate_removed_when_separated_witness :
    wellSeparated ("Mozilla/5.0 (Windows NT 10.0; Win64; x64) " ++
      "AppleWebKit/537.36 (KHTML, like Gecko) Chrome/100.0.4896.75 Safari/537.36").toList =
      true ∧
    "Chrome/100.0.4896.75".toList ∈ parseFields ("Mozilla/5.0 (Windows NT 10.0; Win64; x64) " ++
      "AppleWebKit/537.36 (KHTML, like Gecko) Chrome/100.0.4896.75 Safari/537.36").toList ∧
    strings.Contains "Chrome/100.0.4896.75".toList "x64".toList = false :=
  ⟨by decide, by decide,
    boilerplate_removed_when_separated
      ("Mozilla/5.0 (Windows NT 10.0; Win64; x64) " ++
        "AppleWebKit/537.36 (KHTML, like Gecko) Chrome/100.0.4896.75 Safari/537.36").toList
      (by decide) "Chrome/100.0.4896.75".toList (by decide) "x64".toList (by decide)⟩

/-! ### `unquote` on strings that are not well-formed UTF-8 (C20) -/

theorem Char_toNat_valid (c : Char) :
    c.toNat < 0xD800 ∨ (0xDFFF < c.toNat ∧ c.toNat < 0x110000) := c.valid

theorem decodeRune_encodeRune (n : Nat)
    (hv : n < 0xD800 ∨ (0xDFFF < n ∧ n < 0x110000)) (rest : Bytes) :
    decodeRune (encodeRune n ++ rest) = (n, (encodeRune n).length) := by
  unfold encodeRune
  by_cases h1 : n < 0x80
  · rw [if_pos h1]
    simp only [List.singleton_append, decodeRune, if_pos h1, List.length_singleton]
  · rw [if_neg h1]
    by_cases h2 : n < 0x800
    · rw [if_pos h2]
      simp only [List.cons_append, List.nil_append, decodeRune, isCont]
      rw [if_neg (by omega), if_pos (by omega), if_pos (by simp; omega)]
      simp only [List.length_cons, List.length_nil, Prod.mk.injEq, and_true]
      omega
    · rw [if_neg h2, if_neg (by omega)]
      by_cases h3 : n < 0x10000
      · rw [if_pos h3]
        simp only [List.cons_append, List.nil_append, decodeRune, isCont, secondLo, secondHi]
        rw [if_neg (by omega), if_neg (by omega), if_pos (by omega),
          if_pos (by simp only [decide_eq_true_eq]; split_ifs <;> omega)]
        simp only [List.length_cons, List.length_nil, Prod.mk.injEq, and_true]
        omega
      · rw [if_neg h3]
        simp only [List.cons_append, List.nil_append, decodeRune, isCont, secondLo, secondHi]
        rw [if_neg (by omega), if_neg (by omega), if_neg (by omega), if_pos (by omega),
          if_pos (by simp only [decide_eq_true_eq]; split_ifs <;> omega)]
        simp only [List.length_cons, List.length_nil, Prod.mk.injEq, and_true]
        omega

theorem encodeRune_ne_nil (n : Nat) : encodeRune n ≠ [] := by
  unfold encodeRune
  split_ifs <;> exact List.cons_ne_nil _ _

theorem runesAux_skip (xs rest : Bytes) : runesAux xs.length (xs ++ rest) = runesAux 0 rest := by
  induction xs with
  | nil => rfl
  | cons x xs ih => simpa [runesAux] using ih

theorem runes_encodeRune (n : Nat) (hv : n < 0xD800 ∨ (0xDFFF < n ∧ n < 0x110000))
    (rest : Bytes) : runes (encodeRune n ++ rest) = n :: runes rest := by
  have hd := decodeRune_encodeRune n hv rest
  cases he : encodeRune n with
  | nil => exact absurd he (encodeRune_ne_nil n)
  | cons b bs =>
    rw [he] at hd
    unfold runes
    have e : runesAux 0 (b :: (bs ++ rest)) =
        (decodeRune (b :: (bs ++ rest))).1 ::
          runesAux ((decodeRune (b :: (bs ++ rest))).2 - 1) (bs ++ rest) := by
      simp only [runesAux]
    rw [List.cons_append, e]
    rw [List.cons_append] at hd
    rw [hd]
    simp only [List.length_cons, Nat.add_sub_cancel]
    rw [runesAux_skip]

theorem runes_utf8 (s : Str) : runes (utf8 s) = s.map Char.toNat := by
  induction s with
  | nil => rfl
  | cons c cs ih =>
    have h := runes_encodeRune c.toNat (Char_toNat_valid c) (utf8 cs)
    rw [ih] at h
    exact h

theorem toNat_eq_iff (c : Char) (n : Nat) (hn : (Char.ofNat n).toNat = n) :
    c.toNat = n ↔ c = Char.ofNat n := by
  constructor
  · intro h
    rw [← h, Char.ofNat_toNat]
  · intro h
    rw [h, hn]

theorem filter_quotes_map (s : Str) :
    (s.map Char.toNat).filter (fun r => decide (r ≠ 39 ∧ r ≠ 34)) =
      (s.filter (fun r => decide (r ≠ Char.ofNat 39 ∧ r ≠ Char.ofNat 34))).map Char.toNat := by
  induction s with
  | nil => rfl
  | cons c cs ih =>
    have h39 := toNat_eq_iff c 39 (by decide)
    have h34 := toNat_eq_iff c 34 (by decide)
    simp only [List.map_cons, List.filter_cons, ih, h39, h34, ne_eq]
    split_ifs <;> rfl

/-- On a well-formed string the byte-level `unquote` is the `unquote` on code points. -/
theorem unquoteBytes_utf8 (s : Str) : unquoteBytes (utf8 s) = utf8 (unquote s) := by
  unfold unquoteBytes
  rw [runes_utf8, filter_quotes_map, ← unquote_eq_filter]
  rfl

theorem stripQuotes_append (a b : Bytes) :
    stripQuotes (a ++ b) = stripQuotes a ++ stripQuotes b := by
  simp [stripQuotes]

theorem stripQuotes_encodeRune (c : Char) :
    stripQuotes (encodeRune c.toNat) =
      if c ≠ Char.ofNat 39 ∧ c ≠ Char.ofNat 34 then encodeRune c.toNat else [] := by
  have h39 := toNat_eq_iff c 39 (by decide)
  have h34 := toNat_eq_iff c 34 (by decide)
  unfold encodeRune stripQuotes
  by_cases h1 : c.toNat < 0x80
  · rw [if_pos h1]
    by_cases hq : c ≠ Char.ofNat 39 ∧ c ≠ Char.ofNat 34
    · have hk : decide (c.toNat ≠ 39 ∧ c.toNat ≠ 34) = true := by
        rw [decide_eq_true_eq, ne_eq, ne_eq, h39, h34]
        exact hq
      rw [if_pos hq]
      simp only [List.filter_cons, List.filter_nil]
      rw [hk]
      rfl
    · have hk : decide (c.toNat ≠ 39 ∧ c.toNat ≠ 34) = false := by
        rw [decide_eq_false_iff_not, ne_eq, ne_eq, h39, h34]
        exact hq
      rw [if_neg hq]
      simp only [List.filter_cons, List.filter_nil]
      rw [hk]
      rfl
  · have hq : c ≠ Char.ofNat 39 ∧ c ≠ Char.ofNat 34 := by
      constructor
      · intro e
        rw [← h39] at e
        omega
      · intro e
        rw [← h34] at e
        omega
    rw [if_neg h1, if_pos hq]
    have keep : ∀ b : Nat, 0x80 ≤ b → decide (b ≠ 39 ∧ b ≠ 34) = true := by
      intro b hb
      rw [decide_eq_true_eq]
      omega
    split_ifs
    · simp only [List.filter_cons, List.filter_nil]
      rw [keep _ (by omega), keep _ (by omega)]
      rfl
    · simp only [List.filter_cons, List.filter_nil]
      rw [keep _ (by omega), keep _ (by omega), keep _ (by omega)]
      rfl
    · simp only [List.filter_cons, List.filter_nil]
      rw [keep _ (by omega), keep _ (by omega), keep _ (by omega)]
      rfl
    · simp only [List.filter_cons, List.filter_nil]
      rw [keep _ (by omega), keep _ (by omega), keep _ (by omega), keep _ (by omega)]
      rfl

/-- On a well-formed string, filtering the quote bytes is filtering the quote
characters. -/
theorem stripQuotes_utf8 (s : Str) : stripQuotes (utf8 s) = utf8 (unquote s) := by
  induction s with
  | nil => rfl
  | cons c cs ih =>
    have e1 : utf8 (c :: cs) = encodeRune c.toNat ++ utf8 cs := rfl
    rw [e1, stripQuotes_append, stripQuotes_encodeRune, ih]
    simp only [unquote]
    by_cases h : c ≠ Char.ofNat 39 ∧ c ≠ Char.ofNat 34
    · rw [if_pos h, if_pos h]
      rfl
    · rw [if_neg h, if_neg h]
      rfl

/-- C20. `unquote` is the order-preserving filter of the two quote characters on every
well-formed string, but not on every string: it ranges over runes and encodes them again,
so each byte that is not valid UTF-8 comes back as the three bytes of `U+FFFD`.  The string
`a\xffb` has no quote, yet `unquote` returns `a\ufffdb` instead of the string itself. -/
theorem unquote_rewrites_invalid_bytes :
    (∀ s : Str, unquoteBytes (utf8 s) = stripQuotes (utf8 s)) ∧
    39 ∉ [0x61, 0xFF, 0x62] ∧ 34 ∉ [0x61, 0xFF, 0x62] ∧
    stripQuotes [0x61, 0xFF, 0x62] = [0x61, 0xFF, 0x62] ∧
    unquoteBytes [0x61, 0xFF, 0x62] = [0x61, 0xEF, 0xBF, 0xBD, 0x62] ∧
    unquoteBytes [0x61, 0xFF, 0x62] ≠ stripQuotes [0x61, 0xFF, 0x62] := by
  refine ⟨fun s => ?_, by decide, by decide, by decide, by decide, by decide⟩
  rw [unquoteBytes_utf8, stripQuotes_utf8]

end user_agent
